import Mathlib

/-!
# Verification of the HSDS python client's reflective JSON codec

This file gives a shallow embedding of the generic JSON codec implemented in
`hsds_api/_hsds_api.py` (the `JsonEncoder` class, the `_encode_timedelta` /
`_decode_timedelta` helpers, the `to_camel_case` / `to_snake_case` naming
transforms and the client's `_json_encoder_options` bundle), together with
models of the Python standard-library routines the codec calls
(`datetime.isoformat`, `datetime.fromisoformat`, `timedelta` construction,
`uuid.UUID`, `str.replace`, `str.title`, `str.lower`, `str.upper`).

Machine integers do not occur; Python integers are unbounded and are modelled
by `Nat`/`Int`.  Strings are modelled through their character lists (ASCII in
every reachable case).  Fallible Python code (code that raises) is modelled
with `Except PyErr`.
-/

namespace Hsds

set_option maxRecDepth 200000

/-- Error kinds, mirroring the Python exception classes raised by the codec
and by the standard-library routines it calls. -/
inductive PyErr where
  /-- the generic `Exception` raised by `_decode_timedelta` on a regex
  mismatch. -/
  | exn : PyErr
  /-- `ValueError` (malformed ISO timestamp or UUID text). -/
  | valueError : PyErr
  /-- `TypeError`: an operation applied to a value of the wrong shape —
  iterating a non-iterable, or `issubclass(origin, list)` applied to a
  generic origin that is not a class, such as `typing.Union`. -/
  | typeError : PyErr
  /-- `KeyError` (enum member lookup failure). -/
  | keyError : PyErr
  /-- `OverflowError` (`timedelta` outside its supported range). -/
  | overflowError : PyErr
deriving DecidableEq, Repr

/-! ## ASCII character helpers -/

def isDig (c : Char) : Bool := '0' ≤ c && c ≤ '9'

def isLowerAZ (c : Char) : Bool := 'a' ≤ c && c ≤ 'z'

def isUpperAZ (c : Char) : Bool := 'A' ≤ c && c ≤ 'Z'

def isAlphaAZ (c : Char) : Bool := isLowerAZ c || isUpperAZ c

/-- ASCII lower-casing of one character (the action of Python `str.lower`
on the ASCII strings this codec manipulates). -/
def lowerCh (c : Char) : Char := if isUpperAZ c then Char.ofNat (c.toNat + 32) else c

/-- ASCII upper-casing of one character. -/
def upperCh (c : Char) : Char := if isLowerAZ c then Char.ofNat (c.toNat - 32) else c

/-- Value of an ASCII decimal digit character. -/
def d2v (c : Char) : Nat := c.toNat - 48

/-- The ASCII character of a decimal digit. -/
def digCh (n : Nat) : Char :=
  match n with
  | 0 => '0' | 1 => '1' | 2 => '2' | 3 => '3' | 4 => '4'
  | 5 => '5' | 6 => '6' | 7 => '7' | 8 => '8' | _ => '9'

/-- The ASCII character of a hexadecimal digit, lower case (as produced by
Python `uuid.UUID.__str__`). -/
def hexCh (n : Nat) : Char :=
  match n with
  | 0 => '0' | 1 => '1' | 2 => '2' | 3 => '3' | 4 => '4'
  | 5 => '5' | 6 => '6' | 7 => '7' | 8 => '8' | 9 => '9'
  | 10 => 'a' | 11 => 'b' | 12 => 'c' | 13 => 'd' | 14 => 'e' | _ => 'f'

def isHexDig (c : Char) : Bool :=
  isDig c || ('a' ≤ c && c ≤ 'f') || ('A' ≤ c && c ≤ 'F')

/-- Value of a hexadecimal digit character (as understood by `int(s, 16)`
on the per-character level). -/
def h2v (c : Char) : Nat :=
  if isDig c then c.toNat - 48
  else if 'a' ≤ c && c ≤ 'f' then c.toNat - 87
  else c.toNat - 55

/-! ## Generic fixed-width numeral rendering and parsing -/

/-- `padBase b w n` renders `n % b^w` as exactly `w` digits in base `b`
(zero padded).  With `b = 10` this is Python's `"%0wd"` / `f"{n:0wd}"`
formatting of `n` whenever `n < 10^w`, which is the only way the encoder
uses it; with `b = 16` it is the zero-padded hex rendering used by
`uuid.UUID.__str__`. -/
def padBase (b : Nat) (ch : Nat → Char) : Nat → Nat → List Char
  | 0, _ => []
  | w + 1, n => padBase b ch w (n / b) ++ [ch (n % b)]

def pad2 (n : Nat) : List Char := padBase 10 digCh 2 n
def pad4 (n : Nat) : List Char := padBase 10 digCh 4 n
def pad6 (n : Nat) : List Char := padBase 10 digCh 6 n

/-- Decimal rendering with explicit fuel (structural recursion, so that the
kernel can evaluate it); `fuel > n` always holds at the call sites. -/
def natCharsAux : Nat → Nat → List Char
  | 0, _ => []
  | fuel + 1, n => if n < 10 then [digCh n] else natCharsAux fuel (n / 10) ++ [digCh (n % 10)]

/-- Decimal rendering of a natural number, mirroring Python `str(n)`. -/
def natChars (n : Nat) : List Char := natCharsAux (n + 1) n

/-- Decimal rendering of a Python integer, mirroring Python `str(i)`. -/
def intChars (i : Int) : List Char :=
  if i < 0 then '-' :: natChars i.natAbs else natChars i.toNat

/-- The value of a list of decimal digit characters (`int(s)` on a pure
digit string; leading zeros allowed). -/
def digitsVal (l : List Char) : Nat := l.foldl (fun a c => 10 * a + d2v c) 0

/-- The value of a list of hexadecimal digit characters (`int(s, 16)` on a
pure hex-digit string). -/
def hexVal (l : List Char) : Nat := l.foldl (fun a c => 16 * a + h2v c) 0

/-! ## The naming policy (`to_camel_case`, `to_snake_case`, and the
client's `property_name_encoder` / `property_name_decoder`) -/

/-- `value.split("_")` on the character level. -/
def splitUnderscore (l : List Char) : List (List Char) :=
  match l with
  | [] => [[]]
  | c :: rest =>
    let r := splitUnderscore rest
    if c = '_' then [] :: r
    else
      match r with
      | [] => [[c]]
      | w :: ws => (c :: w) :: ws

/-- Python `str.title` restricted to ASCII: a cased (= alphabetic) character
is upper-cased when the previous character is not cased and lower-cased
otherwise.  `prev` records whether the previous character was cased. -/
def pyTitleGo (prev : Bool) : List Char → List Char
  | [] => []
  | c :: rest =>
    (if isAlphaAZ c then (if prev then lowerCh c else upperCh c) else c)
      :: pyTitleGo (isAlphaAZ c) rest

def pyTitle (l : List Char) : List Char := pyTitleGo false l

/-- `to_camel_case` (`_hsds_api.py`): split on `_`, keep the first component,
`str.title` every later component, concatenate. -/
def to_camel_case (s : String) : String :=
  match splitUnderscore s.data with
  | [] => ""
  | w :: ws => ⟨w ++ (ws.map pyTitle).flatten⟩

/-- The substitution performed by `snake_case_pattern.sub(r"_\1", value)`:
insert `_` before every upper-case letter that is preceded by a lower-case
letter or digit, or that is not at the start and is followed by a lower-case
letter.  `prev = none` at the start of the string. -/
def snakeGo (prev : Option Char) : List Char → List Char
  | [] => []
  | c :: rest =>
    let ins :=
      isUpperAZ c &&
        (match prev with
         | none => false
         | some p =>
           (isLowerAZ p || isDig p) ||
             (match rest with
              | [] => false
              | n :: _ => isLowerAZ n))
    (if ins then ['_', c] else [c]) ++ snakeGo (some c) rest

/-- `to_snake_case` (`_hsds_api.py`): the regex substitution followed by
`str.lower`. -/
def to_snake_case (s : String) : String := ⟨(snakeGo none s.data).map lowerCh⟩

/-- Python `str.upper` (ASCII). -/
def upperStr (s : String) : String := ⟨s.data.map upperCh⟩

/-- The client's property name encoder
(`_json_encoder_options.property_name_encoder`):
`to_camel_case(value) if value != "class_" else "class"`. -/
def property_name_encoder (s : String) : String :=
  if s = "class_" then "class" else to_camel_case s

/-- The client's property name decoder
(`_json_encoder_options.property_name_decoder`):
`to_snake_case(value) if value != "class" else "class_"`. -/
def property_name_decoder (s : String) : String :=
  if s = "class" then "class_" else to_snake_case s

/-! ## The duration codec (`_encode_timedelta` / `_decode_timedelta`)

A Python `timedelta` is modelled by its total signed microsecond count
(`Int`); the normalized attributes `days`, `seconds`, `microseconds` are
floor-division projections, exactly as in CPython. -/

def usPerDay : Int := 86400000000

/-- `timedelta.days` (floor division, so negative durations borrow). -/
def tdDaysOf (us : Int) : Int := us.fdiv usPerDay

/-- `timedelta.seconds` (always in `[0, 86400)`). -/
def tdSecondsOf (us : Int) : Int := (us.fmod usPerDay).fdiv 1000000

/-- `timedelta.microseconds` (always in `[0, 1000000)`). -/
def tdMicrosecondsOf (us : Int) : Int := us.fmod 1000000

/-- The largest total microsecond count a Python `timedelta` can hold
(`timedelta.max` = 999999999 days, 23:59:59.999999); the smallest is
`-999999999` days exactly.  The constructor raises `OverflowError`
outside this range. -/
def tdMaxUs : Int := 86399999999999999999

def tdMinUs : Int := -86399999913600000000

/-- `_encode_timedelta` (`_hsds_api.py`):
`f"{int(value.days)}.{int(hours):02}:{int(minutes):02}:{int(seconds):02}.{value.microseconds:06d}0"`
with `hours, remainder = divmod(value.seconds, 3600)` and
`minutes, seconds = divmod(remainder, 60)`. -/
def _encode_timedelta (us : Int) : String :=
  let days := tdDaysOf us
  let secs := tdSecondsOf us
  let micro := tdMicrosecondsOf us
  let hours := secs.fdiv 3600
  let rem := secs.fmod 3600
  let minutes := rem.fdiv 60
  let seconds := rem.fmod 60
  ⟨intChars days ++ '.' :: pad2 hours.toNat ++ ':' :: pad2 minutes.toNat ++
    ':' :: pad2 seconds.toNat ++ '.' :: pad6 micro.toNat ++ ['0']⟩

/-- Read exactly two decimal digits. -/
def read2 : List Char → Option (Nat × List Char)
  | a :: b :: rest =>
    if isDig a && isDig b then some (d2v a * 10 + d2v b, rest) else none
  | _ => none

def expect (t : Char) : List Char → Option (List Char)
  | [] => none
  | c :: rest => if c = t then some rest else none

/-- The `([0-9]{2}):([0-9]{2}):([0-9]{2})(?:\.([0-9]+))?` tail of
`timedelta_pattern`, anchored on both sides. -/
def tdHMS (l : List Char) : Option (Nat × Nat × Nat × Option (List Char)) :=
  match read2 l with
  | none => none
  | some (h, r1) =>
    match expect ':' r1 with
    | none => none
    | some r2 =>
      match read2 r2 with
      | none => none
      | some (m, r3) =>
        match expect ':' r3 with
        | none => none
        | some r4 =>
          match read2 r4 with
          | none => none
          | some (s, r5) =>
            match r5 with
            | [] => some (h, m, s, none)
            | c :: fr =>
              if c = '.' && !fr.isEmpty && fr.all isDig then some (h, m, s, some fr)
              else none

/-- A full anchored match of
`^(?:([0-9]+)\.)?([0-9]{2}):([0-9]{2}):([0-9]{2})(?:\.([0-9]+))?$`
against a newline-free string: group 1 (the day digits, if present) and the
parsed `HH`/`MM`/`SS`/fraction groups.  The optional day group participates
exactly when a digit run followed by a literal `.` precedes the `HH:MM:SS`
core (the two alternatives cannot overlap, so this function is the regex). -/
def tdCore (l : List Char) :
    Option (Option (List Char) × Nat × Nat × Nat × Option (List Char)) :=
  match tdHMS l with
  | some (h, m, s, fr) => some (none, h, m, s, fr)
  | none =>
    if (l.takeWhile isDig).isEmpty then none
    else
      match l.drop (l.takeWhile isDig).length with
      | '.' :: rest =>
        (tdHMS rest).map (fun g => (some (l.takeWhile isDig), g.1, g.2.1, g.2.2.1, g.2.2.2))
      | _ => none

/-- `timedelta_pattern.match`: Python's `$` also matches just before a
single trailing newline, so a match against `core ++ "\n"` succeeds too. -/
def tdMatch (l : List Char) :
    Option (Option (List Char) × Nat × Nat × Nat × Option (List Char)) :=
  match tdCore l with
  | some g => some g
  | none => if l.getLast? = some '\n' then tdCore l.dropLast else none

/-- Round-half-to-even of `a / b` (`b > 0`): the IEEE-754 / Python `round`
tie-breaking rule, used below both for binary64 mantissa rounding and for
the integer rounding the `timedelta` constructor applies to a float
`microseconds` argument. -/
def rheDiv (a b : Nat) : Nat :=
  if 2 * (a % b) < b then a / b
  else if b < 2 * (a % b) then a / b + 1
  else if (a / b) % 2 = 0 then a / b else a / b + 1

/-- Tail-recursive fuel-driven floor of the base-2 logarithm
(`log2acc f n c = c + Nat.log2 n` whenever `n < 2 ^ f`). -/
def log2acc : Nat → Nat → Nat → Nat
  | 0, _, c => c
  | f + 1, n, c => if 2 ≤ n then log2acc f (n / 2) (c + 1) else c

/-- Fuel-driven floor of the base-2 logarithm (exact for `n < 2 ^ f`; the
codec feeds it quotients scaled by `2 ^ 1200`, and every quotient small
enough not to overflow binary64 stays below `2 ^ 2400`, so the fuel is
never exhausted on a value the overflow check does not already catch). -/
def log2fuel (f n : Nat) : Nat := log2acc f n 0

/-- The binary64 grid exponent for the positive rational `a / b`: with
`e = ⌊log₂ (a / b)⌋`, neighbouring representable doubles are `2 ^ (e - 52)`
apart in the normal range and `2 ^ (-1074)` apart in the subnormal range. -/
def dblExp (a b : Nat) : Int :=
  max ((log2fuel 2400 (a * 2 ^ 1200 / b) : Int) - 1200 - 52) (-1074)

/-- Round the nonnegative rational `a / b` (`b > 0`) to the nearest IEEE-754
binary64 value (round-to-nearest, ties-to-even), returned as an exact
numerator/denominator pair whose denominator is a power of two; `none`
models floating-point overflow (a rounded result of `2 ^ 1024` or beyond).
This is the rounding CPython applies both when converting an `int` to a
double (raising `OverflowError` in the `none` case) and when dividing one
double by another (IEEE division is correctly rounded). -/
def dblRound (a b : Nat) : Option (Nat × Nat) :=
  if a = 0 then some (0, 1)
  else if 0 ≤ dblExp a b then
    if rheDiv a (b * 2 ^ (dblExp a b).toNat) * 2 ^ (dblExp a b).toNat < 2 ^ 1024
    then some (rheDiv a (b * 2 ^ (dblExp a b).toNat) * 2 ^ (dblExp a b).toNat, 1)
    else none
  else some (rheDiv (a * 2 ^ (-dblExp a b).toNat) b, 2 ^ (-dblExp a b).toNat)

/-- `int(match.group(5)) / 10.0` followed by the `timedelta` constructor's
rounding of its float `microseconds` argument, exactly as CPython computes
it: the parsed integer is converted to a binary64 double (round half to
even; `OverflowError` when the rounded value reaches `2 ^ 1024`), divided
by `10.0` with a correctly rounded IEEE division, and the resulting double
is rounded half to even to an integer microsecond count.  For fraction
groups below `2 ^ 53` this agrees with exact division by ten under
round-half-to-even, but not in general: `7107521602475165645` yields
`710752160247516544` microseconds, not the exact-division value
`710752160247516564`. -/
def pyFrac10 (n : Nat) : Except PyErr Nat :=
  match dblRound n 1 with
  | none => .error .overflowError
  | some (p, q) =>
    match dblRound p (10 * q) with
    | none => .error .overflowError
    | some (r, t) => .ok (rheDiv r t)

/-- The `microseconds` argument of the `timedelta` call, as the integer it
contributes after rounding: `int(match.group(5)) / 10.0 if match.group(5)
else 0`. -/
def tdFracUs : Option (List Char) → Except PyErr Nat
  | none => .ok 0
  | some f => pyFrac10 (digitsVal f)

/-- The total microsecond count denoted by the regex groups
(`timedelta(days=.., hours=.., minutes=.., seconds=.., microseconds=..)`
before the range check); a missing day group counts as `0` days and `frus`
is the already-rounded microsecond argument. -/
def tdGroupsUs (day : Option (List Char)) (h m s frus : Nat) : Nat :=
  ((((match day with | none => 0 | some d => digitsVal d) * 24 + h) * 60 + m) * 60 + s) * 1000000
    + frus

/-- `_decode_timedelta` (`_hsds_api.py`): regex match (a mismatch raises a
plain `Exception`), conversion of the fraction group through binary
floating point, then `timedelta(...)` construction, which raises
`OverflowError` beyond 999999999 days. -/
def _decode_timedelta (s : String) : Except PyErr Int :=
  match tdMatch s.data with
  | none => .error .exn
  | some (day, h, m, sec, fr) =>
    match tdFracUs fr with
    | .error e => .error e
    | .ok frus =>
      if (tdGroupsUs day h m sec frus : Int) ≤ tdMaxUs then .ok (tdGroupsUs day h m sec frus)
      else .error .overflowError

/-- The decoder's outcome on the regex groups of a matching string:
fraction conversion through binary floating point, then the range check of
the `timedelta` constructor. -/
def tdOutcome (day : Option (List Char)) (hh mm ss : List Char)
    (fr : Option (List Char)) : Except PyErr Int :=
  match tdFracUs fr with
  | .error e => .error e
  | .ok frus =>
    if (tdGroupsUs day (digitsVal hh) (digitsVal mm) (digitsVal ss) frus : Int) ≤ tdMaxUs
    then .ok (tdGroupsUs day (digitsVal hh) (digitsVal mm) (digitsVal ss) frus)
    else .error .overflowError

example : _encode_timedelta 3600000000 = "0.01:00:00.0000000" := by decide
example : _encode_timedelta 259200487125000 = "3000.00:08:07.1250000" := by decide
example : _decode_timedelta "3000.00:08:07.1250000" = .ok 259200487125000 := by rfl
example : _decode_timedelta "12:08:07" = .ok 43687000000 := by rfl
example : _decode_timedelta "12:08:07.1250000" = .ok 43687125000 := by rfl
example : _decode_timedelta "3000.00:08:07" = .ok 259200487000000 := by rfl
example : _decode_timedelta "abc" = .error .exn := by rfl
example : _decode_timedelta "00.08:07" = .error .exn := by rfl
example : _decode_timedelta "1000000000.00:00:00" = .error .overflowError := by rfl
example : _decode_timedelta "00:08:07\n" = .ok 487000000 := by rfl
example : _encode_timedelta (-1000000) = "-1.23:59:59.0000000" := by decide
example : _decode_timedelta "00:00:00.7107521602475165645" = .ok 710752160247516544 := by rfl

/-! ## Python `str.replace` -/

/-- `str.replace` with explicit fuel (structural recursion so the kernel can
evaluate it); `fuel ≥ l.length` at every call site.  Python `str.replace`
scans left to right and replaces non-overlapping occurrences. -/
def replaceAux (pat rep : List Char) : Nat → List Char → List Char
  | 0, l => l
  | fuel + 1, l =>
    match l with
    | [] => []
    | c :: rest =>
      if !pat.isEmpty && pat.isPrefixOf (c :: rest) then
        rep ++ replaceAux pat rep fuel ((c :: rest).drop pat.length)
      else
        c :: replaceAux pat rep fuel rest

/-- Python `value.replace(pat, rep)` on the character level. -/
def replaceList (pat rep l : List Char) : List Char := replaceAux pat rep l.length l

/-! ## The timestamp codec

A Python `datetime` is modelled by its seven components plus an optional
fixed UTC offset in microseconds (`tzinfo = timezone(timedelta)`, the only
kind of `tzinfo` that `fromisoformat` produces and that `isoformat` needs).
A Python `datetime` object always satisfies `validDT` (its constructor
enforces the ranges), so the model functions are only ever applied to
valid values. -/

structure PyDatetime where
  year : Nat
  month : Nat
  day : Nat
  hour : Nat
  minute : Nat
  second : Nat
  microsecond : Nat
  /-- UTC offset in microseconds, `none` for a naive datetime. -/
  tz : Option Int
deriving DecidableEq, Repr

def leapYear (y : Nat) : Bool := y % 4 = 0 && (y % 100 ≠ 0 || y % 400 = 0)

def daysInMonth (y m : Nat) : Nat :=
  if m = 2 then (if leapYear y then 29 else 28)
  else if m = 4 || m = 6 || m = 9 || m = 11 then 30 else 31

/-- The invariant every Python `datetime` object satisfies (enforced by the
`datetime` and `timezone` constructors). -/
def validDT (d : PyDatetime) : Bool :=
  1 ≤ d.year && d.year ≤ 9999 && 1 ≤ d.month && d.month ≤ 12 &&
  1 ≤ d.day && d.day ≤ daysInMonth d.year d.month &&
  d.hour ≤ 23 && d.minute ≤ 59 && d.second ≤ 59 && d.microsecond ≤ 999999 &&
  (match d.tz with | none => true | some off => off.natAbs < 86400000000)

/-- The `±HH:MM[:SS[.ffffff]]` offset suffix of `datetime.isoformat`. -/
def offsetChars (off : Int) : List Char :=
  (if off < 0 then '-' else '+') :: pad2 (off.natAbs / 3600000000) ++
    ':' :: pad2 (off.natAbs % 3600000000 / 60000000) ++
    (if off.natAbs % 3600000000 % 60000000 / 1000000 ≠ 0 ||
        off.natAbs % 3600000000 % 60000000 % 1000000 ≠ 0 then
      ':' :: pad2 (off.natAbs % 3600000000 % 60000000 / 1000000) ++
        (if off.natAbs % 3600000000 % 60000000 % 1000000 ≠ 0 then
          '.' :: pad6 (off.natAbs % 3600000000 % 60000000 % 1000000)
        else [])
    else [])

/-- `datetime.isoformat()`:
`YYYY-MM-DDTHH:MM:SS[.ffffff][±HH:MM[:SS[.ffffff]]]`, the fraction emitted
exactly when `microsecond` is nonzero. -/
def isoChars (d : PyDatetime) : List Char :=
  pad4 d.year ++ '-' :: pad2 d.month ++ '-' :: pad2 d.day ++
  'T' :: pad2 d.hour ++ ':' :: pad2 d.minute ++ ':' :: pad2 d.second ++
  (if d.microsecond ≠ 0 then '.' :: pad6 d.microsecond else []) ++
  (match d.tz with
   | none => []
   | some off => offsetChars off)

/-- The registered datetime encoder
(`lambda value: value.isoformat().replace("+00:00", "Z")`). -/
def _encode_datetime (d : PyDatetime) : String :=
  ⟨replaceList ['+', '0', '0', ':', '0', '0'] ['Z'] (isoChars d)⟩

/-- Read exactly four decimal digits. -/
def read4 : List Char → Option (Nat × List Char)
  | a :: b :: c :: d :: rest =>
    if isDig a && isDig b && isDig c && isDig d then
      some (d2v a * 1000 + d2v b * 100 + d2v c * 10 + d2v d, rest)
    else none
  | _ => none

/-- CPython `_parse_isoformat_date` on the 10-character date prefix:
`YYYY-MM-DD` with digit components. -/
def parseIsoDate (l : List Char) : Option (Nat × Nat × Nat) := do
  let (y, r1) ← read4 l
  let r2 ← expect '-' r1
  let (mo, r3) ← read2 r2
  let r4 ← expect '-' r3
  let (dy, r5) ← read2 r4
  if r5 = [] then pure (y, mo, dy) else none

/-- CPython `_parse_hh_mm_ss_ff`: `HH[:MM[:SS[.fff|.ffffff]]]`, the
fraction accepted only with exactly 3 or 6 digits (3 digits are scaled by
1000). -/
def parseHmsFF (l : List Char) : Option (Nat × Nat × Nat × Nat) := do
  let (hh, r1) ← read2 l
  match r1 with
  | [] => pure (hh, 0, 0, 0)
  | ':' :: r2 => do
    let (mm, r3) ← read2 r2
    match r3 with
    | [] => pure (hh, mm, 0, 0)
    | ':' :: r4 => do
      let (ss, r5) ← read2 r4
      match r5 with
      | [] => pure (hh, mm, ss, 0)
      | '.' :: fr =>
        if fr.length = 3 && fr.all isDig then pure (hh, mm, ss, digitsVal fr * 1000)
        else if fr.length = 6 && fr.all isDig then pure (hh, mm, ss, digitsVal fr)
        else none
      | _ => none
    | _ => none
  | _ => none

/-- Split at the first occurrence of `t`, returning the parts before and
after it (`tstr.find(t)`). -/
def splitAtFirst (t : Char) : List Char → Option (List Char × List Char)
  | [] => none
  | c :: rest =>
    if c = t then some ([], rest)
    else
      match splitAtFirst t rest with
      | some (a, b) => some (c :: a, b)
      | none => none

/-- The offset-position scan of CPython `_parse_isoformat_time`:
`tz_pos = (tstr.find('-') + 1 or tstr.find('+') + 1)` — the offset starts
after the first `-` if any, else after the first `+`. -/
def tzSplit (l : List Char) : Option (List Char × Bool × List Char) :=
  match splitAtFirst '-' l with
  | some (a, b) => some (a, true, b)
  | none =>
    match splitAtFirst '+' l with
    | some (a, b) => some (a, false, b)
    | none => none

/-- The offset-string handling of `_parse_isoformat_time`: the offset
string must have length 5, 8 or 15; an offset whose components are all
zero yields `timezone.utc`; a nonzero offset must be strictly within
±24 hours (`timezone(...)` raises otherwise). -/
def parseTzStr (neg : Bool) (tzstr : List Char) : Option (Option Int) :=
  if tzstr.length = 5 || tzstr.length = 8 || tzstr.length = 15 then
    (parseHmsFF tzstr).bind (fun g =>
      if g.1 = 0 && g.2.1 = 0 && g.2.2.1 = 0 && g.2.2.2 = 0 then some (some 0)
      else
        if (g.1 * 3600 + g.2.1 * 60 + g.2.2.1) * 1000000 + g.2.2.2 < 86400000000 then
          some (some ((if neg then -1 else 1) *
            ((((g.1 * 3600 + g.2.1 * 60 + g.2.2.1) * 1000000 + g.2.2.2 : Nat)) : Int)))
        else none)
  else none

/-- CPython `_parse_isoformat_time`. -/
def parseIsoTime (l : List Char) : Option ((Nat × Nat × Nat × Nat) × Option Int) :=
  if l.length < 2 then none
  else
    match tzSplit l with
    | none => (parseHmsFF l).map (fun t => (t, none))
    | some (timestr, neg, tzstr) =>
      (parseHmsFF timestr).bind (fun t => (parseTzStr neg tzstr).map (fun tzi => (t, tzi)))

/-- CPython 3.9 `datetime.fromisoformat`: date from the first 10
characters, time from character 11 on (character 10, the separator, is
skipped without inspection), then the `datetime` constructor's range
validation. -/
def fromiso (l : List Char) : Except PyErr PyDatetime :=
  match parseIsoDate (l.take 10) with
  | none => .error .valueError
  | some (y, mo, dy) =>
    match (if (l.drop 11).isEmpty then some ((0, 0, 0, 0), none)
           else parseIsoTime (l.drop 11)) with
    | none => .error .valueError
    | some ((hh, mi, ss, us), tz) =>
      if 1 ≤ y && y ≤ 9999 && 1 ≤ mo && mo ≤ 12 && 1 ≤ dy && dy ≤ daysInMonth y mo
          && hh ≤ 23 && mi ≤ 59 && ss ≤ 59 && us ≤ 999999 then
        .ok ⟨y, mo, dy, hh, mi, ss, us, tz⟩
      else .error .valueError

/-- The registered datetime decoder
(`lambda _, value: datetime.fromisoformat((value[0:26] + value[26 + 1:]).replace("Z", "+00:00"))`):
drop the character at index 26 (if any), rewrite every `Z` to `+00:00`,
parse. -/
def _decode_datetime (s : String) : Except PyErr PyDatetime :=
  fromiso (replaceList ['Z'] ['+', '0', '0', ':', '0', '0']
    (s.data.take 26 ++ s.data.drop 27))

example : _encode_datetime ⟨2024, 1, 2, 3, 4, 5, 0, none⟩ = "2024-01-02T03:04:05" := by decide
example : _encode_datetime ⟨2024, 1, 2, 3, 4, 5, 123456, none⟩ = "2024-01-02T03:04:05.123456" := by decide
example : _encode_datetime ⟨2024, 1, 2, 3, 4, 5, 0, some 0⟩ = "2024-01-02T03:04:05Z" := by decide
example : _encode_datetime ⟨2024, 1, 2, 3, 4, 5, 123456, some 0⟩ = "2024-01-02T03:04:05.123456Z" := by decide
example : _encode_datetime ⟨2024, 1, 2, 3, 4, 5, 0, some 3600000000⟩ = "2024-01-02T03:04:05+01:00" := by decide
example : _encode_datetime ⟨2024, 1, 2, 3, 4, 5, 0, some (-18000000000)⟩ = "2024-01-02T03:04:05-05:00" := by decide
example : _decode_datetime "2024-01-02T03:04:05.123456" = .ok ⟨2024, 1, 2, 3, 4, 5, 123456, none⟩ := by rfl
example : _decode_datetime "2024-01-02T03:04:05Z" = .ok ⟨2024, 1, 2, 3, 4, 5, 0, some 0⟩ := by rfl
example : _decode_datetime "2024-01-02T03:04:05+01:00" = .ok ⟨2024, 1, 2, 3, 4, 5, 0, some 3600000000⟩ := by rfl
example : _decode_datetime "2024-01-02T03:04:05.123456Z" = .ok ⟨2024, 1, 2, 3, 4, 5, 123456, none⟩ := by rfl
example : _decode_datetime "2024-01-02T03:04:05.123456+01:00" = .error .valueError := by rfl
example : _decode_datetime "2021-05-25T00:30:12.000000Z" = .ok ⟨2021, 5, 25, 0, 30, 12, 0, none⟩ := by rfl

/-! ## The unique-identifier codec -/

/-- `uuid.UUID.__str__`: 32 lower-case hex digits grouped 8-4-4-4-12. -/
def uuidChars (n : Nat) : List Char :=
  (padBase 16 hexCh 32 n).take 8 ++ '-' :: (((padBase 16 hexCh 32 n).drop 8).take 4 ++
    '-' :: (((padBase 16 hexCh 32 n).drop 12).take 4 ++
      '-' :: (((padBase 16 hexCh 32 n).drop 16).take 4 ++
        '-' :: (padBase 16 hexCh 32 n).drop 20)))

/-- The registered UUID encoder (`lambda value: str(value)`). -/
def _encode_uuid (n : Nat) : String := ⟨uuidChars n⟩

/-- Python `hex.strip("{}")`. -/
def stripBraces (l : List Char) : List Char :=
  (((l.dropWhile (fun c => c = '{' || c = '}')).reverse.dropWhile
      (fun c => c = '{' || c = '}')).reverse)

/-- The registered UUID decoder (`lambda _, value: UUID(value)`), following
`uuid.UUID.__init__`: delete every occurrence of `urn:` and `uuid:`, strip
`{`/`}` from both ends, delete every `-`, require exactly 32 hex digits
(`int(hex, 16)`; the model reads plain hex digits, which covers every
canonical form). -/
def _decode_uuid (s : String) : Except PyErr Nat :=
  let h1 := replaceList ['u', 'r', 'n', ':'] [] s.data
  let h2 := replaceList ['u', 'u', 'i', 'd', ':'] [] h1
  let h3 := (stripBraces h2).filter (fun c => c ≠ '-')
  if h3.length = 32 && h3.all isHexDig then .ok (hexVal h3) else .error .valueError

example : _encode_uuid 1 = "00000000-0000-0000-0000-000000000001" := by decide
example : _decode_uuid "00000000-0000-0000-0000-000000000001" = .ok 1 := by rfl
example : _decode_uuid "123e4567-e89b-12d3-a456-426614174000" = .ok 0x123e4567e89b12d3a456426614174000 := by rfl
example : _decode_uuid "nope" = .error .valueError := by rfl

/-! ## The value and type universes

`Ty` models the runtime type descriptors the decoder dispatches on
(`typing.get_origin` / `typing.get_args` / `dataclasses.is_dataclass` /
the `__mro__` walk): primitives, `NoneType`, `object`-like `Any`, the
registered scalar types, `Union[...]` (with `Optional[t] = Union[t, None]`
as `union [t, noneT]`), `list[t]`, `dict[k, v]`, and frozen dataclasses
with their ordered `(field, type)` lists.

`Val` models Python values on both sides of the codec: JSON-tree values
(`none`/`bool`/`int`/`float`/`str`/`list`/`dict`) plus typed values
(dataclass instances with ordered field maps, `datetime`, `timedelta`,
enum members carried with their declared member name, `UUID`).  Python
floats only ever pass through the codec untouched, so they are carried
as an opaque rational payload. -/

inductive Ty where
  | any | noneT | int | float | bool | str
  | datetime | timedelta | uuid
  | enum (name : String) (members : List String)
  | union (args : List Ty)
  | list (elem : Ty)
  | dict (key value : Ty)
  | record (name : String) (fields : List (String × Ty))

inductive Val where
  | none
  | bool (b : Bool)
  | int (n : Int)
  | float (q : ℚ)
  | str (s : String)
  | list (items : List Val)
  | dict (entries : List (String × Val))
  | record (name : String) (fields : List (String × Val))
  | datetime (d : PyDatetime)
  | timedelta (us : Int)
  | enumv (name : String) (member : String)
  | uuid (n : Nat)

/-! The nesting depth of a type descriptor, used as (always sufficient)
fuel for the decoder.  The decoder recurses on explicit fuel so that it is
structurally recursive and the kernel can evaluate it; every recursive
call strictly decreases `tyFuel` of the target type, and fuel-insensitivity
lemmas below recover the usual unfolding equations. -/

mutual

def tyFuel : Ty → Nat
  | .union args => 1 + tyFuelL args
  | .list t => 1 + tyFuel t
  | .dict k v => 1 + tyFuel k + tyFuel v
  | .record _ fts => 1 + tyFuelF fts
  | _ => 1

def tyFuelL : List Ty → Nat
  | [] => 0
  | t :: ts => tyFuel t + tyFuelL ts

def tyFuelF : List (String × Ty) → Nat
  | [] => 0
  | p :: ps => tyFuel p.2 + tyFuelF ps

end

/-! ## The encoder (`JsonEncoder._try_encode` with `_json_encoder_options`) -/

mutual

/-- `JsonEncoder._try_encode` specialised to the client's
`_json_encoder_options`: `None` passes through; lists and dicts recurse
(dict keys untouched); dataclass instances become dicts keyed by
`property_name_encoder` of each field name, in declaration order, nulls
included; then the registered encoders (datetime, timedelta, Enum, UUID)
are consulted along the value's MRO; anything else (int, float, bool,
str) is returned unchanged. -/
def _try_encode : Val → Val
  | .none => .none
  | .list xs => .list (encList xs)
  | .dict es => .dict (encPairs es)
  | .record _ fvs => .dict (encFields fvs)
  | .datetime d => .str (_encode_datetime d)
  | .timedelta us => .str (_encode_timedelta us)
  | .enumv _ m => .str (to_camel_case m)
  | .uuid n => .str (_encode_uuid n)
  | v => v

/-- The list comprehension of `_try_encode`'s list branch. -/
def encList : List Val → List Val
  | [] => []
  | v :: vs => _try_encode v :: encList vs

/-- The dict comprehension of `_try_encode`'s dict branch (keys are not
renamed). -/
def encPairs : List (String × Val) → List (String × Val)
  | [] => []
  | p :: es => (p.1, _try_encode p.2) :: encPairs es

/-- The dict comprehension of `_try_encode`'s dataclass branch (iterating
`value.__dict__`, i.e. the declared fields in declaration order, renaming
each field name with `property_name_encoder`). -/
def encFields : List (String × Val) → List (String × Val)
  | [] => []
  | p :: es => (property_name_encoder p.1, _try_encode p.2) :: encFields es

end

/-! ## The decoder (`JsonEncoder._decode` with `_json_encoder_options`) -/

/-- `Except`-valued map over a list (element order preserved, first error
wins), mirroring the decoder's element loops. -/
def mapME (f : α → Except PyErr β) : List α → Except PyErr (List β)
  | [] => .ok []
  | a :: as => do
    let b ← f a
    let bs ← mapME f as
    .ok (b :: bs)

/-- `type_hints.get(key)` on the ordered field list of a dataclass. -/
def tyLookup (fts : List (String × Ty)) (k : String) : Option Ty :=
  match fts with
  | [] => none
  | p :: rest => if p.1 = k then some p.2 else tyLookup rest k

/-- Python dict item assignment `m[k] = v`: overwrite in place if the key
exists, else append. -/
def assocSet (m : List (String × Val)) (k : String) (v : Val) : List (String × Val) :=
  if m.any (fun p => p.1 = k) then m.map (fun p => if p.1 = k then (k, v) else p)
  else m ++ [(k, v)]

/-- The backfill defaults of `JsonEncoder._decode`: a field hinted exactly
`int` gets `0`, exactly `float` gets `0.0`, everything else `None`. -/
def defaultFor : Ty → Val
  | .int => .int 0
  | .float => .float 0
  | _ => .none

/-- The backfill loop: for every declared field not yet staged, append its
default. -/
def backfill (fts : List (String × Ty)) (staged : List (String × Val)) : List (String × Val) :=
  fts.foldl
    (fun acc kt => if acc.any (fun p => p.1 = kt.1) then acc else acc ++ [(kt.1, defaultFor kt.2)])
    staged

/-- Value lookup in a staged parameter list. -/
def valLookup (params : List (String × Val)) (k : String) : Option Val :=
  match params with
  | [] => none
  | p :: rest => if p.1 = k then some p.2 else valLookup rest k

/-- `typeCls(**parameters)`: the dataclass constructor stores the declared
fields in declaration order, each taken from the (total, by backfill)
parameter map. -/
def mkRecord (fts : List (String × Ty)) (params : List (String × Val)) : List (String × Val) :=
  fts.map (fun kt => (kt.1, (match valLookup params kt.1 with | some v => v | none => .none)))

/-- The wire-key loop of `JsonEncoder._decode`'s dataclass branch: each
wire key is renamed by `property_name_decoder`; keys naming a declared
field have their value decoded against the declared type and staged
(`parameters[key] = value`); unknown keys are ignored. -/
def stageEntries (dec : Ty → Val → Except PyErr Val) (fts : List (String × Ty)) :
    List (String × Val) → List (String × Val) → Except PyErr (List (String × Val))
  | [], acc => .ok acc
  | e :: rest, acc =>
    let key := property_name_decoder e.1
    match tyLookup fts key with
    | some pt => do
      let dv ← dec pt e.2
      stageEntries dec fts rest (assocSet acc key dv)
    | none => stageEntries dec fts rest acc

def isNoneTy : Ty → Bool
  | .noneT => true
  | _ => false

def decodeAux : Nat → Ty → Val → Except PyErr Val
  | 0, _, _ => .error .exn
  | fuel + 1, t, data =>
    match data, t with
    | .none, _ => .ok .none
    | d, .any => .ok d
    | d, .union args =>
      if args.any isNoneTy then
        match args with
        | a :: _ => decodeAux fuel a d
        | [] => .error .exn
      else
        -- `typing.get_origin` of such a union is `typing.Union`, which is
        -- not a class, so the `issubclass(origin, list)` test at line 107
        -- itself raises `TypeError`; the explicit `raise Exception` at
        -- line 132 is unreachable for union targets.
        .error .typeError
    | d, .list et =>
      match d with
      | .list xs => .list <$> mapME (decodeAux fuel et) xs
      | .str s => .list <$> mapME (decodeAux fuel et) (s.data.map (fun c => Val.str ⟨[c]⟩))
      | .dict es => .list <$> mapME (decodeAux fuel et) (es.map (fun p => Val.str p.1))
      | _ => .error .typeError
    | d, .dict _ vt =>
      match d with
      | .dict es => .dict <$> mapME (fun p => (decodeAux fuel vt p.2).map (fun w => (p.1, w))) es
      | _ => .error .typeError
    | d, .record nm fts =>
      match d with
      | .dict es => do
        let staged ← stageEntries (decodeAux fuel) fts es []
        .ok (.record nm (mkRecord fts (backfill fts staged)))
      | _ => .error .typeError
    | d, .datetime =>
      match d with
      | .str s => .datetime <$> _decode_datetime s
      | _ => .error .typeError
    | d, .timedelta =>
      match d with
      | .str s => .timedelta <$> _decode_timedelta s
      | _ => .error .typeError
    | d, .enum en mems =>
      match d with
      | .str s =>
        let key := upperStr (to_snake_case s)
        if mems.contains key then .ok (.enumv en key) else .error .keyError
      | _ => .error .typeError
    | d, .uuid =>
      match d with
      | .str s => .uuid <$> _decode_uuid s
      | _ => .error .typeError
    | d, _ => .ok d

/-- `JsonEncoder._decode` specialised to the client's
`_json_encoder_options`: `None` data passes through; `Any` targets pass
through; a generic target is `Optional` (recurse on the first type
argument), `list`, or `dict` — any other generic fails (for a union
target the `issubclass(origin, list)` test at line 107 itself raises
`TypeError`, `typing.Union` not being a class; the explicit
`raise Exception` at line 132 fires only for class-valued origins such as
`tuple` or `set`, which the generated client never declares); dataclass
targets decode field-wise with default backfill; then registered decoders
(datetime, timedelta, Enum, UUID) along the target's MRO; any remaining
target returns the data unchanged. -/
def decode (t : Ty) (data : Val) : Except PyErr Val := decodeAux (tyFuel t) t data

/-! ## Typing and value-wellformedness predicates

`hasTy v t` states that the Python value modelled by `v` is an instance of
the type modelled by `t` in exactly the situations the spec's round-trip
property quantifies over: primitives, nested records (field lists aligned
with the declared fields, declared field names distinct as they are in a
dataclass), homogeneous lists, string-keyed dicts, `Optional` fields, and
the registered scalar types (each value satisfying the invariant its
Python constructor enforces). -/

def hasTyAux : Nat → Val → Ty → Bool
  | 0, _, _ => false
  | fuel + 1, v, t =>
    match v, t with
    | .none, .union [_, .noneT] => true
    | v, .union [t1, .noneT] => hasTyAux fuel v t1
    | .int _, .int => true
    | .float _, .float => true
    | .bool _, .bool => true
    | .str _, .str => true
    | .datetime d, .datetime => validDT d
    | .timedelta us, .timedelta => decide (tdMinUs ≤ us) && decide (us ≤ tdMaxUs)
    | .uuid n, .uuid => decide (n < 2 ^ 128)
    | .enumv en m, .enum en2 mems => en == en2 && mems.contains m
    | .list xs, .list et => xs.all (fun x => hasTyAux fuel x et)
    | .dict es, .dict _ vt => es.all (fun p => hasTyAux fuel p.2 vt)
    | .record vn fvs, .record tn fts =>
      vn == tn && fvs.length == fts.length &&
      (fvs.zip fts).all (fun q => q.1.1 == q.2.1 && hasTyAux fuel q.1.2 q.2.2) &&
      decide ((fts.map Prod.fst).Nodup)
    | _, _ => false

def hasTy (v : Val) (t : Ty) : Bool := hasTyAux (tyFuel t) v t

/-- The timestamp restriction under which the codec round-trips: naive, or
timezone-aware with zero microseconds and a whole-minute offset. -/
def dtGood (d : PyDatetime) : Bool :=
  match d.tz with
  | none => true
  | some off => d.microsecond == 0 && off.emod 60000000 == 0

mutual

/-- The working-vocabulary conditions of the spec, recursively over a
value: every record field name round-trips through the client naming
policy, every enum member name round-trips through the enum codec's
transform pair, timestamps satisfy `dtGood`, durations are nonnegative. -/
def goodVal : Val → Bool
  | .record _ fvs => goodFields fvs
  | .list xs => goodList xs
  | .dict es => goodPairs es
  | .enumv _ m => upperStr (to_snake_case (to_camel_case m)) == m
  | .datetime d => dtGood d
  | .timedelta us => decide (0 ≤ us)
  | _ => true

def goodList : List Val → Bool
  | [] => true
  | v :: vs => goodVal v && goodList vs

def goodPairs : List (String × Val) → Bool
  | [] => true
  | p :: es => goodVal p.2 && goodPairs es

def goodFields : List (String × Val) → Bool
  | [] => true
  | p :: es =>
    (property_name_decoder (property_name_encoder p.1) == p.1) && goodVal p.2 && goodFields es

end

/-! ## Fuel adequacy for the decoder -/

theorem tyFuel_pos (t : Ty) : 1 ≤ tyFuel t := by
  cases t <;> simp only [tyFuel] <;> omega

theorem tyFuel_head_le (a : Ty) (rest : List Ty) : tyFuel a ≤ tyFuelL (a :: rest) := by
  simp only [tyFuelL]
  omega

theorem tyFuel_of_lookup :
    ∀ (fts : List (String × Ty)) (k : String) (pt : Ty),
      tyLookup fts k = some pt → tyFuel pt ≤ tyFuelF fts := by
  intro fts
  induction fts with
  | nil => intro k pt h; simp [tyLookup] at h
  | cons p rest ih =>
    intro k pt h
    simp only [tyLookup] at h
    by_cases hc : p.1 = k
    · simp only [hc, if_true] at h
      cases h
      simp only [tyFuelF]
      omega
    · simp only [hc, if_false] at h
      have := ih k pt h
      simp only [tyFuelF]
      omega

theorem mapME_congr {α β : Type} (f g : α → Except PyErr β) (h : ∀ a, f a = g a) :
    ∀ l : List α, mapME f l = mapME g l := by
  intro l
  induction l with
  | nil => rfl
  | cons a as ih => simp [mapME, h a, ih]

theorem stageEntries_congr (dec1 dec2 : Ty → Val → Except PyErr Val)
    (fts : List (String × Ty))
    (h : ∀ k pt v, tyLookup fts k = some pt → dec1 pt v = dec2 pt v) :
    ∀ (es acc : List (String × Val)),
      stageEntries dec1 fts es acc = stageEntries dec2 fts es acc := by
  intro es
  induction es with
  | nil => intro acc; rfl
  | cons e rest ih =>
    intro acc
    simp only [stageEntries]
    cases hl : tyLookup fts (property_name_decoder e.1) with
    | none => exact ih acc
    | some pt =>
      show (dec1 pt e.2 >>= fun dv =>
          stageEntries dec1 fts rest (assocSet acc (property_name_decoder e.1) dv)) =
        (dec2 pt e.2 >>= fun dv =>
          stageEntries dec2 fts rest (assocSet acc (property_name_decoder e.1) dv))
      rw [h _ pt e.2 hl]
      cases dec2 pt e.2 with
      | error err => rfl
      | ok dv => exact ih _

/-- The decoder is insensitive to the exact fuel value as long as the fuel
covers the target type's nesting depth. -/
theorem decodeAux_fuel :
    ∀ (f : Nat) (t : Ty) (d : Val), tyFuel t ≤ f →
      decodeAux f t d = decodeAux (tyFuel t) t d := by
  intro f
  induction f using Nat.strong_induction_on with
  | _ f IH =>
    intro t d hf
    have hpos := tyFuel_pos t
    obtain ⟨k, hk⟩ : ∃ k, tyFuel t = k + 1 := ⟨tyFuel t - 1, by omega⟩
    obtain ⟨f', rfl⟩ : ∃ f', f = f' + 1 := ⟨f - 1, by omega⟩
    rw [hk]
    have hk_lt : k + 1 ≤ f' + 1 := by omega
    -- both sides now unfold one step of the match
    have canon : ∀ (t' : Ty) (d' : Val), tyFuel t' ≤ k → tyFuel t' ≤ f' →
        decodeAux f' t' d' = decodeAux k t' d' := by
      intro t' d' h1 h2
      by_cases hkf : k = f'
      · rw [hkf]
      · rw [IH f' (by omega) t' d' h2, IH k (by omega) t' d' h1]
    cases t with
    | union args =>
      cases d <;> simp only [decodeAux] <;> try rfl
      all_goals {
        cases hn : args.any isNoneTy <;>
          simp only [Bool.false_eq_true, if_true, if_false, reduceIte]
        cases args with
        | nil => rfl
        | cons a rest =>
          have ha : tyFuel a ≤ k := by
            have h1 := tyFuel_head_le a rest
            simp [tyFuel] at hk
            omega
          exact canon a _ ha (by omega)
      }
    | list et =>
      have he : tyFuel et ≤ k := by
        simp [tyFuel] at hk
        omega
      cases d <;> simp only [decodeAux] <;> try rfl
      · exact congrArg _ (mapME_congr _ _ (fun a => canon et a he (by omega)) _)
      · exact congrArg _ (mapME_congr _ _ (fun a => canon et a he (by omega)) _)
      · exact congrArg _ (mapME_congr _ _ (fun a => canon et a he (by omega)) _)
    | dict kt vt =>
      have he : tyFuel vt ≤ k := by
        simp [tyFuel] at hk
        omega
      cases d <;> simp only [decodeAux]
      exact congrArg _ (mapME_congr _ _ (fun p => by rw [canon vt p.2 he (by omega)]) _)
    | record nm fts =>
      cases d <;> simp only [decodeAux]
      rw [stageEntries_congr (decodeAux f') (decodeAux k) fts (fun key pt v hl => by
        have hp : tyFuel pt ≤ k := by
          have := tyFuel_of_lookup fts key pt hl
          simp [tyFuel] at hk
          omega
        exact canon pt v hp (by omega))]
    | any => cases d <;> rfl
    | noneT => cases d <;> rfl
    | int => cases d <;> rfl
    | float => cases d <;> rfl
    | bool => cases d <;> rfl
    | str => cases d <;> rfl
    | datetime => cases d <;> rfl
    | timedelta => cases d <;> rfl
    | uuid => cases d <;> rfl
    | enum en mems => cases d <;> rfl

/-! ### Canonical unfolding equations for `decode` -/

theorem tyFuel_succ (t : Ty) : tyFuel t = (tyFuel t - 1) + 1 := by
  have := tyFuel_pos t
  omega

theorem decode_none (t : Ty) : decode t .none = .ok .none := by
  unfold decode
  rw [tyFuel_succ t]
  cases t <;> rfl

theorem decode_list_list (et : Ty) (xs : List Val) :
    decode (.list et) (.list xs) = Val.list <$> mapME (decode et) xs := by
  unfold decode
  have h : tyFuel (Ty.list et) = tyFuel et + 1 := by
    simp only [tyFuel]
    omega
  rw [h]
  simp only [decodeAux]

theorem decode_dict_dict (kt vt : Ty) (es : List (String × Val)) :
    decode (.dict kt vt) (.dict es) =
      Val.dict <$> mapME (fun p => (decode vt p.2).map (fun w => (p.1, w))) es := by
  unfold decode
  have h : tyFuel (Ty.dict kt vt) = (tyFuel kt + tyFuel vt) + 1 := by
    simp only [tyFuel]
    omega
  rw [h]
  simp only [decodeAux]
  refine congrArg _ (mapME_congr _ _ (fun p => ?_) _)
  rw [decodeAux_fuel _ vt p.2 (by omega)]

theorem decode_record_dict (nm : String) (fts : List (String × Ty)) (es : List (String × Val)) :
    decode (.record nm fts) (.dict es) =
      (stageEntries decode fts es []) >>= fun staged =>
        .ok (.record nm (mkRecord fts (backfill fts staged))) := by
  unfold decode
  have h : tyFuel (Ty.record nm fts) = tyFuelF fts + 1 := by
    simp only [tyFuel]
    omega
  rw [h]
  simp only [decodeAux]
  rw [stageEntries_congr (decodeAux (tyFuelF fts)) decode fts (fun key pt v hl => by
    have := tyFuel_of_lookup fts key pt hl
    exact decodeAux_fuel _ pt v (by omega))]
  rfl

theorem decode_optional (t1 : Ty) (d : Val) :
    decode (.union [t1, .noneT]) d = decode t1 d := by
  have h2 : tyFuel Ty.noneT = 1 := rfl
  have h3 : tyFuelL [t1, Ty.noneT] = tyFuel t1 + 1 := by
    simp only [tyFuelL, h2]
  have h : tyFuel (Ty.union [t1, .noneT]) = (tyFuel t1 + 1) + 1 := by
    simp only [tyFuel, h3]
    omega
  cases d
  case none => rw [decode_none, decode_none]
  all_goals (
    unfold decode
    rw [h]
    simp only [decodeAux, List.any_cons, List.any_nil, isNoneTy, Bool.or_true, Bool.true_or,
      Bool.or_false, if_true]
    exact decodeAux_fuel (tyFuel t1 + 1) t1 _ (by omega))

theorem decode_union_raises (args : List Ty) (d : Val)
    (hn : args.any isNoneTy = false) (hd : d ≠ .none) :
    decode (.union args) d = .error .typeError := by
  unfold decode
  rw [tyFuel_succ]
  cases d <;> simp only [decodeAux, hn, Bool.false_eq_true, if_false, reduceIte]
  all_goals first
    | rfl
    | exact absurd rfl hd

/-- Plain (non-generic, non-dataclass) targets with no registered decoder
along their MRO: `int`, `float`, `bool`, `str`, `NoneType`. -/
def plainTarget : Ty → Bool
  | .int | .float | .bool | .str | .noneT => true
  | _ => false

/-- `JsonEncoder._decode`'s final `return data`: a plain unregistered
target passes any non-null data through unchanged, with no validation. -/
theorem decode_passthrough (t : Ty) (d : Val) (ht : plainTarget t = true) (hd : d ≠ .none) :
    decode t d = .ok d := by
  cases t <;> cases d <;> first
    | exact absurd rfl hd
    | rfl
    | simp [plainTarget] at ht

theorem decode_datetime_str (s : String) :
    decode .datetime (.str s) = Val.datetime <$> _decode_datetime s := by rfl

theorem decode_timedelta_str (s : String) :
    decode .timedelta (.str s) = Val.timedelta <$> _decode_timedelta s := by rfl

theorem decode_uuid_str (s : String) :
    decode .uuid (.str s) = Val.uuid <$> _decode_uuid s := by rfl

theorem decode_enum_str (en : String) (mems : List String) (s : String) :
    decode (.enum en mems) (.str s) =
      (if mems.contains (upperStr (to_snake_case s)) then
        .ok (.enumv en (upperStr (to_snake_case s)))
      else .error .keyError) := by rfl

/-! ### Canonical unfolding equations for `hasTy` -/

theorem all_congr' {α : Type} (f g : α → Bool) :
    ∀ l : List α, (∀ a ∈ l, f a = g a) → l.all f = l.all g := by
  intro l
  induction l with
  | nil => intro _; rfl
  | cons a as ih =>
    intro h
    simp only [List.all_cons, h a (by simp), ih (fun x hx => h x (by simp [hx]))]

theorem tyFuelF_mem (fts : List (String × Ty)) (p : String × Ty) (hp : p ∈ fts) :
    tyFuel p.2 ≤ tyFuelF fts := by
  induction fts with
  | nil => simp at hp
  | cons q rest ih =>
    simp only [tyFuelF]
    rcases List.mem_cons.mp hp with h | h
    · subst h; omega
    · have := ih h; omega

/-- `hasTyAux` is insensitive to the fuel value as long as it covers the
target type's nesting depth. -/
theorem hasTyAux_fuel :
    ∀ (f : Nat) (v : Val) (t : Ty), tyFuel t ≤ f →
      hasTyAux f v t = hasTyAux (tyFuel t) v t := by
  intro f
  induction f using Nat.strong_induction_on with
  | _ f IH =>
    intro v t hf
    have hpos := tyFuel_pos t
    obtain ⟨k, hk⟩ : ∃ k, tyFuel t = k + 1 := ⟨tyFuel t - 1, by omega⟩
    obtain ⟨f', rfl⟩ : ∃ f', f = f' + 1 := ⟨f - 1, by omega⟩
    rw [hk]
    have canon : ∀ (v' : Val) (t' : Ty), tyFuel t' ≤ k → tyFuel t' ≤ f' →
        hasTyAux f' v' t' = hasTyAux k v' t' := by
      intro v' t' h1 h2
      by_cases hkf : k = f'
      · rw [hkf]
      · rw [IH f' (by omega) v' t' h2, IH k (by omega) v' t' h1]
    cases t with
    | union args =>
      match args with
      | [] => cases v <;> rfl
      | [t1] => cases t1 <;> cases v <;> rfl
      | t1 :: t2 :: t3 :: rest => cases t2 <;> cases v <;> rfl
      | [t1, t2] =>
        cases t2 <;> try (cases v <;> rfl)
        have h1 : tyFuel t1 ≤ k := by
          have e1 : tyFuel Ty.noneT = 1 := rfl
          have e2 : tyFuelL [t1, Ty.noneT] = tyFuel t1 + 1 := by
            simp only [tyFuelL, e1]
          simp only [tyFuel, e2] at hk
          omega
        cases v <;> simp only [hasTyAux] <;> exact canon _ t1 h1 (by omega)
    | list et =>
      have he : tyFuel et ≤ k := by
        simp only [tyFuel] at hk
        omega
      cases v <;> simp only [hasTyAux]
      exact all_congr' _ _ _ (fun x _ => canon x et he (by omega))
    | dict kt vt =>
      have he : tyFuel vt ≤ k := by
        simp only [tyFuel] at hk
        omega
      cases v <;> simp only [hasTyAux]
      exact all_congr' _ _ _ (fun p _ => canon p.2 vt he (by omega))
    | record tn fts =>
      cases v <;> simp only [hasTyAux]
      have hall : ∀ fvs : List (String × Val),
          (fvs.zip fts).all (fun q => q.1.1 == q.2.1 && hasTyAux f' q.1.2 q.2.2) =
            (fvs.zip fts).all (fun q => q.1.1 == q.2.1 && hasTyAux k q.1.2 q.2.2) := by
        intro fvs
        refine all_congr' _ _ _ (fun q hq => ?_)
        have hmem : q.2 ∈ fts := (List.of_mem_zip hq).2
        have hfq : tyFuel q.2.2 ≤ k := by
          have := tyFuelF_mem fts q.2 hmem
          simp only [tyFuel] at hk
          omega
        rw [canon q.1.2 q.2.2 hfq (by omega)]
      rw [hall]
    | any => cases v <;> rfl
    | noneT => cases v <;> rfl
    | int => cases v <;> rfl
    | float => cases v <;> rfl
    | bool => cases v <;> rfl
    | str => cases v <;> rfl
    | datetime => cases v <;> rfl
    | timedelta => cases v <;> rfl
    | uuid => cases v <;> rfl
    | enum en mems => cases v <;> rfl

theorem hasTy_optional_none (t1 : Ty) : hasTy .none (.union [t1, .noneT]) = true := by
  unfold hasTy
  rw [tyFuel_succ]
  rfl

theorem hasTy_optional (t1 : Ty) (v : Val) (hv : v ≠ .none) :
    hasTy v (.union [t1, .noneT]) = hasTy v t1 := by
  unfold hasTy
  have e1 : tyFuel Ty.noneT = 1 := rfl
  have e2 : tyFuelL [t1, Ty.noneT] = tyFuel t1 + 1 := by
    simp only [tyFuelL, e1]
  have h : tyFuel (Ty.union [t1, .noneT]) = (tyFuel t1 + 1) + 1 := by
    simp only [tyFuel, e2]
    omega
  rw [h]
  cases v <;> first
    | exact absurd rfl hv
    | (simp only [hasTyAux]; exact hasTyAux_fuel (tyFuel t1 + 1) _ t1 (by omega))

theorem hasTy_list (et : Ty) (xs : List Val) :
    hasTy (.list xs) (.list et) = xs.all (fun x => hasTy x et) := by
  unfold hasTy
  have h : tyFuel (Ty.list et) = tyFuel et + 1 := by
    simp only [tyFuel]
    omega
  rw [h]
  simp only [hasTyAux]

theorem hasTy_dict (kt vt : Ty) (es : List (String × Val)) :
    hasTy (.dict es) (.dict kt vt) = es.all (fun p => hasTy p.2 vt) := by
  unfold hasTy
  have h : tyFuel (Ty.dict kt vt) = (tyFuel kt + tyFuel vt) + 1 := by
    simp only [tyFuel]
    omega
  rw [h]
  simp only [hasTyAux]
  exact all_congr' _ _ _ (fun p _ => hasTyAux_fuel _ p.2 vt (by omega))

theorem hasTy_record (vn tn : String) (fvs : List (String × Val)) (fts : List (String × Ty)) :
    hasTy (.record vn fvs) (.record tn fts) =
      (vn == tn && fvs.length == fts.length &&
        (fvs.zip fts).all (fun q => q.1.1 == q.2.1 && hasTy q.1.2 q.2.2) &&
        decide ((fts.map Prod.fst).Nodup)) := by
  unfold hasTy
  have h : tyFuel (Ty.record tn fts) = tyFuelF fts + 1 := by
    simp only [tyFuel]
    omega
  rw [h]
  simp only [hasTyAux]
  have hall : (fvs.zip fts).all (fun q => q.1.1 == q.2.1 && hasTyAux (tyFuelF fts) q.1.2 q.2.2) =
      (fvs.zip fts).all (fun q => q.1.1 == q.2.1 && hasTy q.1.2 q.2.2) := by
    refine all_congr' _ _ _ (fun q hq => ?_)
    have hmem : q.2 ∈ fts := (List.of_mem_zip hq).2
    rw [hasTyAux_fuel (tyFuelF fts) q.1.2 q.2.2 (le_trans (tyFuelF_mem fts q.2 hmem) (by omega))]
    rfl
  rw [hall]
  rfl

/-! ### The encoder's list helpers as maps -/

theorem encList_eq_map (xs : List Val) : encList xs = xs.map _try_encode := by
  induction xs with
  | nil => rfl
  | cons v vs ih => simp only [encList, List.map_cons, ih]

theorem encPairs_eq_map (es : List (String × Val)) :
    encPairs es = es.map (fun p => (p.1, _try_encode p.2)) := by
  induction es with
  | nil => rfl
  | cons p es ih => simp only [encPairs, List.map_cons, ih]

theorem encFields_eq_map (es : List (String × Val)) :
    encFields es = es.map (fun p => (property_name_encoder p.1, _try_encode p.2)) := by
  induction es with
  | nil => rfl
  | cons p es ih => simp only [encFields, List.map_cons, ih]

/-! ## Numeral lemmas: fixed-width rendering parses back to the value -/

theorem digCh_isDig (n : Nat) (h : n < 10) : isDig (digCh n) = true := by
  interval_cases n <;> decide

theorem d2v_digCh (n : Nat) (h : n < 10) : d2v (digCh n) = n := by
  interval_cases n <;> decide

theorem pad2_eq (n : Nat) : pad2 n = [digCh (n / 10 % 10), digCh (n % 10)] := rfl

theorem pad4_eq (n : Nat) :
    pad4 n = [digCh (n / 1000 % 10), digCh (n / 100 % 10), digCh (n / 10 % 10), digCh (n % 10)] := by
  show padBase 10 digCh 4 n = _
  simp only [padBase]
  simp only [Nat.div_div_eq_div_mul]
  norm_num

theorem pad6_eq (n : Nat) :
    pad6 n = [digCh (n / 100000 % 10), digCh (n / 10000 % 10), digCh (n / 1000 % 10),
      digCh (n / 100 % 10), digCh (n / 10 % 10), digCh (n % 10)] := by
  show padBase 10 digCh 6 n = _
  simp only [padBase]
  simp only [Nat.div_div_eq_div_mul]
  norm_num

theorem padBase10_all_isDig (w : Nat) : ∀ n, ((padBase 10 digCh w n).all isDig) = true := by
  induction w with
  | zero => intro n; rfl
  | succ w ih =>
    intro n
    simp only [padBase, List.all_append, ih (n / 10), List.all_cons, List.all_nil,
      digCh_isDig (n % 10) (Nat.mod_lt _ (by omega)), Bool.and_self]

theorem digitsVal_append_singleton (l : List Char) (c : Char) :
    digitsVal (l ++ [c]) = 10 * digitsVal l + d2v c := by
  simp only [digitsVal, List.foldl_append, List.foldl_cons, List.foldl_nil]

theorem digitsVal_padBase (w : Nat) : ∀ n, n < 10 ^ w → digitsVal (padBase 10 digCh w n) = n := by
  induction w with
  | zero =>
    intro n h
    simp only [pow_zero, Nat.lt_one_iff] at h
    simp [h, padBase, digitsVal]
  | succ w ih =>
    intro n h
    have hd : n / 10 < 10 ^ w := by
      rw [Nat.div_lt_iff_lt_mul (by omega)]
      calc n < 10 ^ (w + 1) := h
        _ = 10 ^ w * 10 := by ring
    simp only [padBase, digitsVal_append_singleton, ih (n / 10) hd,
      d2v_digCh (n % 10) (Nat.mod_lt _ (by omega))]
    omega

theorem read2_pad2 (n : Nat) (rest : List Char) (h : n < 100) :
    read2 (pad2 n ++ rest) = some (n, rest) := by
  rw [pad2_eq]
  have h1 : n / 10 % 10 = n / 10 := by omega
  rw [h1]
  simp only [List.cons_append, List.nil_append, read2,
    digCh_isDig (n / 10) (by omega), digCh_isDig (n % 10) (by omega), Bool.and_self, if_true,
    d2v_digCh (n / 10) (by omega), d2v_digCh (n % 10) (by omega)]
  have : n / 10 * 10 + n % 10 = n := by omega
  rw [this]

theorem read4_pad4 (n : Nat) (rest : List Char) (h : n < 10000) :
    read4 (pad4 n ++ rest) = some (n, rest) := by
  rw [pad4_eq]
  have h1 : n / 1000 % 10 = n / 1000 := by omega
  rw [h1]
  simp only [List.cons_append, List.nil_append, read4,
    digCh_isDig (n / 1000) (by omega), digCh_isDig (n / 100 % 10) (by omega),
    digCh_isDig (n / 10 % 10) (by omega), digCh_isDig (n % 10) (by omega),
    Bool.and_self, if_true,
    d2v_digCh (n / 1000) (by omega), d2v_digCh (n / 100 % 10) (by omega),
    d2v_digCh (n / 10 % 10) (by omega), d2v_digCh (n % 10) (by omega)]
  have : n / 1000 * 1000 + n / 100 % 10 * 100 + n / 10 % 10 * 10 + n % 10 = n := by omega
  rw [this]

/-! ### `str(n)` lemmas -/

theorem natCharsAux_irrel : ∀ n f g, n < f → n < g → natCharsAux f n = natCharsAux g n := by
  intro n
  induction n using Nat.strong_induction_on with
  | _ n IH =>
    intro f g hf hg
    obtain ⟨f2, rfl⟩ : ∃ f2, f = f2 + 1 := ⟨f - 1, by omega⟩
    obtain ⟨g2, rfl⟩ : ∃ g2, g = g2 + 1 := ⟨g - 1, by omega⟩
    by_cases h : n < 10
    · simp [natCharsAux, h]
    · simp only [natCharsAux, h, if_false, reduceIte]
      have hd : n / 10 < n := Nat.div_lt_self (by omega) (by omega)
      rw [IH (n / 10) hd f2 g2 (by omega) (by omega)]

theorem natChars_eq (n : Nat) :
    natChars n = if n < 10 then [digCh n] else natChars (n / 10) ++ [digCh (n % 10)] := by
  show natCharsAux (n + 1) n = _
  by_cases h : n < 10
  · simp [natCharsAux, h]
  · simp only [natCharsAux, h, if_false, reduceIte]
    rw [natCharsAux_irrel (n / 10) n (n / 10 + 1) (Nat.div_lt_self (by omega) (by omega)) (by omega)]
    rfl

theorem natChars_ne_nil (n : Nat) : natChars n ≠ [] := by
  rw [natChars_eq]
  by_cases h : n < 10 <;> simp [h]

theorem natChars_all_isDig (n : Nat) : ((natChars n).all isDig) = true := by
  induction n using Nat.strong_induction_on with
  | _ n IH =>
    rw [natChars_eq]
    by_cases h : n < 10
    · simp [h, digCh_isDig n h]
    · have hd : n / 10 < n := Nat.div_lt_self (by omega) (by omega)
      simp [h, IH (n / 10) hd, digCh_isDig (n % 10) (by omega)]

theorem digitsVal_natChars (n : Nat) : digitsVal (natChars n) = n := by
  induction n using Nat.strong_induction_on with
  | _ n IH =>
    rw [natChars_eq]
    by_cases h : n < 10
    · simp only [h, if_true, reduceIte]
      show digitsVal ([] ++ [digCh n]) = n
      rw [digitsVal_append_singleton]
      simp [digitsVal, d2v_digCh n h]
    · have hd : n / 10 < n := Nat.div_lt_self (by omega) (by omega)
      simp only [h, if_false, reduceIte, digitsVal_append_singleton, IH (n / 10) hd,
        d2v_digCh (n % 10) (by omega)]
      omega

/-! ## Duration codec lemmas -/

theorem ne_of_isDig (c x : Char) (h : isDig c = true) (hx : isDig x = false) : c ≠ x :=
  fun he => by rw [he, hx] at h; exact Bool.noConfusion h

theorem digitsVal_pair (a b : Char) : digitsVal [a, b] = d2v a * 10 + d2v b := by
  simp [digitsVal]
  ring

theorem expect_cons_self (t : Char) (rest : List Char) : expect t (t :: rest) = some rest := by
  simp [expect]

theorem expect_cons_ne (t c : Char) (rest : List Char) (h : c ≠ t) :
    expect t (c :: rest) = none := by
  simp [expect, h]

theorem read2_of_shape (hh rest : List Char) (hlen : hh.length = 2) (hdig : hh.all isDig = true) :
    read2 (hh ++ rest) = some (digitsVal hh, rest) := by
  match hh, hlen with
  | [a, b], _ =>
    simp only [List.all_cons, List.all_nil, Bool.and_true, Bool.and_eq_true] at hdig
    obtain ⟨ha, hb⟩ := hdig
    simp only [List.cons_append, List.nil_append, read2, ha, hb, Bool.and_self, if_true,
      digitsVal_pair]

theorem takeWhile_stop (p : Char → Bool) (l1 : List Char) (c : Char) (l2 : List Char)
    (h1 : l1.all p = true) (hc : p c = false) :
    ((l1 ++ c :: l2).takeWhile p) = l1 := by
  induction l1 with
  | nil => simp [List.takeWhile_cons, hc]
  | cons a as ih =>
    simp only [List.all_cons, Bool.and_eq_true] at h1
    simp [List.takeWhile_cons, h1.1, ih h1.2]

/-- `tdHMS` succeeds on the full `HH:MM:SS.fr` shape. -/
theorem tdHMS_full (h m s : Nat) (fr : List Char) (hh : h < 100) (hm : m < 100) (hs : s < 100)
    (hfr : fr ≠ []) (hfd : fr.all isDig = true) :
    tdHMS (pad2 h ++ ':' :: pad2 m ++ ':' :: pad2 s ++ '.' :: fr) = some (h, m, s, some fr) := by
  have e1 : pad2 h ++ ':' :: pad2 m ++ ':' :: pad2 s ++ '.' :: fr =
      pad2 h ++ ((':' :: pad2 m) ++ ((':' :: pad2 s) ++ ('.' :: fr))) := by
    simp [List.cons_append, List.append_assoc]
  rw [e1]
  have hfr2 : fr.isEmpty = false := by
    cases fr with
    | nil => exact absurd rfl hfr
    | cons a as => rfl
  simp only [tdHMS, List.cons_append, read2_pad2 h _ hh, expect_cons_self,
    read2_pad2 m _ hm, read2_pad2 s _ hs]
  simp [hfr2, hfd]

/-- `tdHMS` succeeds on the fraction-free `HH:MM:SS` shape. -/
theorem tdHMS_nofrac (h m s : Nat) (hh : h < 100) (hm : m < 100) (hs : s < 100) :
    tdHMS (pad2 h ++ ':' :: pad2 m ++ ':' :: pad2 s) = some (h, m, s, none) := by
  have e1 : pad2 h ++ ':' :: pad2 m ++ ':' :: pad2 s =
      pad2 h ++ ((':' :: pad2 m) ++ ((':' :: pad2 s) ++ ([] : List Char))) := by
    simp [List.cons_append, List.append_assoc]
  rw [e1]
  simp only [tdHMS, List.cons_append, read2_pad2 h _ hh, expect_cons_self,
    read2_pad2 m _ hm, read2_pad2 s _ hs]

/-- `tdHMS` fails on any string that starts with a digit run followed by a
literal dot (the day-prefixed shapes). -/
theorem tdHMS_day_fail (dl T : List Char) (hne : dl ≠ []) (hdig : dl.all isDig = true) :
    tdHMS (dl ++ '.' :: T) = none := by
  match dl, hne with
  | [a], _ =>
    have ha : isDig a = true := by simpa using hdig
    have hdot : isDig '.' = false := rfl
    simp [tdHMS, read2, ha, hdot]
  | [a, b], _ =>
    simp only [List.all_cons, List.all_nil, Bool.and_true, Bool.and_eq_true] at hdig
    simp only [List.cons_append, List.nil_append, tdHMS, read2, hdig.1, hdig.2, Bool.and_self,
      if_true, Option.bind_eq_bind, Option.some_bind]
    rw [expect_cons_ne ':' '.' T (by decide)]
  | a :: b :: c :: rest2, _ =>
    simp only [List.all_cons, Bool.and_eq_true] at hdig
    obtain ⟨ha, hb, hc, _⟩ := hdig
    simp only [List.cons_append, tdHMS, read2, ha, hb, Bool.and_self, if_true,
      Option.bind_eq_bind, Option.some_bind]
    rw [expect_cons_ne ':' c _ (ne_of_isDig c ':' hc rfl)]

theorem rheDiv_exact (x b : Nat) (hb : 0 < b) : rheDiv (x * b) b = x := by
  unfold rheDiv
  rw [Nat.mul_mod_left, Nat.mul_div_cancel _ hb]
  rw [if_pos (by omega)]

theorem log2acc_eq : ∀ (f j n c : Nat), 2 ^ j ≤ n → n < 2 ^ (j + 1) → n < 2 ^ f →
    log2acc f n c = c + j := by
  intro f
  induction f with
  | zero =>
    intro j n c h1 h2 hf
    have hp : 1 ≤ 2 ^ j := Nat.one_le_two_pow
    simp only [pow_zero] at hf
    omega
  | succ f ih =>
    intro j n c h1 h2 hf
    unfold log2acc
    by_cases h : 2 ≤ n
    · rw [if_pos h]
      cases j with
      | zero =>
        rw [pow_one] at h2
        omega
      | succ j =>
        have hp1 : 2 ^ (j + 1) = 2 ^ j * 2 := pow_succ 2 j
        have hp2 : 2 ^ (j + 1 + 1) = 2 ^ (j + 1) * 2 := pow_succ 2 (j + 1)
        have hpf : 2 ^ (f + 1) = 2 ^ f * 2 := pow_succ 2 f
        have hb1 : 2 ^ j ≤ n / 2 := (Nat.le_div_iff_mul_le (by omega)).mpr (by omega)
        have hb2 : n / 2 < 2 ^ (j + 1) := (Nat.div_lt_iff_lt_mul (by omega)).mpr (by omega)
        have hbf : n / 2 < 2 ^ f := (Nat.div_lt_iff_lt_mul (by omega)).mpr (by omega)
        rw [ih j (n / 2) (c + 1) hb1 hb2 hbf]
        omega
    · rw [if_neg h]
      rcases Nat.eq_zero_or_pos j with hj | hj
      · omega
      · have hp : 1 < 2 ^ j := Nat.one_lt_two_pow_iff.mpr (by omega)
        omega

theorem log2fuel_eq (f j n : Nat) (h1 : 2 ^ j ≤ n) (h2 : n < 2 ^ (j + 1))
    (hf : n < 2 ^ f) : log2fuel f n = j := by
  unfold log2fuel
  rw [log2acc_eq f j n 0 h1 h2 hf]
  omega

theorem log2fuel_mul_pow (u : Nat) (hu : 0 < u) (h : u < 2 ^ 53) :
    log2fuel 2400 (u * 2 ^ 1200) = Nat.log2 u + 1200 := by
  apply log2fuel_eq
  · rw [pow_add]
    exact Nat.mul_le_mul_right _ (Nat.log2_self_le (by omega))
  · rw [show Nat.log2 u + 1200 + 1 = Nat.log2 u + 1 + 1200 from by omega, pow_add]
    exact (Nat.mul_lt_mul_right (Nat.two_pow_pos 1200)).mpr Nat.lt_log2_self
  · have h1 : u * 2 ^ 1200 < 2 ^ 53 * 2 ^ 1200 :=
      (Nat.mul_lt_mul_right (Nat.two_pow_pos 1200)).mpr h
    have h2 : (2 : Nat) ^ 53 * 2 ^ 1200 ≤ 2 ^ 2400 := by
      rw [← pow_add]
      exact Nat.pow_le_pow_right (by omega) (by omega)
    omega

theorem dblExp_int (u b : Nat) (hb : 0 < b) (hu : 0 < u) (h : u < 2 ^ 53) :
    dblExp (u * b) b = (Nat.log2 u : Int) - 52 := by
  unfold dblExp
  have hdiv : u * b * 2 ^ 1200 / b = u * 2 ^ 1200 := by
    rw [mul_right_comm]
    exact Nat.mul_div_cancel _ hb
  rw [hdiv, log2fuel_mul_pow u hu h]
  have hlog : Nat.log2 u < 53 := (Nat.log2_lt (by omega)).mpr h
  rw [max_eq_left (by push_cast; omega)]
  push_cast
  omega

theorem dblRound_int (u b : Nat) (hb : 0 < b) (hu : 0 < u) (h : u < 2 ^ 53) :
    dblRound (u * b) b = some (u * 2 ^ (52 - Nat.log2 u), 2 ^ (52 - Nat.log2 u)) := by
  have hlog : Nat.log2 u < 53 := (Nat.log2_lt (by omega)).mpr h
  have hpow : (2 : Nat) ^ 53 ≤ 2 ^ 1024 := Nat.pow_le_pow_right (by omega) (by omega)
  unfold dblRound
  rw [if_neg (Nat.mul_ne_zero (by omega) (by omega))]
  rw [dblExp_int u b hb hu h]
  by_cases hj : Nat.log2 u = 52
  · have e1 : (Nat.log2 u : Int) - 52 = 0 := by omega
    have e2 : 52 - Nat.log2 u = 0 := by omega
    rw [e1, e2]
    rw [if_pos (le_refl (0 : Int))]
    simp only [Int.toNat_zero, pow_zero, mul_one]
    rw [rheDiv_exact u b hb]
    rw [if_pos (by omega)]
  · have e1 : ¬(0 ≤ (Nat.log2 u : Int) - 52) := by omega
    rw [if_neg e1]
    have e2 : (-((Nat.log2 u : Int) - 52)).toNat = 52 - Nat.log2 u := by omega
    rw [e2]
    rw [show u * b * 2 ^ (52 - Nat.log2 u) = u * 2 ^ (52 - Nat.log2 u) * b from by ring]
    rw [rheDiv_exact _ b hb]

theorem pyFrac10_mul10 (u : Nat) (hu : u < 2 ^ 49) : pyFrac10 (u * 10) = .ok u := by
  by_cases h0 : u = 0
  · subst h0
    rfl
  · have hu0 : 0 < u := by omega
    have e49 : (2 : Nat) ^ 49 = 562949953421312 := by norm_num
    have e53 : (2 : Nat) ^ 53 = 9007199254740992 := by norm_num
    have h10 : 0 < u * 10 := by omega
    have h53 : u * 10 < 2 ^ 53 := by omega
    have h53u : u < 2 ^ 53 := by omega
    have h1 : dblRound (u * 10) 1 =
        some (u * 10 * 2 ^ (52 - Nat.log2 (u * 10)), 2 ^ (52 - Nat.log2 (u * 10))) := by
      have h2 := dblRound_int (u * 10) 1 (by omega) h10 h53
      rwa [Nat.mul_one] at h2
    unfold pyFrac10
    rw [h1]
    clear h1
    show (match dblRound (u * 10 * 2 ^ (52 - Nat.log2 (u * 10)))
        (10 * 2 ^ (52 - Nat.log2 (u * 10))) with
      | none => (Except.error PyErr.overflowError : Except PyErr Nat)
      | some (r, t) => .ok (rheDiv r t)) = .ok u
    rw [show u * 10 * 2 ^ (52 - Nat.log2 (u * 10)) =
        u * (10 * 2 ^ (52 - Nat.log2 (u * 10))) from by ring]
    rw [dblRound_int u (10 * 2 ^ (52 - Nat.log2 (u * 10))) (by positivity) hu0 h53u]
    show Except.ok (rheDiv (u * 2 ^ (52 - Nat.log2 u)) (2 ^ (52 - Nat.log2 u))) = .ok u
    rw [rheDiv_exact u (2 ^ (52 - Nat.log2 u)) (Nat.two_pow_pos _)]

theorem digitsVal_frac (u : Nat) (hu : u < 1000000) :
    digitsVal (pad6 u ++ ['0']) = u * 10 := by
  rw [digitsVal_append_singleton]
  show 10 * digitsVal (padBase 10 digCh 6 u) + d2v '0' = u * 10
  rw [digitsVal_padBase 6 u (by omega)]
  simp [d2v]
  omega

theorem int_fdiv_cast (m c : Nat) :
    ((m : Int)).fdiv ((c : Nat) : Int) = ((m / c : Nat) : Int) := by
  rw [Int.fdiv_eq_ediv _ (by omega)]
  omega

theorem int_fmod_cast (m c : Nat) :
    ((m : Int)).fmod ((c : Nat) : Int) = ((m % c : Nat) : Int) := by
  rw [Int.fmod_eq_emod _ (by omega)]
  omega

theorem encode_td_data (n : Nat) :
    (_encode_timedelta (n : Int)).data =
      natChars (n / 86400000000) ++ '.' ::
        (pad2 (n % 86400000000 / 1000000 / 3600) ++ ':' ::
         pad2 (n % 86400000000 / 1000000 % 3600 / 60) ++ ':' ::
         pad2 (n % 86400000000 / 1000000 % 3600 % 60) ++ '.' ::
         pad6 (n % 1000000) ++ ['0']) := by
  have hday : tdDaysOf (n : Int) = ((n / 86400000000 : Nat) : Int) := by
    unfold tdDaysOf usPerDay
    rw [Int.fdiv_eq_ediv _ (by omega)]
    omega
  have hsec : tdSecondsOf (n : Int) = ((n % 86400000000 / 1000000 : Nat) : Int) := by
    unfold tdSecondsOf usPerDay
    rw [Int.fmod_eq_emod _ (by omega), Int.fdiv_eq_ediv _ (by omega)]
    omega
  have hmic : tdMicrosecondsOf (n : Int) = ((n % 1000000 : Nat) : Int) := by
    unfold tdMicrosecondsOf
    rw [Int.fmod_eq_emod _ (by omega)]
    omega
  have hhour : ((n % 86400000000 / 1000000 : Nat) : Int).fdiv 3600 =
      ((n % 86400000000 / 1000000 / 3600 : Nat) : Int) := by
    rw [Int.fdiv_eq_ediv _ (by omega)]
    omega
  have hrem : ((n % 86400000000 / 1000000 : Nat) : Int).fmod 3600 =
      ((n % 86400000000 / 1000000 % 3600 : Nat) : Int) := by
    rw [Int.fmod_eq_emod _ (by omega)]
    omega
  have hmin : ((n % 86400000000 / 1000000 % 3600 : Nat) : Int).fdiv 60 =
      ((n % 86400000000 / 1000000 % 3600 / 60 : Nat) : Int) := by
    rw [Int.fdiv_eq_ediv _ (by omega)]
    omega
  have hsecs : ((n % 86400000000 / 1000000 % 3600 : Nat) : Int).fmod 60 =
      ((n % 86400000000 / 1000000 % 3600 % 60 : Nat) : Int) := by
    rw [Int.fmod_eq_emod _ (by omega)]
    omega
  have hic : intChars ((n / 86400000000 : Nat) : Int) = natChars (n / 86400000000) := by
    unfold intChars
    rw [if_neg (by omega)]
    rw [Int.toNat_natCast]
  simp only [_encode_timedelta, hday, hsec, hmic, hhour, hrem, hmin, hsecs, hic,
    Int.toNat_natCast]
  simp [List.cons_append, List.append_assoc]

theorem pad6_ne_nil (u : Nat) : pad6 u ++ ['0'] ≠ [] := by
  simp [pad6_eq]

theorem frac_all_isDig (u : Nat) : ((pad6 u ++ ['0']).all isDig) = true := by
  rw [List.all_append]
  have h1 : (pad6 u).all isDig = true := padBase10_all_isDig 6 u
  have h2 : (['0'].all isDig) = true := rfl
  rw [h1, h2]
  rfl

theorem decode_encode_td (us : Int) (h0 : 0 ≤ us) (h1 : us ≤ tdMaxUs) :
    _decode_timedelta (_encode_timedelta us) = .ok us := by
  obtain ⟨n, rfl⟩ := Int.eq_ofNat_of_zero_le h0
  have hT : tdHMS (pad2 (n % 86400000000 / 1000000 / 3600) ++ ':' ::
      pad2 (n % 86400000000 / 1000000 % 3600 / 60) ++ ':' ::
      pad2 (n % 86400000000 / 1000000 % 3600 % 60) ++ '.' ::
      (pad6 (n % 1000000) ++ ['0'])) =
      some (n % 86400000000 / 1000000 / 3600,
        n % 86400000000 / 1000000 % 3600 / 60,
        n % 86400000000 / 1000000 % 3600 % 60,
        some (pad6 (n % 1000000) ++ ['0'])) :=
    tdHMS_full _ _ _ _ (by omega) (by omega) (by omega)
      (by simp [pad6_eq]) (frac_all_isDig _)
  have hcore : tdCore ((_encode_timedelta (n : Int)).data) =
      some (some (natChars (n / 86400000000)),
        n % 86400000000 / 1000000 / 3600,
        n % 86400000000 / 1000000 % 3600 / 60,
        n % 86400000000 / 1000000 % 3600 % 60,
        some (pad6 (n % 1000000) ++ ['0'])) := by
    rw [encode_td_data n]
    unfold tdCore
    rw [tdHMS_day_fail _ _ (natChars_ne_nil _) (natChars_all_isDig _)]
    rw [takeWhile_stop isDig _ '.' _ (natChars_all_isDig _) rfl]
    rw [List.drop_left]
    have hne : (natChars (n / 86400000000)).isEmpty = false := by
      cases hx : natChars (n / 86400000000) with
      | nil => exact absurd hx (natChars_ne_nil _)
      | cons a as => rfl
    rw [hne]
    simp only [Bool.false_eq_true, if_false, reduceIte]
    rw [show pad2 (n % 86400000000 / 1000000 / 3600) ++ ':' ::
        pad2 (n % 86400000000 / 1000000 % 3600 / 60) ++ ':' ::
        pad2 (n % 86400000000 / 1000000 % 3600 % 60) ++ '.' ::
        pad6 (n % 1000000) ++ ['0'] =
      pad2 (n % 86400000000 / 1000000 / 3600) ++ ':' ::
        pad2 (n % 86400000000 / 1000000 % 3600 / 60) ++ ':' ::
        pad2 (n % 86400000000 / 1000000 % 3600 % 60) ++ '.' ::
        (pad6 (n % 1000000) ++ ['0']) from by simp [List.append_assoc]]
    rw [hT]
    rfl
  have hval : tdGroupsUs (some (natChars (n / 86400000000)))
      (n % 86400000000 / 1000000 / 3600)
      (n % 86400000000 / 1000000 % 3600 / 60)
      (n % 86400000000 / 1000000 % 3600 % 60)
      (n % 1000000) = n := by
    show ((((digitsVal (natChars (n / 86400000000))) * 24 + n % 86400000000 / 1000000 / 3600)
        * 60 + n % 86400000000 / 1000000 % 3600 / 60) * 60 +
        n % 86400000000 / 1000000 % 3600 % 60) * 1000000 + n % 1000000 = n
    rw [digitsVal_natChars]
    omega
  unfold _decode_timedelta tdMatch
  rw [hcore]
  clear hcore hT
  show (match tdFracUs (some (pad6 (n % 1000000) ++ ['0'])) with
    | .error e => (.error e : Except PyErr Int)
    | .ok frus =>
      if ((tdGroupsUs (some (natChars (n / 86400000000)))
          (n % 86400000000 / 1000000 / 3600)
          (n % 86400000000 / 1000000 % 3600 / 60)
          (n % 86400000000 / 1000000 % 3600 % 60) frus : Nat) : Int) ≤ tdMaxUs then
        Except.ok ((tdGroupsUs (some (natChars (n / 86400000000)))
          (n % 86400000000 / 1000000 / 3600)
          (n % 86400000000 / 1000000 % 3600 / 60)
          (n % 86400000000 / 1000000 % 3600 % 60) frus : Nat) : Int)
      else Except.error PyErr.overflowError) = Except.ok (n : Int)
  have hfrus : tdFracUs (some (pad6 (n % 1000000) ++ ['0'])) = .ok (n % 1000000) := by
    show pyFrac10 (digitsVal (pad6 (n % 1000000) ++ ['0'])) = .ok (n % 1000000)
    rw [digitsVal_frac _ (by omega)]
    exact pyFrac10_mul10 (n % 1000000)
      (by have e49 : (2 : Nat) ^ 49 = 562949953421312 := by norm_num
          omega)
  rw [hfrus]
  clear hfrus
  show (if ((tdGroupsUs (some (natChars (n / 86400000000)))
      (n % 86400000000 / 1000000 / 3600)
      (n % 86400000000 / 1000000 % 3600 / 60)
      (n % 86400000000 / 1000000 % 3600 % 60) (n % 1000000) : Nat) : Int) ≤ tdMaxUs then
    Except.ok ((tdGroupsUs (some (natChars (n / 86400000000)))
      (n % 86400000000 / 1000000 / 3600)
      (n % 86400000000 / 1000000 % 3600 / 60)
      (n % 86400000000 / 1000000 % 3600 % 60) (n % 1000000) : Nat) : Int)
    else Except.error PyErr.overflowError) = Except.ok (n : Int)
  rw [hval]
  rw [if_pos h1]

/-! ## `str.replace` lemmas -/

theorem replaceAux_irrel (pat rep : List Char) :
    ∀ (n : Nat) (l : List Char) (f g : Nat), l.length ≤ n → l.length ≤ f → l.length ≤ g →
      replaceAux pat rep f l = replaceAux pat rep g l := by
  intro n
  induction n using Nat.strong_induction_on with
  | _ n IH =>
    intro l f g hn hf hg
    cases l with
    | nil => cases f <;> cases g <;> rfl
    | cons c rest =>
      have hl : (c :: rest).length = rest.length + 1 := by simp
      obtain ⟨f2, rfl⟩ : ∃ f2, f = f2 + 1 := ⟨f - 1, by omega⟩
      obtain ⟨g2, rfl⟩ : ∃ g2, g = g2 + 1 := ⟨g - 1, by omega⟩
      simp only [replaceAux]
      by_cases hc : (!pat.isEmpty && pat.isPrefixOf (c :: rest)) = true
      · rw [hc]
        simp only [if_true, reduceIte]
        have hple : 1 ≤ pat.length := by
          cases pat with
          | nil => simp at hc
          | cons a as => simp
        have hlen : ((c :: rest).drop pat.length).length ≤ rest.length := by
          simp only [List.length_drop, List.length_cons]
          omega
        congr 1
        have hrlt : rest.length < n := by omega
        exact IH rest.length hrlt _ f2 g2 (by omega) (by omega) (by omega)
      · simp only [Bool.not_eq_true] at hc
        rw [hc]
        simp only [Bool.false_eq_true, if_false, reduceIte]
        congr 1
        have hrlt : rest.length < n := by omega
        exact IH rest.length hrlt rest f2 g2 (le_refl _) (by omega) (by omega)

theorem replaceList_nil (pat rep : List Char) : replaceList pat rep [] = [] := rfl

theorem replaceList_cons_match (pat rep : List Char) (c : Char) (rest : List Char)
    (hne : pat ≠ []) (hpre : pat.isPrefixOf (c :: rest) = true) :
    replaceList pat rep (c :: rest) = rep ++ replaceList pat rep ((c :: rest).drop pat.length) := by
  have hie : pat.isEmpty = false := by
    cases pat with
    | nil => exact absurd rfl hne
    | cons a as => rfl
  have hple : 1 ≤ pat.length := by
    cases pat with
    | nil => exact absurd rfl hne
    | cons a as => simp
  show replaceAux pat rep (c :: rest).length (c :: rest) = _
  have h1 : (c :: rest).length = rest.length + 1 := by simp
  rw [h1]
  simp only [replaceAux, hie, hpre, Bool.not_false, Bool.and_self, if_true]
  congr 1
  exact replaceAux_irrel pat rep rest.length _ rest.length _
    (by simp only [List.length_drop, List.length_cons]; omega)
    (by simp only [List.length_drop, List.length_cons]; omega)
    (by simp only [List.length_drop, List.length_cons]; omega)

theorem replaceList_cons_nomatch (pat rep : List Char) (c : Char) (rest : List Char)
    (h : (!pat.isEmpty && pat.isPrefixOf (c :: rest)) = false) :
    replaceList pat rep (c :: rest) = c :: replaceList pat rep rest := by
  show replaceAux pat rep (c :: rest).length (c :: rest) = _
  have h1 : (c :: rest).length = rest.length + 1 := by simp
  rw [h1]
  simp only [replaceAux, h, Bool.false_eq_true, if_false, reduceIte]
  rfl

theorem isPrefixOf_cons_false (p : Char) (ps : List Char) (c : Char) (rest : List Char)
    (h : c ≠ p) : ((p :: ps).isPrefixOf (c :: rest)) = false := by
  simp [List.isPrefixOf, Ne.symm h]

theorem replace_not_contains (p : Char) (ps rep : List Char) :
    ∀ l : List Char, p ∉ l → replaceList (p :: ps) rep l = l := by
  intro l
  induction l with
  | nil => intro _; rfl
  | cons c rest ih =>
    intro h
    have hc : c ≠ p := fun he => h (by simp [he])
    rw [replaceList_cons_nomatch _ _ _ _ (by simp [isPrefixOf_cons_false p ps c rest hc])]
    rw [ih (fun hm => h (by simp [hm]))]

theorem replace_skip (p : Char) (ps rep : List Char) :
    ∀ (front tail : List Char), p ∉ front →
      replaceList (p :: ps) rep (front ++ tail) = front ++ replaceList (p :: ps) rep tail := by
  intro front
  induction front with
  | nil => intro tail _; rfl
  | cons c rest ih =>
    intro tail h
    have hc : c ≠ p := fun he => h (by simp [he])
    rw [List.cons_append,
      replaceList_cons_nomatch _ _ _ _ (by simp [isPrefixOf_cons_false p ps c _ hc])]
    rw [ih tail (fun hm => h (by simp [hm]))]
    rfl

theorem isPrefixOf_append_self (pat tail : List Char) :
    (pat.isPrefixOf (pat ++ tail)) = true := by
  induction pat with
  | nil => simp [List.isPrefixOf]
  | cons a as ih => simp [List.isPrefixOf, ih]

theorem replace_at (pat rep tail : List Char) (hne : pat ≠ []) :
    replaceList pat rep (pat ++ tail) = rep ++ replaceList pat rep tail := by
  cases hp : pat with
  | nil => exact absurd hp hne
  | cons a as =>
    subst hp
    rw [List.cons_append]
    rw [replaceList_cons_match (a :: as) rep a (as ++ tail) (by simp)
      (by rw [← List.cons_append]; exact isPrefixOf_append_self _ _)]
    congr 1
    rw [← List.cons_append, List.drop_left]

/-! ## Timestamp codec lemmas -/

theorem isDig_digCh_any (n : Nat) : isDig (digCh n) = true := by
  unfold digCh
  split <;> rfl

theorem padBase_len (b : Nat) (ch : Nat → Char) (w : Nat) :
    ∀ n, (padBase b ch w n).length = w := by
  induction w with
  | zero => intro n; rfl
  | succ w ih => intro n; simp [padBase, ih]

theorem not_mem_pad10 (c : Char) (hc : isDig c = false) (w : Nat) :
    ∀ n, c ∉ padBase 10 digCh w n := by
  induction w with
  | zero => intro n; simp [padBase]
  | succ w ih =>
    intro n
    simp only [padBase, List.mem_append, List.mem_singleton]
    push_neg
    refine ⟨ih _, fun he => ?_⟩
    rw [he, isDig_digCh_any] at hc
    exact Bool.noConfusion hc

def dateChars (y mo dy : Nat) : List Char := pad4 y ++ '-' :: pad2 mo ++ '-' :: pad2 dy

def timeChars (h mi s : Nat) : List Char := pad2 h ++ ':' :: pad2 mi ++ ':' :: pad2 s

theorem dateChars_len (y mo dy : Nat) : (dateChars y mo dy).length = 10 := by
  simp [dateChars, pad4_eq, pad2_eq]

theorem timeChars_len (h mi s : Nat) : (timeChars h mi s).length = 8 := by
  simp [timeChars, pad2_eq]

theorem not_mem_dateChars (c : Char) (hc : isDig c = false) (hd : c ≠ '-') (y mo dy : Nat) :
    c ∉ dateChars y mo dy := by
  intro hm
  simp only [dateChars, List.append_assoc, List.cons_append, List.mem_append,
    List.mem_cons] at hm
  rcases hm with h | h | h | h | h
  · exact not_mem_pad10 c hc 4 y h
  · exact hd h
  · exact not_mem_pad10 c hc 2 mo h
  · exact hd h
  · exact not_mem_pad10 c hc 2 dy h

theorem not_mem_timeChars (c : Char) (hc : isDig c = false) (hd : c ≠ ':') (h mi s : Nat) :
    c ∉ timeChars h mi s := by
  intro hm
  simp only [timeChars, List.append_assoc, List.cons_append, List.mem_append,
    List.mem_cons] at hm
  rcases hm with h1 | h1 | h1 | h1 | h1
  · exact not_mem_pad10 c hc 2 h h1
  · exact hd h1
  · exact not_mem_pad10 c hc 2 mi h1
  · exact hd h1
  · exact not_mem_pad10 c hc 2 s h1

theorem isoChars_eq (d : PyDatetime) :
    isoChars d = dateChars d.year d.month d.day ++ 'T' ::
      (timeChars d.hour d.minute d.second ++
        ((if d.microsecond ≠ 0 then '.' :: pad6 d.microsecond else []) ++
         (match d.tz with
          | none => []
          | some off => offsetChars off))) := by
  simp [isoChars, dateChars, timeChars, List.append_assoc]

theorem parseIsoDate_full (y mo dy : Nat) (hy : y < 10000) (hmo : mo < 100) (hdy : dy < 100) :
    parseIsoDate (dateChars y mo dy) = some (y, mo, dy) := by
  unfold parseIsoDate dateChars
  simp only [List.append_assoc, List.cons_append]
  rw [read4_pad4 y _ hy]
  simp only [Option.bind_eq_bind, Option.some_bind, expect_cons_self]
  rw [read2_pad2 mo _ hmo]
  simp only [Option.some_bind, expect_cons_self]
  rw [show pad2 dy = pad2 dy ++ [] from (List.append_nil _).symm, read2_pad2 dy [] hdy]
  simp

theorem parseHmsFF_full (h mi s : Nat) (hh : h < 100) (hmi : mi < 100) (hs : s < 100) :
    parseHmsFF (timeChars h mi s) = some (h, mi, s, 0) := by
  unfold parseHmsFF timeChars
  simp only [List.append_assoc, List.cons_append]
  rw [read2_pad2 h _ hh]
  simp only [Option.bind_eq_bind, Option.some_bind, expect_cons_self]
  rw [read2_pad2 mi _ hmi]
  simp only [Option.some_bind, expect_cons_self]
  rw [show pad2 s = pad2 s ++ [] from (List.append_nil _).symm, read2_pad2 s [] hs]
  simp

theorem parseHmsFF_frac (h mi s us : Nat) (hh : h < 100) (hmi : mi < 100) (hs : s < 100)
    (hus : us < 1000000) :
    parseHmsFF (timeChars h mi s ++ '.' :: pad6 us) = some (h, mi, s, us) := by
  unfold parseHmsFF timeChars
  simp only [List.append_assoc, List.cons_append]
  rw [read2_pad2 h _ hh]
  simp only [Option.bind_eq_bind, Option.some_bind, expect_cons_self]
  rw [read2_pad2 mi _ hmi]
  simp only [Option.some_bind, expect_cons_self]
  rw [read2_pad2 s _ hs]
  simp only [Option.some_bind]
  have hlen : (pad6 us).length = 6 := padBase_len 10 digCh 6 us
  have hdig : (pad6 us).all isDig = true := padBase10_all_isDig 6 us
  have hval : digitsVal (pad6 us) = us := digitsVal_padBase 6 us (by omega)
  simp [hlen, hdig, hval]

theorem parseHmsFF_hm (h mi : Nat) (hh : h < 100) (hmi : mi < 100) :
    parseHmsFF (pad2 h ++ ':' :: pad2 mi) = some (h, mi, 0, 0) := by
  unfold parseHmsFF
  simp only [List.append_assoc, List.cons_append]
  rw [read2_pad2 h _ hh]
  simp only [Option.bind_eq_bind, Option.some_bind, expect_cons_self]
  rw [show pad2 mi = pad2 mi ++ [] from (List.append_nil _).symm, read2_pad2 mi [] hmi]
  simp

theorem splitAtFirst_not_mem (t : Char) : ∀ l : List Char, t ∉ l → splitAtFirst t l = none := by
  intro l
  induction l with
  | nil => intro _; rfl
  | cons c rest ih =>
    intro h
    have hc : c ≠ t := fun he => h (by simp [he])
    simp only [splitAtFirst, hc, if_false, reduceIte]
    rw [ih (fun hm => h (by simp [hm]))]

theorem splitAtFirst_found (t : Char) :
    ∀ (front rest : List Char), t ∉ front →
      splitAtFirst t (front ++ t :: rest) = some (front, rest) := by
  intro front
  induction front with
  | nil => intro rest _; simp [splitAtFirst]
  | cons c fr ih =>
    intro rest h
    have hc : c ≠ t := fun he => h (by simp [he])
    simp only [List.cons_append, splitAtFirst, hc, if_false, reduceIte, List.append_eq]
    rw [ih rest (fun hm => h (by simp [hm]))]

theorem hyphen_not_in_time (h mi s : Nat) : '-' ∉ timeChars h mi s :=
  not_mem_timeChars '-' rfl (by decide) h mi s

theorem plus_not_in_time (h mi s : Nat) : '+' ∉ timeChars h mi s :=
  not_mem_timeChars '+' rfl (by decide) h mi s

theorem not_mem_frac (c : Char) (hc : isDig c = false) (hd : c ≠ '.') (us : Nat) :
    c ∉ '.' :: pad6 us := by
  intro hm
  rcases List.mem_cons.mp hm with h | h
  · exact hd h
  · exact not_mem_pad10 c hc 6 us h

theorem pad2_len (n : Nat) : (pad2 n).length = 2 := padBase_len 10 digCh 2 n

theorem pad6_len (n : Nat) : (pad6 n).length = 6 := padBase_len 10 digCh 6 n

theorem tzSplit_none (l : List Char) (h1 : '-' ∉ l) (h2 : '+' ∉ l) : tzSplit l = none := by
  unfold tzSplit
  rw [splitAtFirst_not_mem '-' _ h1, splitAtFirst_not_mem '+' _ h2]

theorem tzSplit_plus (front rest : List Char) (h1 : '-' ∉ front ++ '+' :: rest)
    (h2 : '+' ∉ front) : tzSplit (front ++ '+' :: rest) = some (front, false, rest) := by
  unfold tzSplit
  rw [splitAtFirst_not_mem '-' _ h1, splitAtFirst_found '+' _ _ h2]

theorem tzSplit_minus (front rest : List Char) (h1 : '-' ∉ front) :
    tzSplit (front ++ '-' :: rest) = some (front, true, rest) := by
  unfold tzSplit
  rw [splitAtFirst_found '-' _ _ h1]

theorem parseIsoTime_plain (h mi s : Nat) (hh : h < 100) (hmi : mi < 100) (hs : s < 100) :
    parseIsoTime (timeChars h mi s) = some ((h, mi, s, 0), none) := by
  unfold parseIsoTime
  rw [if_neg (by simp only [Nat.not_lt, timeChars_len]; omega)]
  rw [tzSplit_none _ (hyphen_not_in_time h mi s) (plus_not_in_time h mi s)]
  rw [parseHmsFF_full h mi s hh hmi hs]
  rfl

theorem parseIsoTime_frac (h mi s us : Nat) (hh : h < 100) (hmi : mi < 100) (hs : s < 100)
    (hus : us < 1000000) :
    parseIsoTime (timeChars h mi s ++ '.' :: pad6 us) = some ((h, mi, s, us), none) := by
  have hm1 : '-' ∉ timeChars h mi s ++ '.' :: pad6 us := by
    intro hm
    rcases List.mem_append.mp hm with h1 | h1
    · exact hyphen_not_in_time h mi s h1
    · exact not_mem_frac '-' rfl (by decide) us h1
  have hm2 : '+' ∉ timeChars h mi s ++ '.' :: pad6 us := by
    intro hm
    rcases List.mem_append.mp hm with h1 | h1
    · exact plus_not_in_time h mi s h1
    · exact not_mem_frac '+' rfl (by decide) us h1
  unfold parseIsoTime
  rw [if_neg (by simp only [Nat.not_lt, List.length_append, timeChars_len]; omega)]
  rw [tzSplit_none _ hm1 hm2]
  rw [parseHmsFF_frac h mi s us hh hmi hs hus]
  rfl

theorem parseIsoTime_utc (h mi s : Nat) (hh : h < 100) (hmi : mi < 100) (hs : s < 100) :
    parseIsoTime (timeChars h mi s ++ '+' :: (pad2 0 ++ ':' :: pad2 0)) =
      some ((h, mi, s, 0), some 0) := by
  have hm1 : '-' ∉ timeChars h mi s ++ '+' :: (pad2 0 ++ ':' :: pad2 0) := by
    intro hm
    rcases List.mem_append.mp hm with h1 | h1
    · exact hyphen_not_in_time h mi s h1
    · rcases List.mem_cons.mp h1 with h2 | h2
      · exact absurd h2 (by decide)
      · rcases List.mem_append.mp h2 with h3 | h3
        · exact not_mem_pad10 '-' rfl 2 0 h3
        · rcases List.mem_cons.mp h3 with h4 | h4
          · exact absurd h4 (by decide)
          · exact not_mem_pad10 '-' rfl 2 0 h4
  have htz0 : parseTzStr false (pad2 0 ++ ':' :: pad2 0) = some (some 0) := by
    unfold parseTzStr
    rw [if_pos (by simp [pad2_len]), parseHmsFF_hm 0 0 (by omega) (by omega)]
    rfl
  unfold parseIsoTime
  rw [if_neg (by simp only [Nat.not_lt, List.length_append, timeChars_len]; omega)]
  rw [tzSplit_plus _ _ hm1 (plus_not_in_time h mi s)]
  show ((parseHmsFF (timeChars h mi s)).bind fun t =>
      Option.map (fun tzi => (t, tzi)) (parseTzStr false (pad2 0 ++ ':' :: pad2 0))) = _
  rw [parseHmsFF_full h mi s hh hmi hs, htz0]
  rfl

theorem parseIsoTime_off (h mi s hh2 mm2 : Nat) (neg : Bool)
    (hh : h < 100) (hmi : mi < 100) (hs : s < 100) (hh2b : hh2 < 100) (hmm2 : mm2 < 100)
    (hnz : ¬(hh2 = 0 ∧ mm2 = 0)) (hlt : (hh2 * 3600 + mm2 * 60) * 1000000 < 86400000000) :
    parseIsoTime (timeChars h mi s ++ (if neg then '-' else '+') :: (pad2 hh2 ++ ':' :: pad2 mm2)) =
      some ((h, mi, s, 0),
        some ((if neg then -1 else 1) * (((hh2 * 3600 + mm2 * 60) * 1000000 : Nat) : Int))) := by
  have htz : parseTzStr neg (pad2 hh2 ++ ':' :: pad2 mm2) =
      some (some ((if neg then -1 else 1) * (((hh2 * 3600 + mm2 * 60) * 1000000 : Nat) : Int))) := by
    unfold parseTzStr
    rw [if_pos (by simp [pad2_len])]
    rw [parseHmsFF_hm hh2 mm2 hh2b hmm2]
    show (if (hh2 = 0 && mm2 = 0 && (0 : Nat) = 0 && (0 : Nat) = 0 : Bool) = true then
        some (some 0)
      else if (hh2 * 3600 + mm2 * 60 + 0) * 1000000 + 0 < 86400000000 then
        some (some ((if neg then -1 else 1) *
          ((((hh2 * 3600 + mm2 * 60 + 0) * 1000000 + 0 : Nat)) : Int)))
      else none) = _
    rw [if_neg (by
      simp only [Bool.and_eq_true, decide_eq_true_eq]
      intro hcon
      exact hnz ⟨hcon.1.1.1, hcon.1.1.2⟩)]
    rw [if_pos (by omega)]
    norm_num
  have hm1 : '-' ∉ timeChars h mi s ++ '+' :: (pad2 hh2 ++ ':' :: pad2 mm2) := by
    intro hm
    rcases List.mem_append.mp hm with h1 | h1
    · exact hyphen_not_in_time h mi s h1
    · rcases List.mem_cons.mp h1 with h2 | h2
      · exact absurd h2 (by decide)
      · rcases List.mem_append.mp h2 with h3 | h3
        · exact not_mem_pad10 '-' rfl 2 hh2 h3
        · rcases List.mem_cons.mp h3 with h4 | h4
          · exact absurd h4 (by decide)
          · exact not_mem_pad10 '-' rfl 2 mm2 h4
  cases neg with
  | true =>
    have htz2 : parseTzStr true (pad2 hh2 ++ ':' :: pad2 mm2) =
        some (some ((-1) * (((hh2 * 3600 + mm2 * 60) * 1000000 : Nat) : Int))) := htz
    show parseIsoTime (timeChars h mi s ++ '-' :: (pad2 hh2 ++ ':' :: pad2 mm2)) =
        some ((h, mi, s, 0), some ((-1) * (((hh2 * 3600 + mm2 * 60) * 1000000 : Nat) : Int)))
    unfold parseIsoTime
    rw [if_neg (by simp only [Nat.not_lt, List.length_append, timeChars_len]; omega)]
    rw [tzSplit_minus _ _ (hyphen_not_in_time h mi s)]
    show ((parseHmsFF (timeChars h mi s)).bind fun t =>
        Option.map (fun tzi => (t, tzi)) (parseTzStr true (pad2 hh2 ++ ':' :: pad2 mm2))) = _
    rw [parseHmsFF_full h mi s hh hmi hs, htz2]
    rfl
  | false =>
    have htz2 : parseTzStr false (pad2 hh2 ++ ':' :: pad2 mm2) =
        some (some ((1 : Int) * (((hh2 * 3600 + mm2 * 60) * 1000000 : Nat) : Int))) := htz
    show parseIsoTime (timeChars h mi s ++ '+' :: (pad2 hh2 ++ ':' :: pad2 mm2)) =
        some ((h, mi, s, 0), some ((1 : Int) * (((hh2 * 3600 + mm2 * 60) * 1000000 : Nat) : Int)))
    unfold parseIsoTime
    rw [if_neg (by simp only [Nat.not_lt, List.length_append, timeChars_len]; omega)]
    rw [tzSplit_plus _ _ hm1 (plus_not_in_time h mi s)]
    show ((parseHmsFF (timeChars h mi s)).bind fun t =>
        Option.map (fun tzi => (t, tzi)) (parseTzStr false (pad2 hh2 ++ ':' :: pad2 mm2))) = _
    rw [parseHmsFF_full h mi s hh hmi hs, htz2]
    rfl

theorem fromiso_split (y mo dy : Nat) (hy : y < 10000) (hmo : mo < 100) (hdy : dy < 100)
    (t : List Char) (ht : t.isEmpty = false)
    (hh mi ss us : Nat) (tz : Option Int)
    (hpt : parseIsoTime t = some ((hh, mi, ss, us), tz)) :
    fromiso (dateChars y mo dy ++ 'T' :: t) =
      (if 1 ≤ y && y ≤ 9999 && 1 ≤ mo && mo ≤ 12 && 1 ≤ dy && dy ≤ daysInMonth y mo
          && hh ≤ 23 && mi ≤ 59 && ss ≤ 59 && us ≤ 999999 then
        .ok ⟨y, mo, dy, hh, mi, ss, us, tz⟩
      else .error .valueError) := by
  unfold fromiso
  have h10 : (dateChars y mo dy ++ 'T' :: t).take 10 = dateChars y mo dy := by
    rw [← dateChars_len y mo dy]
    exact List.take_left _ _
  have h11 : (dateChars y mo dy ++ 'T' :: t).drop 11 = t := by
    have hgrp : dateChars y mo dy ++ 'T' :: t = (dateChars y mo dy ++ ['T']) ++ t := by
      simp
    rw [hgrp]
    have hlen : (dateChars y mo dy ++ ['T']).length = 11 := by simp [dateChars_len]
    rw [← hlen]
    exact List.drop_left _ _
  rw [h10, h11, parseIsoDate_full y mo dy hy hmo hdy, ht]
  simp only [Bool.false_eq_true, if_false, reduceIte]
  rw [hpt]

theorem daysInMonth_le (y m : Nat) : daysInMonth y m ≤ 31 := by
  unfold daysInMonth
  split
  · split <;> omega
  · split <;> omega

theorem take26_short (l : List Char) (h : l.length ≤ 26) : l.take 26 ++ l.drop 27 = l := by
  rw [List.take_of_length_le h, List.drop_eq_nil_of_le (by omega)]
  simp

theorem replace_tail_exact (pat rep : List Char) (hne : pat ≠ []) :
    replaceList pat rep pat = rep := by
  have h := replace_at pat rep [] hne
  rw [List.append_nil] at h
  rw [h, replaceList_nil, List.append_nil]

theorem digCh_zero (n : Nat) (h : n < 10) : digCh n = '0' → n = 0 := by
  interval_cases n <;> decide

theorem not_mem_stamp (c : Char) (hdig : isDig c = false) (h1 : c ≠ '-') (h2 : c ≠ 'T')
    (h3 : c ≠ ':') (y mo dy h mi s : Nat) :
    c ∉ dateChars y mo dy ++ 'T' :: timeChars h mi s := by
  intro hm
  rcases List.mem_append.mp hm with hA | hA
  · exact not_mem_dateChars c hdig h1 y mo dy hA
  · rcases List.mem_cons.mp hA with hB | hB
    · exact h2 hB
    · exact not_mem_timeChars c hdig h3 h mi s hB

theorem not_mem_stampX (c : Char) (hdig : isDig c = false) (h1 : c ≠ '-') (h2 : c ≠ 'T')
    (h3 : c ≠ ':') (y mo dy h mi s : Nat) (X : List Char) (hX : c ∉ X) :
    c ∉ dateChars y mo dy ++ 'T' :: (timeChars h mi s ++ X) := by
  intro hm
  rcases List.mem_append.mp hm with hA | hA
  · exact not_mem_dateChars c hdig h1 y mo dy hA
  · rcases List.mem_cons.mp hA with hB | hB
    · exact h2 hB
    · rcases List.mem_append.mp hB with hC | hC
      · exact not_mem_timeChars c hdig h3 h mi s hC
      · exact hX hC

theorem plus_prefix_false (a b : Nat) (ha : a < 100) (hb : b < 100)
    (hnz : ¬(a = 0 ∧ b = 0)) :
    (List.isPrefixOf ['+', '0', '0', ':', '0', '0']
      ('+' :: (pad2 a ++ ':' :: pad2 b))) = false := by
  rw [pad2_eq a, pad2_eq b]
  by_contra hcon
  rw [Bool.not_eq_false] at hcon
  simp only [List.cons_append, List.nil_append, List.isPrefixOf, Bool.and_eq_true,
    beq_iff_eq] at hcon
  have h1 : a / 10 % 10 = 0 := digCh_zero _ (by omega) hcon.2.1.symm
  have h2 : a % 10 = 0 := digCh_zero _ (by omega) hcon.2.2.1.symm
  have h3 : b / 10 % 10 = 0 := digCh_zero _ (by omega) hcon.2.2.2.2.1.symm
  have h4 : b % 10 = 0 := digCh_zero _ (by omega) hcon.2.2.2.2.2.1.symm
  exact hnz ⟨by omega, by omega⟩

theorem offsetChars_whole (off : Int) (hws : off.natAbs % 60000000 = 0) :
    offsetChars off = (if off < 0 then '-' else '+') ::
      (pad2 (off.natAbs / 3600000000) ++ ':' :: pad2 (off.natAbs % 3600000000 / 60000000)) := by
  have hz : off.natAbs % 3600000000 % 60000000 = 0 := by omega
  unfold offsetChars
  rw [hz]
  simp

theorem encode_datetime_chars (d : PyDatetime) :
    _encode_datetime d = ⟨replaceList ['+', '0', '0', ':', '0', '0'] ['Z'] (isoChars d)⟩ := rfl

theorem decode_datetime_chars (l : List Char) :
    _decode_datetime ⟨l⟩ =
      fromiso (replaceList ['Z'] ['+', '0', '0', ':', '0', '0'] (l.take 26 ++ l.drop 27)) := rfl

/-- Encode-then-decode round trip for timestamps: on any in-range
`datetime` that is naive, or aware with zero microseconds and a
whole-minute offset, the registered decoder inverts the registered
encoder. -/
theorem decode_encode_dt (d : PyDatetime) (hv : validDT d = true) (hg : dtGood d = true) :
    _decode_datetime (_encode_datetime d) = .ok d := by
  obtain ⟨y, mo, dy, hh, mi, ss, us, tz⟩ := d
  cases tz with
  | none =>
    simp only [validDT, Bool.and_eq_true, Bool.and_true, decide_eq_true_eq] at hv
    have hy : y < 10000 := by omega
    have hmo : mo < 100 := by omega
    have hdy : dy < 100 := by
      have := daysInMonth_le y mo
      omega
    have hhh : hh < 100 := by omega
    have hmi2 : mi < 100 := by omega
    have hss : ss < 100 := by omega
    have hus6 : us < 1000000 := by omega
    have hiso : isoChars ⟨y, mo, dy, hh, mi, ss, us, none⟩ =
        dateChars y mo dy ++ 'T' :: (timeChars hh mi ss ++
          (if us ≠ 0 then '.' :: pad6 us else [])) := by
      simp [isoChars, dateChars, timeChars, List.append_assoc]
    have hXp : '+' ∉ (if us ≠ 0 then '.' :: pad6 us else ([] : List Char)) := by
      split
      · exact not_mem_frac '+' rfl (by decide) us
      · simp
    have hXz : 'Z' ∉ (if us ≠ 0 then '.' :: pad6 us else ([] : List Char)) := by
      split
      · exact not_mem_frac 'Z' rfl (by decide) us
      · simp
    rw [encode_datetime_chars, hiso]
    rw [replace_not_contains '+' ['0', '0', ':', '0', '0'] ['Z'] _
      (not_mem_stampX '+' rfl (by decide) (by decide) (by decide) y mo dy hh mi ss _ hXp)]
    rw [decode_datetime_chars]
    have hXl : (if us ≠ 0 then '.' :: pad6 us else ([] : List Char)).length ≤ 7 := by
      split
      · simp [pad6_len]
      · simp
    have hlen : (dateChars y mo dy ++ 'T' :: (timeChars hh mi ss ++
        (if us ≠ 0 then '.' :: pad6 us else []))).length ≤ 26 := by
      simp only [List.length_append, List.length_cons, dateChars_len, timeChars_len]
      omega
    rw [take26_short _ hlen]
    rw [replace_not_contains 'Z' [] _ _
      (not_mem_stampX 'Z' rfl (by decide) (by decide) (by decide) y mo dy hh mi ss _ hXz)]
    have hpt : parseIsoTime (timeChars hh mi ss ++ (if us ≠ 0 then '.' :: pad6 us else [])) =
        some ((hh, mi, ss, us), none) := by
      by_cases hus : us = 0
      · rw [if_neg (by omega), List.append_nil, hus]
        exact parseIsoTime_plain hh mi ss hhh hmi2 hss
      · rw [if_pos hus]
        exact parseIsoTime_frac hh mi ss us hhh hmi2 hss hus6
    rw [fromiso_split y mo dy hy hmo hdy
      (timeChars hh mi ss ++ (if us ≠ 0 then '.' :: pad6 us else [])) rfl hh mi ss us none hpt]
    rw [if_pos (by simp only [Bool.and_eq_true, decide_eq_true_eq]; omega)]
  | some off =>
    simp only [dtGood] at hg
    rw [Bool.and_eq_true, beq_iff_eq, beq_iff_eq] at hg
    obtain ⟨hus0, hemod⟩ := hg
    subst hus0
    simp only [validDT, Bool.and_eq_true, decide_eq_true_eq] at hv
    have hy : y < 10000 := by omega
    have hmo : mo < 100 := by omega
    have hdy : dy < 100 := by
      have := daysInMonth_le y mo
      omega
    have hhh : hh < 100 := by omega
    have hmi2 : mi < 100 := by omega
    have hss : ss < 100 := by omega
    have haB : off.natAbs < 86400000000 := by omega
    have ha60 : off.natAbs % 60000000 = 0 := by
      have h2 : (60000000 : Nat) ∣ off.natAbs :=
        Int.natAbs_dvd_natAbs.mpr (Int.dvd_of_emod_eq_zero hemod)
      omega
    by_cases h0 : off = 0
    · subst h0
      have hiso : isoChars ⟨y, mo, dy, hh, mi, ss, 0, some 0⟩ =
          (dateChars y mo dy ++ 'T' :: timeChars hh mi ss) ++
            ['+', '0', '0', ':', '0', '0'] := by
        rfl
      rw [encode_datetime_chars, hiso]
      rw [replace_skip '+' ['0', '0', ':', '0', '0'] ['Z'] _ _
        (not_mem_stamp '+' rfl (by decide) (by decide) (by decide) y mo dy hh mi ss)]
      rw [replace_tail_exact ['+', '0', '0', ':', '0', '0'] ['Z'] (by simp)]
      rw [decode_datetime_chars]
      have hlen : ((dateChars y mo dy ++ 'T' :: timeChars hh mi ss) ++ ['Z']).length ≤ 26 := by
        simp only [List.length_append, List.length_cons, List.length_nil,
          dateChars_len, timeChars_len]
        omega
      rw [take26_short _ hlen]
      rw [replace_skip 'Z' [] ['+', '0', '0', ':', '0', '0'] _ _
        (not_mem_stamp 'Z' rfl (by decide) (by decide) (by decide) y mo dy hh mi ss)]
      rw [replace_tail_exact ['Z'] ['+', '0', '0', ':', '0', '0'] (by simp)]
      simp only [List.append_assoc, List.cons_append]
      have hpt : parseIsoTime (timeChars hh mi ss ++ ['+', '0', '0', ':', '0', '0']) =
          some ((hh, mi, ss, 0), some 0) := parseIsoTime_utc hh mi ss hhh hmi2 hss
      rw [fromiso_split y mo dy hy hmo hdy
        (timeChars hh mi ss ++ ['+', '0', '0', ':', '0', '0']) rfl hh mi ss 0 (some 0) hpt]
      rw [if_pos (by simp only [Bool.and_eq_true, decide_eq_true_eq]; omega)]
    · have hoh : off.natAbs / 3600000000 < 100 := by omega
      have hom : off.natAbs % 3600000000 / 60000000 < 100 := by omega
      have hnz2 : ¬(off.natAbs / 3600000000 = 0 ∧ off.natAbs % 3600000000 / 60000000 = 0) := by
        intro hc
        apply h0
        omega
      have hlt2 : (off.natAbs / 3600000000 * 3600 + off.natAbs % 3600000000 / 60000000 * 60) *
          1000000 < 86400000000 := by omega
      have hoc := offsetChars_whole off ha60
      have hmem : ∀ c : Char, isDig c = false → c ≠ ':' →
          c ∉ (pad2 (off.natAbs / 3600000000) ++ ':' ::
            pad2 (off.natAbs % 3600000000 / 60000000)) := by
        intro c hdg hcl hm
        rcases List.mem_append.mp hm with h1 | h1
        · exact not_mem_pad10 c hdg 2 _ h1
        · rcases List.mem_cons.mp h1 with h2 | h2
          · exact hcl h2
          · exact not_mem_pad10 c hdg 2 _ h2
      by_cases hneg : off < 0
      · rw [if_pos hneg] at hoc
        have hiso : isoChars ⟨y, mo, dy, hh, mi, ss, 0, some off⟩ =
            dateChars y mo dy ++ 'T' :: (timeChars hh mi ss ++ ('-' ::
              (pad2 (off.natAbs / 3600000000) ++ ':' ::
               pad2 (off.natAbs % 3600000000 / 60000000)))) := by
          simp [isoChars, hoc, dateChars, timeChars, List.append_assoc]
        rw [encode_datetime_chars, hiso]
        rw [replace_not_contains '+' ['0', '0', ':', '0', '0'] ['Z'] _
          (not_mem_stampX '+' rfl (by decide) (by decide) (by decide) y mo dy hh mi ss _
            (by
              intro hm
              rcases List.mem_cons.mp hm with h1 | h1
              · exact absurd h1 (by decide)
              · exact hmem '+' rfl (by decide) h1))]
        rw [decode_datetime_chars]
        have hlen : (dateChars y mo dy ++ 'T' :: (timeChars hh mi ss ++ ('-' ::
            (pad2 (off.natAbs / 3600000000) ++ ':' ::
             pad2 (off.natAbs % 3600000000 / 60000000))))).length ≤ 26 := by
          simp only [List.length_append, List.length_cons, dateChars_len, timeChars_len,
            pad2_len]
          omega
        rw [take26_short _ hlen]
        rw [replace_not_contains 'Z' [] _ _
          (not_mem_stampX 'Z' rfl (by decide) (by decide) (by decide) y mo dy hh mi ss _
            (by
              intro hm
              rcases List.mem_cons.mp hm with h1 | h1
              · exact absurd h1 (by decide)
              · exact hmem 'Z' rfl (by decide) h1))]
        have hpt : parseIsoTime (timeChars hh mi ss ++ '-' ::
            (pad2 (off.natAbs / 3600000000) ++ ':' ::
             pad2 (off.natAbs % 3600000000 / 60000000))) =
            some ((hh, mi, ss, 0), some ((-1) *
              (((off.natAbs / 3600000000 * 3600 + off.natAbs % 3600000000 / 60000000 * 60) *
                1000000 : Nat) : Int))) :=
          parseIsoTime_off hh mi ss _ _ true hhh hmi2 hss hoh hom hnz2 hlt2
        have hval : ((-1 : Int) * (((off.natAbs / 3600000000 * 3600 +
            off.natAbs % 3600000000 / 60000000 * 60) * 1000000 : Nat) : Int)) = off := by
          omega
        rw [hval] at hpt
        rw [fromiso_split y mo dy hy hmo hdy
          (timeChars hh mi ss ++ '-' :: (pad2 (off.natAbs / 3600000000) ++ ':' ::
            pad2 (off.natAbs % 3600000000 / 60000000))) rfl hh mi ss 0 (some off) hpt]
        rw [if_pos (by simp only [Bool.and_eq_true, decide_eq_true_eq]; omega)]
      · rw [if_neg hneg] at hoc
        have hiso : isoChars ⟨y, mo, dy, hh, mi, ss, 0, some off⟩ =
            dateChars y mo dy ++ 'T' :: (timeChars hh mi ss ++ ('+' ::
              (pad2 (off.natAbs / 3600000000) ++ ':' ::
               pad2 (off.natAbs % 3600000000 / 60000000)))) := by
          simp [isoChars, hoc, dateChars, timeChars, List.append_assoc]
        rw [encode_datetime_chars, hiso]
        rw [replace_skip '+' ['0', '0', ':', '0', '0'] ['Z'] _ _
          (not_mem_dateChars '+' rfl (by decide) y mo dy)]
        rw [replaceList_cons_nomatch _ _ 'T' _
          (by rw [isPrefixOf_cons_false '+' ['0', '0', ':', '0', '0'] 'T' _ (by decide)]; rfl)]
        rw [replace_skip '+' ['0', '0', ':', '0', '0'] ['Z'] _ _ (plus_not_in_time hh mi ss)]
        rw [replaceList_cons_nomatch _ _ '+' _
          (by rw [plus_prefix_false _ _ hoh hom hnz2]; rfl)]
        rw [replace_not_contains '+' ['0', '0', ':', '0', '0'] ['Z'] _
          (hmem '+' rfl (by decide))]
        rw [decode_datetime_chars]
        have hlen : (dateChars y mo dy ++ 'T' :: (timeChars hh mi ss ++ ('+' ::
            (pad2 (off.natAbs / 3600000000) ++ ':' ::
             pad2 (off.natAbs % 3600000000 / 60000000))))).length ≤ 26 := by
          simp only [List.length_append, List.length_cons, dateChars_len, timeChars_len,
            pad2_len]
          omega
        rw [take26_short _ hlen]
        rw [replace_not_contains 'Z' [] _ _
          (not_mem_stampX 'Z' rfl (by decide) (by decide) (by decide) y mo dy hh mi ss _
            (by
              intro hm
              rcases List.mem_cons.mp hm with h1 | h1
              · exact absurd h1 (by decide)
              · exact hmem 'Z' rfl (by decide) h1))]
        have hpt : parseIsoTime (timeChars hh mi ss ++ '+' ::
            (pad2 (off.natAbs / 3600000000) ++ ':' ::
             pad2 (off.natAbs % 3600000000 / 60000000))) =
            some ((hh, mi, ss, 0), some ((1 : Int) *
              (((off.natAbs / 3600000000 * 3600 + off.natAbs % 3600000000 / 60000000 * 60) *
                1000000 : Nat) : Int))) :=
          parseIsoTime_off hh mi ss _ _ false hhh hmi2 hss hoh hom hnz2 hlt2
        have hval : ((1 : Int) * (((off.natAbs / 3600000000 * 3600 +
            off.natAbs % 3600000000 / 60000000 * 60) * 1000000 : Nat) : Int)) = off := by
          omega
        rw [hval] at hpt
        rw [fromiso_split y mo dy hy hmo hdy
          (timeChars hh mi ss ++ '+' :: (pad2 (off.natAbs / 3600000000) ++ ':' ::
            pad2 (off.natAbs % 3600000000 / 60000000))) rfl hh mi ss 0 (some off) hpt]
        rw [if_pos (by simp only [Bool.and_eq_true, decide_eq_true_eq]; omega)]

/-! ## UUID codec inverse -/

theorem isHexDig_hexCh (n : Nat) : isHexDig (hexCh n) = true := by
  unfold hexCh
  split <;> rfl

theorem h2v_hexCh (n : Nat) (h : n < 16) : h2v (hexCh n) = n := by
  interval_cases n <;> decide

theorem not_mem_padBase16 (c : Char) (hc : isHexDig c = false) (w : Nat) :
    ∀ n, c ∉ padBase 16 hexCh w n := by
  induction w with
  | zero => intro n; simp [padBase]
  | succ w ih =>
    intro n
    simp only [padBase, List.mem_append, List.mem_singleton]
    push_neg
    refine ⟨ih _, fun he => ?_⟩
    rw [he, isHexDig_hexCh] at hc
    exact Bool.noConfusion hc

theorem hexVal_append_singleton (l : List Char) (c : Char) :
    hexVal (l ++ [c]) = 16 * hexVal l + h2v c := by
  simp only [hexVal, List.foldl_append, List.foldl_cons, List.foldl_nil]

theorem hexVal_padBase (w : Nat) : ∀ n, n < 16 ^ w → hexVal (padBase 16 hexCh w n) = n := by
  induction w with
  | zero =>
    intro n h
    simp only [pow_zero, Nat.lt_one_iff] at h
    simp [h, padBase, hexVal]
  | succ w ih =>
    intro n h
    have hd : n / 16 < 16 ^ w := by
      rw [Nat.div_lt_iff_lt_mul (by omega)]
      calc n < 16 ^ (w + 1) := h
        _ = 16 ^ w * 16 := by ring
    simp only [padBase, hexVal_append_singleton, ih (n / 16) hd,
      h2v_hexCh (n % 16) (Nat.mod_lt _ (by omega))]
    omega

theorem not_mem_uuidChars (c : Char) (hch : isHexDig c = false) (hc2 : c ≠ '-') (n : Nat) :
    c ∉ uuidChars n := by
  have hpad : ∀ m : Nat, c ∉ padBase 16 hexCh 32 m := fun m => not_mem_padBase16 c hch 32 m
  intro hm
  unfold uuidChars at hm
  rcases List.mem_append.mp hm with h | h
  · exact hpad n (List.take_subset 8 _ h)
  rcases List.mem_cons.mp h with h | h
  · exact hc2 h
  rcases List.mem_append.mp h with h | h
  · exact hpad n (List.drop_subset 8 _ (List.take_subset 4 _ h))
  rcases List.mem_cons.mp h with h | h
  · exact hc2 h
  rcases List.mem_append.mp h with h | h
  · exact hpad n (List.drop_subset 12 _ (List.take_subset 4 _ h))
  rcases List.mem_cons.mp h with h | h
  · exact hc2 h
  rcases List.mem_append.mp h with h | h
  · exact hpad n (List.drop_subset 16 _ (List.take_subset 4 _ h))
  rcases List.mem_cons.mp h with h | h
  · exact hc2 h
  · exact hpad n (List.drop_subset 20 _ h)

theorem dropWhile_eq_self_of (p : Char → Bool) (l : List Char) (h : ∀ c ∈ l, p c = false) :
    l.dropWhile p = l := by
  cases l with
  | nil => rfl
  | cons a rest =>
    rw [List.dropWhile_cons, h a (by simp)]
    simp

theorem stripBraces_eq_self (l : List Char) (h : ∀ c ∈ l, (c = '{' || c = '}') = false) :
    stripBraces l = l := by
  unfold stripBraces
  rw [dropWhile_eq_self_of _ _ h,
    dropWhile_eq_self_of _ _ (fun c hc => h c (List.mem_reverse.mp hc)),
    List.reverse_reverse]

theorem filter_eq_self_of_hex (l : List Char) (h : ∀ c ∈ l, isHexDig c = true) :
    l.filter (fun c => c ≠ '-') = l := by
  refine List.filter_eq_self.mpr (fun a ha => ?_)
  rw [decide_eq_true_eq]
  intro he
  subst he
  exact absurd (h '-' ha) (by decide)

theorem mem_pad32_hex (n : Nat) : ∀ c ∈ padBase 16 hexCh 32 n, isHexDig c = true := by
  intro c hc
  cases h' : isHexDig c with
  | true => rfl
  | false => exact absurd hc (not_mem_padBase16 c h' 32 n)

theorem uuid_recomb (l : List Char) :
    l.take 8 ++ ((l.drop 8).take 4 ++ ((l.drop 12).take 4 ++
      ((l.drop 16).take 4 ++ l.drop 20))) = l := by
  rw [show l.drop 12 = (l.drop 8).drop 4 from by rw [List.drop_drop],
    show l.drop 16 = ((l.drop 8).drop 4).drop 4 from by rw [List.drop_drop, List.drop_drop],
    show l.drop 20 = (((l.drop 8).drop 4).drop 4).drop 4 from by
      rw [List.drop_drop, List.drop_drop, List.drop_drop]]
  rw [List.take_append_drop, List.take_append_drop, List.take_append_drop,
    List.take_append_drop]

theorem filter_uuidChars (n : Nat) :
    (uuidChars n).filter (fun c => c ≠ '-') = padBase 16 hexCh 32 n := by
  unfold uuidChars
  rw [List.filter_append, List.filter_cons_of_neg (by decide),
    List.filter_append, List.filter_cons_of_neg (by decide),
    List.filter_append, List.filter_cons_of_neg (by decide),
    List.filter_append, List.filter_cons_of_neg (by decide)]
  rw [filter_eq_self_of_hex _ (fun c hc => mem_pad32_hex n c (List.take_subset 8 _ hc)),
    filter_eq_self_of_hex _
      (fun c hc => mem_pad32_hex n c (List.drop_subset 8 _ (List.take_subset 4 _ hc))),
    filter_eq_self_of_hex _
      (fun c hc => mem_pad32_hex n c (List.drop_subset 12 _ (List.take_subset 4 _ hc))),
    filter_eq_self_of_hex _
      (fun c hc => mem_pad32_hex n c (List.drop_subset 16 _ (List.take_subset 4 _ hc))),
    filter_eq_self_of_hex _ (fun c hc => mem_pad32_hex n c (List.drop_subset 20 _ hc))]
  exact uuid_recomb _

theorem decode_uuid_chars (l : List Char) :
    _decode_uuid ⟨l⟩ =
      (if ((stripBraces (replaceList ['u', 'u', 'i', 'd', ':'] []
            (replaceList ['u', 'r', 'n', ':'] [] l))).filter (fun c => c ≠ '-')).length = 32 &&
          ((stripBraces (replaceList ['u', 'u', 'i', 'd', ':'] []
            (replaceList ['u', 'r', 'n', ':'] [] l))).filter (fun c => c ≠ '-')).all isHexDig then
        .ok (hexVal ((stripBraces (replaceList ['u', 'u', 'i', 'd', ':'] []
          (replaceList ['u', 'r', 'n', ':'] [] l))).filter (fun c => c ≠ '-')))
      else .error .valueError) := rfl

/-- Encode-then-decode round trip for UUIDs: the registered decoder
inverts the registered encoder on every 128-bit value. -/
theorem decode_encode_uuid (n : Nat) (hn : n < 2 ^ 128) :
    _decode_uuid (_encode_uuid n) = .ok n := by
  have humem : 'u' ∉ uuidChars n := not_mem_uuidChars 'u' (by decide) (by decide) n
  have hbr : ∀ c ∈ uuidChars n, (c = '{' || c = '}') = false := by
    intro x hx
    have h1 : x ≠ '{' := fun he => not_mem_uuidChars '{' (by decide) (by decide) n (he ▸ hx)
    have h2 : x ≠ '}' := fun he => not_mem_uuidChars '}' (by decide) (by decide) n (he ▸ hx)
    simp [h1, h2]
  show _decode_uuid ⟨uuidChars n⟩ = .ok n
  rw [decode_uuid_chars]
  rw [replace_not_contains 'u' ['r', 'n', ':'] [] _ humem]
  rw [replace_not_contains 'u' ['u', 'i', 'd', ':'] [] _ humem]
  rw [stripBraces_eq_self _ hbr, filter_uuidChars n]
  rw [if_pos (by
    rw [Bool.and_eq_true, decide_eq_true_eq]
    refine ⟨padBase_len 16 hexCh 32 n, ?_⟩
    rw [List.all_eq_true]
    exact mem_pad32_hex n)]
  rw [hexVal_padBase 32 n (by
    have h16 : (16 : Nat) ^ 32 = 2 ^ 128 := by norm_num
    omega)]

/-! ## The encode-then-decode round trip, value by value -/

theorem goodList_mem : ∀ (xs : List Val), goodList xs = true → ∀ x ∈ xs, goodVal x = true := by
  intro xs
  induction xs with
  | nil => intro _ x hx; simp at hx
  | cons a as ih =>
    intro h x hx
    simp only [goodList, Bool.and_eq_true] at h
    rcases List.mem_cons.mp hx with h1 | h1
    · subst h1; exact h.1
    · exact ih h.2 x h1

theorem goodPairs_mem : ∀ (es : List (String × Val)), goodPairs es = true →
    ∀ p ∈ es, goodVal p.2 = true := by
  intro es
  induction es with
  | nil => intro _ p hp; simp at hp
  | cons a as ih =>
    intro h p hp
    simp only [goodPairs, Bool.and_eq_true] at h
    rcases List.mem_cons.mp hp with h1 | h1
    · subst h1; exact h.1
    · exact ih h.2 p h1

theorem goodFields_mem : ∀ (fvs : List (String × Val)), goodFields fvs = true →
    ∀ p ∈ fvs, property_name_decoder (property_name_encoder p.1) = p.1 ∧ goodVal p.2 = true := by
  intro fvs
  induction fvs with
  | nil => intro _ p hp; simp at hp
  | cons a as ih =>
    intro h p hp
    simp only [goodFields, Bool.and_eq_true, beq_iff_eq] at h
    rcases List.mem_cons.mp hp with h1 | h1
    · subst h1; exact ⟨h.1.1, h.1.2⟩
    · exact ih h.2 p h1

theorem mapME_map {α β γ : Type} (f : β → Except PyErr γ) (g : α → β) :
    ∀ xs : List α, mapME f (xs.map g) = mapME (fun x => f (g x)) xs := by
  intro xs
  induction xs with
  | nil => rfl
  | cons a as ih => simp only [List.map_cons, mapME, ih]

theorem mapME_id_of {α : Type} (f : α → Except PyErr α) :
    ∀ xs : List α, (∀ x ∈ xs, f x = .ok x) → mapME f xs = .ok xs := by
  intro xs
  induction xs with
  | nil => intro _; rfl
  | cons a as ih =>
    intro h
    simp only [mapME, h a (by simp), ih (fun x hx => h x (by simp [hx]))]
    rfl

theorem tyLookup_skip (p : String × Ty) (rest : List (String × Ty)) (k : String)
    (h : p.1 ≠ k) : tyLookup (p :: rest) k = tyLookup rest k := by
  simp only [tyLookup, if_neg h]

theorem tyLookup_at : ∀ (pre : List (String × Ty)) (b : String × Ty)
    (post : List (String × Ty)), (∀ p ∈ pre, p.1 ≠ b.1) →
    tyLookup (pre ++ b :: post) b.1 = some b.2 := by
  intro pre
  induction pre with
  | nil =>
    intro b post _
    simp [tyLookup]
  | cons p rest ih =>
    intro b post h
    rw [List.cons_append, tyLookup_skip p _ b.1 (h p (by simp))]
    exact ih b post (fun q hq => h q (by simp [hq]))

theorem valLookup_cons_self (n : String) (v : Val) (rest : List (String × Val)) :
    valLookup ((n, v) :: rest) n = some v := by
  simp [valLookup]

theorem valLookup_skip (p : String × Val) (rest : List (String × Val)) (k : String)
    (h : p.1 ≠ k) : valLookup (p :: rest) k = valLookup rest k := by
  simp only [valLookup, if_neg h]

theorem assocSet_append (acc : List (String × Val)) (k : String) (v : Val)
    (h : ∀ p ∈ acc, p.1 ≠ k) : assocSet acc k v = acc ++ [(k, v)] := by
  unfold assocSet
  have hany : acc.any (fun p => p.1 = k) = false := by
    rw [List.any_eq_false]
    intro p hp
    simpa using h p hp
  rw [hany]
  rfl

theorem zip_names_eq : ∀ (fvs : List (String × Val)) (fts : List (String × Ty)),
    fvs.length = fts.length → (∀ q ∈ fvs.zip fts, q.1.1 = q.2.1) →
    fvs.map Prod.fst = fts.map Prod.fst := by
  intro fvs
  induction fvs with
  | nil =>
    intro fts h _
    cases fts with
    | nil => rfl
    | cons b bs => simp at h
  | cons a as ih =>
    intro fts h hz
    cases fts with
    | nil => simp at h
    | cons b bs =>
      simp only [List.map_cons]
      have h1 : a.1 = b.1 := hz (a, b) (by simp [List.zip_cons_cons])
      rw [h1, ih bs (by simpa using h) (fun q hq => hz q (by simp [List.zip_cons_cons, hq]))]

theorem stageEntries_cons (dec : Ty → Val → Except PyErr Val) (fts : List (String × Ty))
    (e : String × Val) (rest acc : List (String × Val)) :
    stageEntries dec fts (e :: rest) acc =
      (match tyLookup fts (property_name_decoder e.1) with
       | some pt => dec pt e.2 >>= fun dv =>
           stageEntries dec fts rest (assocSet acc (property_name_decoder e.1) dv)
       | none => stageEntries dec fts rest acc) := rfl

theorem stage_main :
    ∀ (rest : List (String × Val)) (ftsPre ftsRest : List (String × Ty))
      (done : List (String × Val)),
      done.map Prod.fst = ftsPre.map Prod.fst →
      rest.map Prod.fst = ftsRest.map Prod.fst →
      ((ftsPre ++ ftsRest).map Prod.fst).Nodup →
      (∀ q ∈ rest.zip ftsRest,
        property_name_decoder (property_name_encoder q.1.1) = q.1.1 ∧
        decode q.2.2 (_try_encode q.1.2) = .ok q.1.2) →
      stageEntries decode (ftsPre ++ ftsRest) (encFields rest) done = .ok (done ++ rest) := by
  intro rest
  induction rest with
  | nil =>
    intro ftsPre ftsRest done hdone hrest hnd hq
    simp only [encFields, stageEntries, List.append_nil]
  | cons a rest ih =>
    intro ftsPre ftsRest done hdone hrest hnd hq
    obtain ⟨an, av⟩ := a
    cases ftsRest with
    | nil => simp at hrest
    | cons b ftsRest2 =>
      obtain ⟨bn, bt⟩ := b
      simp only [List.map_cons] at hrest
      obtain ⟨hab, hrest2⟩ := List.cons_eq_cons.mp hrest
      subst hab
      have hhead := hq ((an, av), (an, bt)) (by simp [List.zip_cons_cons])
      have hpnd : property_name_decoder (property_name_encoder an) = an := hhead.1
      have hdec : decode bt (_try_encode av) = .ok av := hhead.2
      have hnd2 := hnd
      rw [List.map_append, List.nodup_append] at hnd2
      have hdisj : ∀ p ∈ ftsPre, p.1 ≠ an := by
        intro p hp he
        exact hnd2.2.2 (List.mem_map.mpr ⟨p, hp, rfl⟩) (by rw [he]; simp)
      have hdone_ne : ∀ p ∈ done, p.1 ≠ an := by
        intro p hp
        have : p.1 ∈ ftsPre.map Prod.fst := by
          rw [← hdone]
          exact List.mem_map.mpr ⟨p, hp, rfl⟩
        obtain ⟨p2, hp2, he2⟩ := List.mem_map.mp this
        rw [← he2]
        exact hdisj p2 hp2
      simp only [encFields]
      rw [stageEntries_cons]
      rw [hpnd]
      rw [tyLookup_at ftsPre (an, bt) ftsRest2 hdisj]
      show (decode bt (_try_encode av) >>= fun dv =>
        stageEntries decode (ftsPre ++ (an, bt) :: ftsRest2) (encFields rest)
          (assocSet done an dv)) = .ok (done ++ (an, av) :: rest)
      rw [hdec]
      show stageEntries decode (ftsPre ++ (an, bt) :: ftsRest2) (encFields rest)
        (assocSet done an av) = .ok (done ++ (an, av) :: rest)
      rw [assocSet_append done an av hdone_ne]
      have hrec := ih (ftsPre ++ [(an, bt)]) ftsRest2 (done ++ [(an, av)])
        (by simp [hdone])
        hrest2
        (by
          have he : (ftsPre ++ [(an, bt)]) ++ ftsRest2 = ftsPre ++ (an, bt) :: ftsRest2 := by
            simp
          rw [he]
          exact hnd)
        (fun q hq2 => hq q (by simp [List.zip_cons_cons, hq2]))
      rw [show (ftsPre ++ [(an, bt)]) ++ ftsRest2 = ftsPre ++ (an, bt) :: ftsRest2 from by simp]
        at hrec
      rw [hrec]
      simp

theorem backfill_cons (kt : String × Ty) (fts : List (String × Ty))
    (staged : List (String × Val)) :
    backfill (kt :: fts) staged =
      backfill fts
        (if staged.any (fun p => p.1 = kt.1) then staged
         else staged ++ [(kt.1, defaultFor kt.2)]) := rfl

theorem backfill_total : ∀ (fts : List (String × Ty)) (staged : List (String × Val)),
    (∀ p ∈ fts, staged.any (fun q => q.1 = p.1) = true) → backfill fts staged = staged := by
  intro fts
  induction fts with
  | nil => intro staged _; rfl
  | cons kt fts2 ih =>
    intro staged h
    rw [backfill_cons, if_pos (h kt (by simp))]
    exact ih staged (fun p hp => h p (by simp [hp]))

theorem mkRecord_aligned : ∀ (fts : List (String × Ty)) (fvs : List (String × Val)),
    fvs.map Prod.fst = fts.map Prod.fst → (fts.map Prod.fst).Nodup →
    mkRecord fts fvs = fvs := by
  intro fts
  induction fts with
  | nil =>
    intro fvs h _
    have hnil : fvs = [] := by
      cases fvs with
      | nil => rfl
      | cons a as => simp at h
    subst hnil
    rfl
  | cons kt fts2 ih =>
    intro fvs h hnd
    cases fvs with
    | nil => simp at h
    | cons fv fvs2 =>
      obtain ⟨fn, fv2⟩ := fv
      obtain ⟨kn, kt2⟩ := kt
      simp only [List.map_cons] at h
      obtain ⟨h1, h2⟩ := List.cons_eq_cons.mp h
      subst h1
      simp only [List.map_cons, List.nodup_cons] at hnd
      obtain ⟨hnin, hnd2⟩ := hnd
      unfold mkRecord
      rw [List.map_cons]
      have hhead : (fn, (match valLookup ((fn, fv2) :: fvs2) fn with
          | some v => v | none => Val.none)) = (fn, fv2) := by
        rw [valLookup_cons_self]
      rw [hhead]
      have htail : fts2.map (fun kt => (kt.1, (match valLookup ((fn, fv2) :: fvs2) kt.1 with
          | some v => v | none => Val.none))) =
          fts2.map (fun kt => (kt.1, (match valLookup fvs2 kt.1 with
          | some v => v | none => Val.none))) := by
        refine List.map_congr_left (fun p hp => ?_)
        have hne : fn ≠ p.1 := fun he => hnin (he ▸ (List.mem_map.mpr ⟨p, hp, rfl⟩))
        rw [valLookup_skip (fn, fv2) fvs2 p.1 hne]
      rw [htail]
      exact congrArg _ (ih fvs2 h2 hnd2)

theorem hasTy_union_bad (args : List Ty) (v : Val)
    (hsh : ∀ t1 : Ty, args ≠ [t1, Ty.noneT]) :
    hasTy v (.union args) = false := by
  obtain ⟨k, hk⟩ : ∃ k, tyFuel (Ty.union args) = k + 1 :=
    ⟨tyFuel (Ty.union args) - 1, by have := tyFuel_pos (Ty.union args); omega⟩
  unfold hasTy
  rw [hk]
  match args, hsh with
  | [], _ => cases v <;> rfl
  | [t1], _ => cases v <;> rfl
  | [t1, t2], hsh =>
    cases t2
    case noneT => exact absurd rfl (hsh t1)
    all_goals cases v <;> rfl
  | t1 :: t2 :: t3 :: rest, _ => cases t2 <;> cases v <;> rfl

/-- The central round-trip induction: on every value that instantiates a
supported type shape and satisfies the working-vocabulary conditions,
decoding the encoding yields the value back. -/
theorem decode_encode_val :
    ∀ (f : Nat) (t : Ty) (v : Val), tyFuel t ≤ f → hasTy v t = true → goodVal v = true →
      decode t (_try_encode v) = .ok v := by
  intro f
  induction f using Nat.strong_induction_on with
  | _ f IH =>
    intro t v hf ht hg
    cases t with
    | any => cases v <;> exact Bool.noConfusion ht
    | noneT => cases v <;> exact Bool.noConfusion ht
    | int =>
      cases v
      case int n =>
        exact decode_passthrough Ty.int (Val.int n) rfl (fun h => Val.noConfusion h)
      all_goals exact Bool.noConfusion ht
    | float =>
      cases v
      case float q =>
        exact decode_passthrough Ty.float (Val.float q) rfl (fun h => Val.noConfusion h)
      all_goals exact Bool.noConfusion ht
    | bool =>
      cases v
      case bool b =>
        exact decode_passthrough Ty.bool (Val.bool b) rfl (fun h => Val.noConfusion h)
      all_goals exact Bool.noConfusion ht
    | str =>
      cases v
      case str s =>
        exact decode_passthrough Ty.str (Val.str s) rfl (fun h => Val.noConfusion h)
      all_goals exact Bool.noConfusion ht
    | datetime =>
      cases v
      case datetime d =>
        have ht2 : validDT d = true := ht
        have hg2 : dtGood d = true := hg
        show Val.datetime <$> _decode_datetime (_encode_datetime d) = .ok (.datetime d)
        rw [decode_encode_dt d ht2 hg2]
        rfl
      all_goals exact Bool.noConfusion ht
    | timedelta =>
      cases v
      case timedelta us =>
        have ht2 : (decide (tdMinUs ≤ us) && decide (us ≤ tdMaxUs)) = true := ht
        have hg2 : decide ((0 : Int) ≤ us) = true := hg
        rw [Bool.and_eq_true, decide_eq_true_eq, decide_eq_true_eq] at ht2
        rw [decide_eq_true_eq] at hg2
        show Val.timedelta <$> _decode_timedelta (_encode_timedelta us) = .ok (.timedelta us)
        rw [decode_encode_td us hg2 ht2.2]
        rfl
      all_goals exact Bool.noConfusion ht
    | uuid =>
      cases v
      case uuid n =>
        have ht2 : decide (n < 2 ^ 128) = true := ht
        rw [decide_eq_true_eq] at ht2
        show Val.uuid <$> _decode_uuid (_encode_uuid n) = .ok (.uuid n)
        rw [decode_encode_uuid n ht2]
        rfl
      all_goals exact Bool.noConfusion ht
    | enum en2 mems =>
      cases v
      case enumv en m =>
        have ht2 : (en == en2 && mems.contains m) = true := ht
        rw [Bool.and_eq_true, beq_iff_eq] at ht2
        obtain ⟨he, hmem⟩ := ht2
        subst he
        have hg2 : (upperStr (to_snake_case (to_camel_case m)) == m) = true := hg
        rw [beq_iff_eq] at hg2
        show decode (.enum en mems) (.str (to_camel_case m)) = .ok (.enumv en m)
        rw [decode_enum_str, hg2, if_pos hmem]
      all_goals exact Bool.noConfusion ht
    | union args =>
      by_cases hopt : ∃ t1, args = [t1, Ty.noneT]
      · obtain ⟨t1, rfl⟩ := hopt
        have e1 : tyFuel Ty.noneT = 1 := rfl
        have e2 : tyFuelL [t1, Ty.noneT] = tyFuel t1 + 1 := by
          simp only [tyFuelL, e1]
        have hfu : tyFuel (Ty.union [t1, Ty.noneT]) = tyFuel t1 + 2 := by
          simp only [tyFuel, e2]
          omega
        by_cases hv : v = Val.none
        · subst hv
          exact decode_none _
        · rw [decode_optional]
          rw [hasTy_optional t1 v hv] at ht
          exact IH (tyFuel t1) (by omega) t1 v (le_refl _) ht hg
      · push_neg at hopt
        rw [hasTy_union_bad args v hopt] at ht
        exact Bool.noConfusion ht
    | list et =>
      have hk : tyFuel (Ty.list et) = tyFuel et + 1 := by
        simp only [tyFuel]
        omega
      cases v
      case list xs =>
        rw [hasTy_list, List.all_eq_true] at ht
        have hg2 : goodList xs = true := hg
        show decode (.list et) (.list (encList xs)) = .ok (.list xs)
        rw [decode_list_list, encList_eq_map, mapME_map]
        rw [mapME_id_of _ xs (fun x hx =>
          IH (tyFuel et) (by omega) et x (le_refl _) (by simpa using ht x hx)
            (goodList_mem xs hg2 x hx))]
        rfl
      all_goals (unfold hasTy at ht; rw [hk] at ht; exact Bool.noConfusion ht)
    | dict kt vt =>
      have hk : tyFuel (Ty.dict kt vt) = tyFuel kt + tyFuel vt + 1 := by
        simp only [tyFuel]
        omega
      cases v
      case dict es =>
        rw [hasTy_dict, List.all_eq_true] at ht
        have hg2 : goodPairs es = true := hg
        show decode (.dict kt vt) (.dict (encPairs es)) = .ok (.dict es)
        rw [decode_dict_dict, encPairs_eq_map, mapME_map]
        rw [mapME_id_of _ es (fun p hp => by
          show (decode vt (_try_encode p.2)).map (fun w => (p.1, w)) = .ok p
          rw [IH (tyFuel vt) (by omega) vt p.2 (le_refl _) (by simpa using ht p hp)
            (goodPairs_mem es hg2 p hp)]
          rfl)]
        rfl
      all_goals (unfold hasTy at ht; rw [hk] at ht; exact Bool.noConfusion ht)
    | record tn fts =>
      have hk : tyFuel (Ty.record tn fts) = tyFuelF fts + 1 := by
        simp only [tyFuel]
        omega
      cases v
      case record vn fvs =>
        rw [hasTy_record] at ht
        simp only [Bool.and_eq_true, beq_iff_eq, decide_eq_true_eq, List.all_eq_true] at ht
        obtain ⟨⟨⟨hvn, hlen⟩, hzip⟩, hnd⟩ := ht
        subst hvn
        have hg2 : goodFields fvs = true := hg
        have hnames : fvs.map Prod.fst = fts.map Prod.fst :=
          zip_names_eq fvs fts hlen (fun q hq => ((hzip q hq).1))
        have hstage : stageEntries decode fts (encFields fvs) [] = .ok fvs :=
          stage_main fvs [] fts [] rfl hnames hnd (fun q hq2 => by
            have hm1 : q.1 ∈ fvs := (List.of_mem_zip hq2).1
            have hm2 : q.2 ∈ fts := (List.of_mem_zip hq2).2
            have hgf := goodFields_mem fvs hg2 q.1 hm1
            refine ⟨hgf.1, ?_⟩
            have hfle := tyFuelF_mem fts q.2 hm2
            exact IH (tyFuel q.2.2) (by omega) q.2.2 q.1.2 (le_refl _)
              (hzip q hq2).2 hgf.2)
        have hpresent : ∀ p ∈ fts, fvs.any (fun q => q.1 = p.1) = true := by
          intro p hp
          rw [List.any_eq_true]
          have hmm : p.1 ∈ fvs.map Prod.fst := by
            rw [hnames]
            exact List.mem_map.mpr ⟨p, hp, rfl⟩
          obtain ⟨q, hq2, hq3⟩ := List.mem_map.mp hmm
          exact ⟨q, hq2, by simp [hq3]⟩
        show decode (.record vn fts) (.dict (encFields fvs)) = .ok (.record vn fvs)
        rw [decode_record_dict, hstage]
        show Except.ok (Val.record vn (mkRecord fts (backfill fts fvs))) =
          Except.ok (Val.record vn fvs)
        rw [backfill_total fts fvs hpresent, mkRecord_aligned fts fvs hnames hnd]
      all_goals (unfold hasTy at ht; rw [hk] at ht; exact Bool.noConfusion ht)

/-! ## Characterisation of the duration decoder against its regex

`tdShape`/`tdWF` spell out, group by group, the strings matched by
`timedelta_pattern` (an optional day group of one or more digits followed
by a literal dot, two-digit hour/minute/second groups separated by colons,
and an optional fraction group of one or more digits after a dot). -/

def tdShape (day : Option (List Char)) (hh mm ss : List Char)
    (fr : Option (List Char)) : List Char :=
  (match day with | some d => d ++ ['.'] | none => []) ++
    (hh ++ ':' :: (mm ++ ':' :: (ss ++ (match fr with | none => [] | some f => '.' :: f))))

def tdWF (day : Option (List Char)) (hh mm ss : List Char)
    (fr : Option (List Char)) : Bool :=
  (match day with | none => true | some d => decide (d ≠ []) && d.all isDig) &&
    decide (hh.length = 2) && hh.all isDig &&
    decide (mm.length = 2) && mm.all isDig &&
    decide (ss.length = 2) && ss.all isDig &&
    (match fr with | none => true | some f => decide (f ≠ []) && f.all isDig)

theorem tdShape_some_eq (d hh mm ss : List Char) (fr : Option (List Char)) :
    tdShape (some d) hh mm ss fr = d ++ '.' :: tdShape none hh mm ss fr := by
  unfold tdShape
  simp only [List.append_assoc, List.cons_append, List.nil_append]

theorem tdHMS_shape (hh mm ss : List Char) (fr : Option (List Char))
    (h2 : hh.length = 2) (hd : hh.all isDig = true)
    (m2 : mm.length = 2) (md : mm.all isDig = true)
    (s2 : ss.length = 2) (sd : ss.all isDig = true)
    (hfr : ∀ f, fr = some f → f ≠ [] ∧ f.all isDig = true) :
    tdHMS (tdShape none hh mm ss fr) =
      some (digitsVal hh, digitsVal mm, digitsVal ss, fr) := by
  cases fr with
  | none =>
    show tdHMS (hh ++ ':' :: (mm ++ ':' :: (ss ++ []))) =
      some (digitsVal hh, digitsVal mm, digitsVal ss, none)
    unfold tdHMS
    rw [read2_of_shape hh _ h2 hd]
    simp only [Option.bind_eq_bind, Option.some_bind, expect_cons_self]
    rw [read2_of_shape mm _ m2 md]
    simp only [Option.some_bind, expect_cons_self]
    rw [read2_of_shape ss _ s2 sd]
  | some f =>
    obtain ⟨hf1, hf2⟩ := hfr f rfl
    have hie : f.isEmpty = false := by
      cases f with
      | nil => exact absurd rfl hf1
      | cons a as => rfl
    show tdHMS (hh ++ ':' :: (mm ++ ':' :: (ss ++ '.' :: f))) =
      some (digitsVal hh, digitsVal mm, digitsVal ss, some f)
    unfold tdHMS
    rw [read2_of_shape hh _ h2 hd]
    simp only [Option.bind_eq_bind, Option.some_bind, expect_cons_self]
    rw [read2_of_shape mm _ m2 md]
    simp only [Option.some_bind, expect_cons_self]
    rw [read2_of_shape ss _ s2 sd]
    show (if (decide ('.' = '.') && !f.isEmpty && f.all isDig) = true
        then some (digitsVal hh, digitsVal mm, digitsVal ss, some f) else none) =
      some (digitsVal hh, digitsVal mm, digitsVal ss, some f)
    rw [if_pos (by simp [hie, hf2])]

theorem tdCore_day (d core : List Char) (hdne : d ≠ []) (hdd : d.all isDig = true)
    (g : Nat × Nat × Nat × Option (List Char)) (hcore : tdHMS core = some g) :
    tdCore (d ++ '.' :: core) = some (some d, g.1, g.2.1, g.2.2.1, g.2.2.2) := by
  have hde : d.isEmpty = false := by
    cases d with
    | nil => exact absurd rfl hdne
    | cons a as => rfl
  unfold tdCore
  rw [tdHMS_day_fail d core hdne hdd]
  rw [takeWhile_stop isDig d '.' core hdd rfl]
  rw [if_neg (by simp [hde])]
  rw [List.drop_left]
  show (tdHMS core).map (fun g2 => (some d, g2.1, g2.2.1, g2.2.2.1, g2.2.2.2)) = _
  rw [hcore]
  rfl

theorem tdCore_shape (day : Option (List Char)) (hh mm ss : List Char)
    (fr : Option (List Char)) (hwf : tdWF day hh mm ss fr = true) :
    tdCore (tdShape day hh mm ss fr) =
      some (day, digitsVal hh, digitsVal mm, digitsVal ss, fr) := by
  unfold tdWF at hwf
  simp only [Bool.and_eq_true, decide_eq_true_eq] at hwf
  obtain ⟨⟨⟨⟨⟨⟨⟨hday, h2⟩, hd⟩, m2⟩, md⟩, s2⟩, sd⟩, hfrB⟩ := hwf
  have hfr : ∀ f, fr = some f → f ≠ [] ∧ f.all isDig = true := by
    intro f hf
    subst hf
    simp only [Bool.and_eq_true, decide_eq_true_eq] at hfrB
    exact hfrB
  cases day with
  | none =>
    unfold tdCore
    rw [tdHMS_shape hh mm ss fr h2 hd m2 md s2 sd hfr]
  | some d =>
    simp only [Bool.and_eq_true, decide_eq_true_eq] at hday
    obtain ⟨hdne, hdd⟩ := hday
    rw [tdShape_some_eq]
    rw [tdCore_day d (tdShape none hh mm ss fr) hdne hdd
      (digitsVal hh, digitsVal mm, digitsVal ss, fr)
      (tdHMS_shape hh mm ss fr h2 hd m2 md s2 sd hfr)]

theorem tdMatch_shape (day : Option (List Char)) (hh mm ss : List Char)
    (fr : Option (List Char)) (hwf : tdWF day hh mm ss fr = true) :
    tdMatch (tdShape day hh mm ss fr) =
      some (day, digitsVal hh, digitsVal mm, digitsVal ss, fr) := by
  unfold tdMatch
  rw [tdCore_shape day hh mm ss fr hwf]

theorem decode_td_shape (day : Option (List Char)) (hh mm ss : List Char)
    (fr : Option (List Char)) (hwf : tdWF day hh mm ss fr = true) :
    _decode_timedelta ⟨tdShape day hh mm ss fr⟩ = tdOutcome day hh mm ss fr := by
  unfold _decode_timedelta
  rw [show (⟨tdShape day hh mm ss fr⟩ : String).data = tdShape day hh mm ss fr from rfl]
  rw [tdMatch_shape day hh mm ss fr hwf]
  rfl

theorem read2_sound (l : List Char) (n : Nat) (rest : List Char)
    (h : read2 l = some (n, rest)) :
    ∃ a b, l = a :: b :: rest ∧ isDig a = true ∧ isDig b = true ∧
      n = d2v a * 10 + d2v b := by
  match l with
  | [] => exact Option.noConfusion h
  | [a] => exact Option.noConfusion h
  | a :: b :: r =>
    by_cases hd : (isDig a && isDig b) = true
    · rw [read2, if_pos hd] at h
      simp only [Option.some.injEq, Prod.mk.injEq] at h
      obtain ⟨h1, h2⟩ := h
      rw [Bool.and_eq_true] at hd
      exact ⟨a, b, by rw [h2], hd.1, hd.2, h1.symm⟩
    · rw [read2, if_neg hd] at h
      exact Option.noConfusion h

theorem expect_sound (t : Char) (l rest : List Char) (h : expect t l = some rest) :
    l = t :: rest := by
  match l with
  | [] => exact Option.noConfusion h
  | c :: r =>
    by_cases hc : c = t
    · subst hc
      rw [expect, if_pos rfl] at h
      simp only [Option.some.injEq] at h
      rw [h]
    · rw [expect, if_neg hc] at h
      exact Option.noConfusion h

theorem tdHMS_sound (l : List Char) (h m s : Nat) (fro : Option (List Char))
    (hh : tdHMS l = some (h, m, s, fro)) :
    ∃ hhs mms sss, h = digitsVal hhs ∧ m = digitsVal mms ∧ s = digitsVal sss ∧
      hhs.length = 2 ∧ hhs.all isDig = true ∧ mms.length = 2 ∧ mms.all isDig = true ∧
      sss.length = 2 ∧ sss.all isDig = true ∧
      (∀ f, fro = some f → f ≠ [] ∧ f.all isDig = true) ∧
      l = tdShape none hhs mms sss fro := by
  unfold tdHMS at hh
  split at hh
  · exact Option.noConfusion hh
  rename_i h1 r1 hr1
  split at hh
  · exact Option.noConfusion hh
  rename_i r2 hr2
  split at hh
  · exact Option.noConfusion hh
  rename_i m1 r3 hr3
  split at hh
  · exact Option.noConfusion hh
  rename_i r4 hr4
  split at hh
  · exact Option.noConfusion hh
  rename_i s1 r5 hr5
  obtain ⟨a, b, hl, ha, hab, hval⟩ := read2_sound l h1 r1 hr1
  have he2 := expect_sound ':' r1 r2 hr2
  obtain ⟨c, d, hl3, hc, hcd, hmval⟩ := read2_sound r2 m1 r3 hr3
  have he4 := expect_sound ':' r3 r4 hr4
  obtain ⟨e, f, hl5, he, hef, hsval⟩ := read2_sound r4 s1 r5 hr5
  subst hl he2 hl3 he4 hl5
  cases r5 with
  | nil =>
    have hh0 : (some (h1, m1, s1, (none : Option (List Char))) :
        Option (Nat × Nat × Nat × Option (List Char))) = some (h, m, s, fro) := hh
    simp only [Option.some.injEq, Prod.mk.injEq] at hh0
    obtain ⟨hh1, hh2, hh3, hh4⟩ := hh0
    refine ⟨[a, b], [c, d], [e, f], ?_, ?_, ?_, rfl, by simp [ha, hab], rfl,
      by simp [hc, hcd], rfl, by simp [he, hef], ?_, ?_⟩
    · rw [digitsVal_pair]; omega
    · rw [digitsVal_pair]; omega
    · rw [digitsVal_pair]; omega
    · intro f2 hf2
      rw [← hh4] at hf2
      exact Option.noConfusion hf2
    · rw [← hh4]
      rfl
  | cons c2 fr2 =>
    have hh0 : (if (decide (c2 = '.') && !fr2.isEmpty && fr2.all isDig) = true
        then some (h1, m1, s1, some fr2) else none) = some (h, m, s, fro) := hh
    by_cases hcnd : (decide (c2 = '.') && !fr2.isEmpty && fr2.all isDig) = true
    · rw [if_pos hcnd] at hh0
      simp only [Option.some.injEq, Prod.mk.injEq] at hh0
      obtain ⟨hh1, hh2, hh3, hh4⟩ := hh0
      simp only [Bool.and_eq_true, decide_eq_true_eq, Bool.not_eq_true'] at hcnd
      obtain ⟨⟨hdot, hne⟩, hdig⟩ := hcnd
      subst hdot
      refine ⟨[a, b], [c, d], [e, f], ?_, ?_, ?_, rfl, by simp [ha, hab], rfl,
        by simp [hc, hcd], rfl, by simp [he, hef], ?_, ?_⟩
      · rw [digitsVal_pair]; omega
      · rw [digitsVal_pair]; omega
      · rw [digitsVal_pair]; omega
      · intro f2 hf2
        rw [← hh4] at hf2
        simp only [Option.some.injEq] at hf2
        subst hf2
        refine ⟨fun hemp => ?_, hdig⟩
        rw [hemp] at hne
        exact Bool.noConfusion hne
      · rw [← hh4]
        rfl
    · rw [if_neg hcnd] at hh0
      exact Option.noConfusion hh0

theorem takeWhile_all (p : Char → Bool) : ∀ l : List Char, (l.takeWhile p).all p = true := by
  intro l
  induction l with
  | nil => rfl
  | cons a rest ih =>
    rw [List.takeWhile_cons]
    cases hp : p a
    · rfl
    · simp [List.all_cons, hp, ih]

theorem takeWhile_drop_recomb (p : Char → Bool) : ∀ l : List Char,
    l.takeWhile p ++ l.drop (l.takeWhile p).length = l := by
  intro l
  induction l with
  | nil => rfl
  | cons a rest ih =>
    cases hp : p a
    · rw [List.takeWhile_cons, hp]
      simp
    · rw [List.takeWhile_cons, hp, if_pos rfl]
      simp only [List.length_cons, List.drop_succ_cons, List.cons_append]
      rw [ih]

theorem tdCore_sound (l : List Char) (day : Option (List Char)) (h m s : Nat)
    (fro : Option (List Char)) (hc : tdCore l = some (day, h, m, s, fro)) :
    ∃ hhs mms sss, tdWF day hhs mms sss fro = true ∧ l = tdShape day hhs mms sss fro := by
  unfold tdCore at hc
  split at hc
  case _ h1 m1 s1 fr1 htd =>
    simp only [Option.some.injEq, Prod.mk.injEq] at hc
    obtain ⟨hday, hh1, hm1, hs1, hfr1⟩ := hc
    obtain ⟨hhs, mms, sss, hH, hM, hS, p2, pd, q2, qd, r2, rd, hfr, hl⟩ :=
      tdHMS_sound l h1 m1 s1 fr1 htd
    subst hday
    subst hfr1
    refine ⟨hhs, mms, sss, ?_, hl⟩
    unfold tdWF
    simp only [Bool.and_eq_true, decide_eq_true_eq]
    refine ⟨⟨⟨⟨⟨⟨⟨trivial, p2⟩, pd⟩, q2⟩, qd⟩, r2⟩, rd⟩, ?_⟩
    cases fr1 with
    | none => exact rfl
    | some f =>
      obtain ⟨hf1, hf2⟩ := hfr f rfl
      simp [hf1, hf2]
  case _ htd =>
    split at hc
    · exact Option.noConfusion hc
    rename_i hemp
    split at hc
    case _ rest heq =>
      obtain ⟨g, hg, hgeq⟩ := Option.map_eq_some'.mp hc
      obtain ⟨h1, m1, s1, fr1⟩ := g
      simp only [Prod.mk.injEq] at hgeq
      obtain ⟨hday, hh1, hm1, hs1, hfr1⟩ := hgeq
      obtain ⟨hhs, mms, sss, hH, hM, hS, p2, pd, q2, qd, r2, rd, hfr, hl⟩ :=
        tdHMS_sound rest h1 m1 s1 fr1 hg
      subst hfr1
      have htwne : (l.takeWhile isDig) ≠ [] := by
        intro hnil
        rw [hnil] at hemp
        exact hemp rfl
      refine ⟨hhs, mms, sss, ?_, ?_⟩
      · rw [← hday]
        unfold tdWF
        simp only [Bool.and_eq_true, decide_eq_true_eq]
        refine ⟨⟨⟨⟨⟨⟨⟨⟨htwne, takeWhile_all isDig l⟩, p2⟩, pd⟩, q2⟩, qd⟩, r2⟩, rd⟩, ?_⟩
        cases fr1 with
        | none => exact rfl
        | some f =>
          obtain ⟨hf1, hf2⟩ := hfr f rfl
          simp [hf1, hf2]
      · rw [← hday, tdShape_some_eq, ← hl, ← heq]
        exact (takeWhile_drop_recomb isDig l).symm
    case _ =>
      exact Option.noConfusion hc

theorem tdMatch_sound (l : List Char)
    (g : Option (List Char) × Nat × Nat × Nat × Option (List Char))
    (h : tdMatch l = some g) :
    tdCore l = some g ∨ (l.getLast? = some '\n' ∧ tdCore l.dropLast = some g) := by
  unfold tdMatch at h
  split at h
  case _ g2 heq =>
    simp only [Option.some.injEq] at h
    subst h
    exact Or.inl heq
  case _ =>
    split at h
    · rename_i hnl
      exact Or.inr ⟨hnl, h⟩
    · exact Option.noConfusion h

theorem dropLast_append_getLast? (l : List Char) (c : Char) (h : l.getLast? = some c) :
    l.dropLast ++ [c] = l := by
  induction l with
  | nil => exact Option.noConfusion h
  | cons a rest ih =>
    cases rest with
    | nil =>
      simp only [List.getLast?_singleton, Option.some.injEq] at h
      subst h
      rfl
    | cons b rest2 =>
      rw [List.getLast?_cons_cons] at h
      show a :: ((b :: rest2).dropLast ++ [c]) = a :: (b :: rest2)
      rw [ih h]

theorem decode_td_only_shape (s : String) (h : _decode_timedelta s ≠ .error .exn) :
    ∃ day hh mm ss fr, tdWF day hh mm ss fr = true ∧
      (s.data = tdShape day hh mm ss fr ∨
       s.data = tdShape day hh mm ss fr ++ ['\n']) := by
  unfold _decode_timedelta at h
  cases hm : tdMatch s.data with
  | none =>
    rw [hm] at h
    exact absurd rfl h
  | some g =>
    obtain ⟨day, hx, mx, sx, fro⟩ := g
    rcases tdMatch_sound s.data _ hm with hcore | ⟨hnl, hcore⟩
    · obtain ⟨hh, mm, ss, hwf, hshape⟩ := tdCore_sound s.data day hx mx sx fro hcore
      exact ⟨day, hh, mm, ss, fro, hwf, Or.inl hshape⟩
    · obtain ⟨hh, mm, ss, hwf, hshape⟩ :=
        tdCore_sound s.data.dropLast day hx mx sx fro hcore
      refine ⟨day, hh, mm, ss, fro, hwf, Or.inr ?_⟩
      rw [← hshape]
      exact (dropLast_append_getLast? s.data '\n' hnl).symm

/-! ## The default backfill of absent record fields -/

theorem assocSet_keys (acc : List (String × Val)) (k : String) (v : Val)
    (q : String × Val) (hq : q ∈ assocSet acc k v) :
    q.1 ∈ acc.map Prod.fst ∨ q.1 = k := by
  unfold assocSet at hq
  split at hq
  · obtain ⟨p, hp, he⟩ := List.mem_map.mp hq
    by_cases hk : p.1 = k
    · rw [if_pos hk] at he
      rw [← he]
      exact Or.inr rfl
    · rw [if_neg hk] at he
      rw [← he]
      exact Or.inl (List.mem_map.mpr ⟨p, hp, rfl⟩)
  · rcases List.mem_append.mp hq with h1 | h1
    · exact Or.inl (List.mem_map.mpr ⟨q, h1, rfl⟩)
    · rcases List.mem_cons.mp h1 with h2 | h2
      · rw [h2]
        exact Or.inr rfl
      · simp at h2

theorem stage_keys (fts : List (String × Ty)) :
    ∀ (es acc staged : List (String × Val)),
      stageEntries decode fts es acc = .ok staged →
      ∀ q ∈ staged, q.1 ∈ acc.map Prod.fst ∨
        q.1 ∈ es.map (fun e => property_name_decoder e.1) := by
  intro es
  induction es with
  | nil =>
    intro acc staged h q hq
    have h2 : (Except.ok acc : Except PyErr (List (String × Val))) = .ok staged := h
    simp only [Except.ok.injEq] at h2
    subst h2
    exact Or.inl (List.mem_map.mpr ⟨q, hq, rfl⟩)
  | cons e rest ih =>
    intro acc staged h q hq
    rw [stageEntries_cons] at h
    split at h
    case _ pt hpt =>
      cases hdv : decode pt e.2 with
      | error err =>
        rw [hdv] at h
        exact Except.noConfusion
          (show (Except.error err : Except PyErr (List (String × Val))) = .ok staged from h)
      | ok dv =>
        rw [hdv] at h
        have h2 : stageEntries decode fts rest
            (assocSet acc (property_name_decoder e.1) dv) = .ok staged := h
        rcases ih _ staged h2 q hq with hin | hin
        · obtain ⟨p, hp, he⟩ := List.mem_map.mp hin
          rcases assocSet_keys acc _ dv p hp with h3 | h3
          · rw [← he]
            exact Or.inl h3
          · rw [← he, h3]
            exact Or.inr (by simp)
        · exact Or.inr (by simp only [List.map_cons, List.mem_cons]; exact Or.inr hin)
    case _ hpt =>
      rcases ih acc staged h q hq with hin | hin
      · exact Or.inl hin
      · exact Or.inr (by simp only [List.map_cons, List.mem_cons]; exact Or.inr hin)

theorem backfill_suffix : ∀ (fts : List (String × Ty)) (acc : List (String × Val)),
    ∃ extra, backfill fts acc = acc ++ extra ∧ ∀ q ∈ extra, q.1 ∈ fts.map Prod.fst := by
  intro fts
  induction fts with
  | nil =>
    intro acc
    exact ⟨[], by simp [backfill], by simp⟩
  | cons kt fts2 ih =>
    intro acc
    rw [backfill_cons]
    by_cases hany : acc.any (fun p => p.1 = kt.1) = true
    · rw [if_pos hany]
      obtain ⟨extra, he, hk⟩ := ih acc
      exact ⟨extra, he, fun q hq => by
        simp only [List.map_cons, List.mem_cons]
        exact Or.inr (hk q hq)⟩
    · rw [if_neg hany]
      obtain ⟨extra, he, hk⟩ := ih (acc ++ [(kt.1, defaultFor kt.2)])
      refine ⟨(kt.1, defaultFor kt.2) :: extra, ?_, ?_⟩
      · rw [he]
        simp
      · intro q hq
        rcases List.mem_cons.mp hq with h1 | h1
        · rw [h1]
          simp
        · simp only [List.map_cons, List.mem_cons]
          exact Or.inr (hk q h1)

theorem valLookup_append (l1 l2 : List (String × Val)) (k : String) :
    valLookup (l1 ++ l2) k =
      (match valLookup l1 k with | some v => some v | none => valLookup l2 k) := by
  induction l1 with
  | nil => rfl
  | cons p rest ih =>
    by_cases hp : p.1 = k
    · simp only [List.cons_append, valLookup, if_pos hp]
    · simp only [List.cons_append, valLookup, if_neg hp, List.append_eq, ih]

theorem valLookup_none_of (l : List (String × Val)) (k : String)
    (h : ∀ q ∈ l, q.1 ≠ k) : valLookup l k = none := by
  induction l with
  | nil => rfl
  | cons p rest ih =>
    rw [valLookup_skip p rest k (h p (by simp))]
    exact ih (fun q hq => h q (by simp [hq]))

theorem backfill_lookup_absent : ∀ (fts : List (String × Ty))
    (staged : List (String × Val)) (p : String × Ty), p ∈ fts →
    (fts.map Prod.fst).Nodup → (∀ q ∈ staged, q.1 ≠ p.1) →
    valLookup (backfill fts staged) p.1 = some (defaultFor p.2) := by
  intro fts
  induction fts with
  | nil =>
    intro staged p hp
    simp at hp
  | cons kt fts2 ih =>
    intro staged p hp hnd habs
    simp only [List.map_cons, List.nodup_cons] at hnd
    obtain ⟨hnin, hnd2⟩ := hnd
    rcases List.mem_cons.mp hp with h1 | h1
    · subst h1
      rw [backfill_cons]
      rw [if_neg (by
        intro hcon
        obtain ⟨q, hq, he⟩ := List.any_eq_true.mp hcon
        exact habs q hq (decide_eq_true_eq.mp he))]
      obtain ⟨extra, he2, hk2⟩ := backfill_suffix fts2 (staged ++ [(p.1, defaultFor p.2)])
      rw [he2]
      have hv1 : valLookup (staged ++ [(p.1, defaultFor p.2)]) p.1 =
          some (defaultFor p.2) := by
        rw [valLookup_append, valLookup_none_of staged p.1 habs]
        exact valLookup_cons_self p.1 (defaultFor p.2) []
      rw [valLookup_append, hv1]
    · have hkp : kt.1 ≠ p.1 := fun he => hnin (he ▸ List.mem_map.mpr ⟨p, h1, rfl⟩)
      rw [backfill_cons]
      by_cases hany : staged.any (fun q => q.1 = kt.1) = true
      · rw [if_pos hany]
        exact ih staged p h1 hnd2 habs
      · rw [if_neg hany]
        refine ih _ p h1 hnd2 ?_
        intro q hq
        rcases List.mem_append.mp hq with h2 | h2
        · exact habs q h2
        · rcases List.mem_cons.mp h2 with h3 | h3
          · rw [h3]
            exact hkp
          · simp at h3

theorem mkRecord_lookup : ∀ (fts : List (String × Ty)) (params : List (String × Val))
    (p : String × Ty), p ∈ fts → (fts.map Prod.fst).Nodup →
    valLookup (mkRecord fts params) p.1 =
      some (match valLookup params p.1 with | some v => v | none => Val.none) := by
  intro fts
  induction fts with
  | nil =>
    intro params p hp
    simp at hp
  | cons kt fts2 ih =>
    intro params p hp hnd
    simp only [List.map_cons, List.nodup_cons] at hnd
    obtain ⟨hnin, hnd2⟩ := hnd
    rcases List.mem_cons.mp hp with h1 | h1
    · subst h1
      show valLookup ((p.1, (match valLookup params p.1 with
        | some v => v | none => Val.none)) :: mkRecord fts2 params) p.1 = _
      exact valLookup_cons_self _ _ _
    · have hkp : kt.1 ≠ p.1 := fun he => hnin (he ▸ List.mem_map.mpr ⟨p, h1, rfl⟩)
      show valLookup ((kt.1, (match valLookup params kt.1 with
        | some v => v | none => Val.none)) :: mkRecord fts2 params) p.1 = _
      rw [valLookup_skip _ _ _ hkp]
      exact ih params p h1 hnd2

/-- Decoding a record from a wire map that never names a given declared
field yields that field's default (`0` for `int`, `0.0` for `float`,
null for everything else). -/
theorem decode_record_absent (nm : String) (fts : List (String × Ty))
    (es : List (String × Val)) (out : Val) (p : String × Ty)
    (hnd : (fts.map Prod.fst).Nodup) (hp : p ∈ fts)
    (habs : ∀ e ∈ es, property_name_decoder e.1 ≠ p.1)
    (hok : decode (.record nm fts) (.dict es) = .ok out) :
    ∃ fvs, out = .record nm fvs ∧ valLookup fvs p.1 = some (defaultFor p.2) := by
  rw [decode_record_dict] at hok
  cases hst : stageEntries decode fts es [] with
  | error e2 =>
    rw [hst] at hok
    exact Except.noConfusion (show (Except.error e2 : Except PyErr Val) = .ok out from hok)
  | ok staged =>
    rw [hst] at hok
    have hok2 : (Except.ok (Val.record nm (mkRecord fts (backfill fts staged))) :
        Except PyErr Val) = .ok out := hok
    simp only [Except.ok.injEq] at hok2
    refine ⟨mkRecord fts (backfill fts staged), hok2.symm, ?_⟩
    have hstk : ∀ q ∈ staged, q.1 ≠ p.1 := by
      intro q hq he
      rcases stage_keys fts es [] staged hst q hq with h2 | h2
      · simp at h2
      · obtain ⟨e, he2, he3⟩ := List.mem_map.mp h2
        exact habs e he2 (by rw [he3, he])
    rw [mkRecord_lookup fts _ p hp hnd]
    rw [backfill_lookup_absent fts staged p hp hnd hstk]

theorem backfill_all_absent : ∀ (fts : List (String × Ty)) (acc : List (String × Val)),
    (fts.map Prod.fst).Nodup → (∀ p ∈ fts, ∀ q ∈ acc, q.1 ≠ p.1) →
    backfill fts acc = acc ++ fts.map (fun kt => (kt.1, defaultFor kt.2)) := by
  intro fts
  induction fts with
  | nil =>
    intro acc _ _
    simp [backfill]
  | cons kt fts2 ih =>
    intro acc hnd h
    simp only [List.map_cons, List.nodup_cons] at hnd
    obtain ⟨hnin, hnd2⟩ := hnd
    rw [backfill_cons]
    rw [if_neg (by
      intro hcon
      obtain ⟨q, hq, he⟩ := List.any_eq_true.mp hcon
      exact h kt (by simp) q hq (decide_eq_true_eq.mp he))]
    rw [ih (acc ++ [(kt.1, defaultFor kt.2)]) hnd2 (by
      intro p hp q hq
      rcases List.mem_append.mp hq with h2 | h2
      · exact h p (by simp [hp]) q h2
      · rcases List.mem_cons.mp h2 with h3 | h3
        · rw [h3]
          exact fun he => hnin (he ▸ List.mem_map.mpr ⟨p, hp, rfl⟩)
        · simp at h3)]
    simp

/-- Decoding the empty wire map against a record type backfills every
declared field with its default. -/
theorem decode_record_empty (nm : String) (fts : List (String × Ty))
    (hnd : (fts.map Prod.fst).Nodup) :
    decode (.record nm fts) (.dict []) =
      .ok (.record nm (fts.map (fun kt => (kt.1, defaultFor kt.2)))) := by
  rw [decode_record_dict]
  show Except.ok (Val.record nm (mkRecord fts (backfill fts []))) = _
  rw [backfill_all_absent fts [] hnd (by simp)]
  rw [show ([] : List (String × Val)) ++
    fts.map (fun kt => (kt.1, defaultFor kt.2)) =
    fts.map (fun kt => (kt.1, defaultFor kt.2)) from rfl]
  rw [mkRecord_aligned fts (fts.map (fun kt => (kt.1, defaultFor kt.2)))
    (by rw [List.map_map]; rfl) hnd]

/-- A union that names `NoneType` among its arguments is decoded by
recursing on the union's first type argument. -/
theorem decode_union_first (a : Ty) (rest : List Ty) (d : Val)
    (hn : (a :: rest).any isNoneTy = true) :
    decode (.union (a :: rest)) d = decode a d := by
  have h : tyFuel (Ty.union (a :: rest)) = tyFuelL (a :: rest) + 1 := by
    simp only [tyFuel]
    omega
  cases d
  case none => rw [decode_none, decode_none]
  all_goals (
    unfold decode
    rw [h]
    simp only [decodeAux, hn, if_true]
    exact decodeAux_fuel (tyFuelL (a :: rest)) a _ (by have := tyFuel_head_le a rest; omega))

/-- The snake_case field names of every frozen dataclass the generated
client declares (the client's working vocabulary). -/
def workingVocab : List String :=
  ["acl", "acls", "alias", "attribute_count", "attributes", "base", "class_",
   "collection", "create", "created", "creation_properties", "datasets", "delete",
   "dims", "domain", "fields", "for_whom", "groups", "href", "hrefs", "id", "index",
   "last_modified", "layout", "link", "link_count", "links", "maxdims", "name",
   "owner", "read", "read_acl", "rel", "root", "shape", "target", "title", "type",
   "update", "update_acl", "username", "value"]

example : decode .int (.int 3) = .ok (.int 3) := by rfl
example : decode .int (.str "abc") = .ok (.str "abc") := by rfl
example : decode (.union [.str, .int]) (.str "x") = .error .typeError := by rfl
example : decode (.union [.str, .noneT]) (.str "x") = .ok (.str "x") := by rfl
example : decode (.list .int) (.list [.int 1, .int 2]) = .ok (.list [.int 1, .int 2]) := by rfl
example :
    decode (.record "R" [("count", .int), ("label", .union [.str, .noneT])]) (.dict []) =
      .ok (.record "R" [("count", .int 0), ("label", .none)]) := by rfl
example :
    decode (.record "R" [("last_modified", .float)]) (.dict [("lastModified", .float 5)]) =
      .ok (.record "R" [("last_modified", .float 5)]) := by rfl
example :
    decode (.record "R" [("class_", .str)]) (.dict [("class", .str "GROUP")]) =
      .ok (.record "R" [("class_", .str "GROUP")]) := by rfl
example :
    decode (.enum "E" ["GROUP", "DATASET"]) (.str "group") = .ok (.enumv "E" "GROUP") := by rfl
example :
    decode (.enum "E" ["GROUP", "DATASET"]) (.str "bogusValue") = .error .keyError := by rfl
example :
    _try_encode (.record "R" [("class_", .str "GROUP"), ("x_y", .none)]) =
      .dict [("class", .str "GROUP"), ("xY", .none)] := by rfl

example : to_camel_case "last_modified" = "lastModified" := by decide
example : to_snake_case "lastModified" = "last_modified" := by decide
example : to_snake_case "FOOBar" = "foo_bar" := by decide
example : to_camel_case "a_b_c" = "aBC" := by decide
example : to_snake_case "aBC" = "a_bc" := by decide
example : property_name_encoder "class_" = "class" := by decide
example : property_name_decoder "class" = "class_" := by decide

/-! ## The claims -/

/-- C1: round trip for records.  As stated the claim is false: an aware
timestamp field with nonzero microseconds encodes to a 27-character string
whose offset marker sits exactly at index 26, so the decoder's index-26
strip deletes it and the decoded value is naive.  The round trip does hold
for every value of a supported type shape whose scalar payloads satisfy the
constructor invariants and the working-vocabulary conditions (`goodVal`):
names that round-trip through the naming policy, naive or whole-minute
zero-microsecond timestamps, nonnegative durations. -/
theorem claim_C1_record_roundtrip (t : Ty) (v : Val)
    (ht : hasTy v t = true) (hg : goodVal v = true) :
    decode t (_try_encode v) = .ok v :=
  decode_encode_val (tyFuel t) t v (le_refl _) ht hg

/-- Witness for C1 at a concrete record value. -/
theorem claim_C1_witness :
    hasTy
      (Val.record "Domain" [("owner", .str "admin"),
        ("created", .datetime ⟨2024, 1, 2, 3, 4, 5, 0, some 0⟩),
        ("link_count", .int 3), ("alias", .str "alt")])
      (Ty.record "Domain" [("owner", .str), ("created", .datetime),
        ("link_count", .int), ("alias", .union [.str, .noneT])]) = true ∧
    goodVal
      (Val.record "Domain" [("owner", .str "admin"),
        ("created", .datetime ⟨2024, 1, 2, 3, 4, 5, 0, some 0⟩),
        ("link_count", .int 3), ("alias", .str "alt")]) = true ∧
    decode
      (Ty.record "Domain" [("owner", .str), ("created", .datetime),
        ("link_count", .int), ("alias", .union [.str, .noneT])])
      (_try_encode
        (Val.record "Domain" [("owner", .str "admin"),
          ("created", .datetime ⟨2024, 1, 2, 3, 4, 5, 0, some 0⟩),
          ("link_count", .int 3), ("alias", .str "alt")])) =
      .ok (Val.record "Domain" [("owner", .str "admin"),
        ("created", .datetime ⟨2024, 1, 2, 3, 4, 5, 0, some 0⟩),
        ("link_count", .int 3), ("alias", .str "alt")]) :=
  ⟨rfl, rfl, claim_C1_record_roundtrip _ _ rfl rfl⟩

/-- Counterexample to C1 as stated: a fully populated record of a supported
shape (an aware timestamp field with microseconds) decodes to a different
value — the decoder's character-26 strip deletes the `Z` and the timestamp
comes back naive. -/
theorem claim_C1_counterexample :
    hasTy
      (Val.record "R" [("created", .datetime ⟨2024, 1, 2, 3, 4, 5, 123456, some 0⟩)])
      (Ty.record "R" [("created", .datetime)]) = true ∧
    decode (Ty.record "R" [("created", .datetime)])
      (_try_encode
        (Val.record "R" [("created", .datetime ⟨2024, 1, 2, 3, 4, 5, 123456, some 0⟩)])) =
      .ok (Val.record "R" [("created", .datetime ⟨2024, 1, 2, 3, 4, 5, 123456, none⟩)]) ∧
    Val.record "R" [("created", .datetime ⟨2024, 1, 2, 3, 4, 5, 123456, none⟩)] ≠
      Val.record "R" [("created", .datetime ⟨2024, 1, 2, 3, 4, 5, 123456, some 0⟩)] := by
  refine ⟨rfl, rfl, ?_⟩
  intro h
  simp at h

/-- C2: default backfill.  Decoding the empty map against any record type
(with the distinct field names a dataclass guarantees) yields every field's
default; more generally any declared field never named by the wire payload
comes back defaulted; the defaults are `0` for `int`, `0.0` for `float`,
null otherwise; and the `{count, label}` instance decodes as claimed. -/
theorem claim_C2_backfill :
    (∀ (nm : String) (fts : List (String × Ty)),
      (fts.map Prod.fst).Nodup →
      decode (.record nm fts) (.dict []) =
        .ok (.record nm (fts.map (fun kt => (kt.1, defaultFor kt.2))))) ∧
    (∀ (nm : String) (fts : List (String × Ty)) (es : List (String × Val)) (out : Val)
      (p : String × Ty), (fts.map Prod.fst).Nodup → p ∈ fts →
      (∀ e ∈ es, property_name_decoder e.1 ≠ p.1) →
      decode (.record nm fts) (.dict es) = .ok out →
      ∃ fvs, out = .record nm fvs ∧ valLookup fvs p.1 = some (defaultFor p.2)) ∧
    defaultFor .int = .int 0 ∧ defaultFor .float = .float 0 ∧
    (∀ t : Ty, t ≠ .int → t ≠ .float → defaultFor t = .none) ∧
    decode (.record "R" [("count", .int), ("label", .union [.str, .noneT])]) (.dict []) =
      .ok (.record "R" [("count", .int 0), ("label", .none)]) := by
  refine ⟨decode_record_empty,
    fun nm fts es out p hnd hp habs hok => decode_record_absent nm fts es out p hnd hp habs hok,
    rfl, rfl, ?_, rfl⟩
  intro t h1 h2
  cases t <;> first
    | rfl
    | exact absurd rfl h1
    | exact absurd rfl h2

/-- Witness for C2 at a concrete record type and payload. -/
theorem claim_C2_witness :
    decode (.record "S" [("count", .int), ("title", .str)]) (.dict []) =
      .ok (.record "S" [("count", .int 0), ("title", .none)]) ∧
    ∃ fvs, Val.record "S" [("count", .int 5), ("title", .none)] = .record "S" fvs ∧
      valLookup fvs "title" = some (defaultFor .str) :=
  ⟨claim_C2_backfill.1 "S" [("count", .int), ("title", .str)] (by decide),
   claim_C2_backfill.2.1 "S" [("count", .int), ("title", .str)] [("count", .int 5)]
     (Val.record "S" [("count", .int 5), ("title", .none)]) ("title", .str)
     (by decide) (List.mem_cons_of_mem _ (List.mem_cons_self _ _))
     (by
       intro e he
       rcases List.mem_cons.mp he with h1 | h1
       · rw [h1]
         decide
       · simp at h1)
     rfl⟩

/-- C3: the claim says an unregistered, non-generic, non-record target makes
decode signal a fatal error.  In fact only non-`Optional` generic targets
fail — and for a union target the failure is a `TypeError` raised by the
`issubclass(origin, list)` test at line 107 itself, `typing.Union` not
being a class, so the explicit `raise Exception` at line 132 is
unreachable for unions.  Every other unmatched target falls through to
`return data` and the value is passed through unchanged. -/
theorem claim_C3_unsupported_raises :
    (∀ (args : List Ty) (d : Val), args.any isNoneTy = false → d ≠ .none →
      decode (.union args) d = .error .typeError) ∧
    (∀ (t : Ty) (d : Val), plainTarget t = true → d ≠ .none → decode t d = .ok d) :=
  ⟨decode_union_raises, decode_passthrough⟩

/-- Witness for C3 at concrete targets. -/
theorem claim_C3_witness :
    decode (.union [.str, .int]) (.str "x") = .error .typeError ∧
    decode .float (.int 7) = .ok (.int 7) :=
  ⟨claim_C3_unsupported_raises.1 [.str, .int] (.str "x") rfl (by simp),
   claim_C3_unsupported_raises.2 .float (.int 7) rfl (by simp)⟩

/-- Counterexample to C3 as stated: target `int` has no registered decoder
and is neither generic nor a record, yet decoding the string `"abc"`
against it returns the string unchanged instead of signalling an error. -/
theorem claim_C3_counterexample :
    decode Ty.int (Val.str "abc") = .ok (.str "abc") := rfl

/-- C4: timestamp decode accepts the canonical form.  As stated the claim is
false: when the encoder emits both a fraction and an offset, the offset
starts exactly at character 26, the decoder's tolerated-suffix strip
deletes its first character, and parsing fails (or, for `Z`, silently
yields a naive value).  The decoder does invert the encoder on every
in-range timestamp that is naive, or aware with zero microseconds and a
whole-minute offset. -/
theorem claim_C4_timestamp_roundtrip (d : PyDatetime)
    (hv : validDT d = true) (hg : dtGood d = true) :
    _decode_datetime (_encode_datetime d) = .ok d :=
  decode_encode_dt d hv hg

/-- Witness for C4 at a concrete aware timestamp. -/
theorem claim_C4_witness :
    validDT ⟨2024, 1, 2, 3, 4, 5, 0, some 3600000000⟩ = true ∧
    dtGood ⟨2024, 1, 2, 3, 4, 5, 0, some 3600000000⟩ = true ∧
    _decode_datetime (_encode_datetime ⟨2024, 1, 2, 3, 4, 5, 0, some 3600000000⟩) =
      .ok ⟨2024, 1, 2, 3, 4, 5, 0, some 3600000000⟩ :=
  ⟨by decide, by decide, claim_C4_timestamp_roundtrip _ (by decide) (by decide)⟩

/-- Counterexample to C4 as stated: the encoder's own output for a
timestamp with fractional seconds and a nonzero offset is rejected by the
decoder. -/
theorem claim_C4_counterexample :
    validDT ⟨2024, 1, 2, 3, 4, 5, 123456, some 3600000000⟩ = true ∧
    _encode_datetime ⟨2024, 1, 2, 3, 4, 5, 123456, some 3600000000⟩ =
      "2024-01-02T03:04:05.123456+01:00" ∧
    _decode_datetime "2024-01-02T03:04:05.123456+01:00" = .error .valueError :=
  ⟨by decide, by decide, rfl⟩

/-- C5: duration encode format.  As stated the claim is false in one point:
the integer day count and its dot are always present, zero included.  The
rest of the format is as claimed: two-digit `HH:MM:SS`, then the
microsecond count zero-padded to six digits with a fixed trailing `0`. -/
theorem claim_C5_duration_format (n : Nat) :
    (_encode_timedelta (n : Int)).data =
      natChars (n / 86400000000) ++ '.' ::
        (pad2 (n % 86400000000 / 1000000 / 3600) ++ ':' ::
         pad2 (n % 86400000000 / 1000000 % 3600 / 60) ++ ':' ::
         pad2 (n % 86400000000 / 1000000 % 3600 % 60) ++ '.' ::
         pad6 (n % 1000000) ++ ['0']) :=
  encode_td_data n

/-- Counterexample to C5 as stated: a one-hour duration has day count zero,
yet the encoder still prints the day field. -/
theorem claim_C5_counterexample :
    _encode_timedelta 3600000000 = "0.01:00:00.0000000" ∧
    ("0.01:00:00.0000000" : String) ≠ "01:00:00.0000000" :=
  ⟨by decide, by decide⟩

/-- C6: duration decode.  As stated the claim is false in two points.  The
decoder does accept exactly the strings matching the pattern (under Python
semantics, where `$` also matches before one trailing newline), a missing
day group counts as zero, and the `3000.00:08:07.1250000` instance decodes
as claimed.  But the fraction group is not divided by ten exactly: it is
computed as `int(match.group(5)) / 10.0` in binary64 floating point and
the result rounded half to even by the `timedelta` constructor, which
diverges from exact division for groups of `2 ^ 53` and beyond —
`"00:00:00.7107521602475165645"` yields `710752160247516544` microseconds,
not the exact-division value `710752160247516564`.  And a matching string
whose value exceeds the `timedelta` range raises `OverflowError` instead
of returning the parsed value. -/
theorem claim_C6_duration_decode :
    (∀ (day : Option (List Char)) (hh mm ss : List Char) (fr : Option (List Char)),
      tdWF day hh mm ss fr = true →
      _decode_timedelta ⟨tdShape day hh mm ss fr⟩ = tdOutcome day hh mm ss fr) ∧
    (∀ s : String, _decode_timedelta s ≠ .error .exn →
      ∃ day hh mm ss fr, tdWF day hh mm ss fr = true ∧
        (s.data = tdShape day hh mm ss fr ∨
         s.data = tdShape day hh mm ss fr ++ ['\n'])) ∧
    _decode_timedelta "3000.00:08:07.1250000" = .ok 259200487125000 ∧
    _decode_timedelta "00:00:00.7107521602475165645" = .ok 710752160247516544 :=
  ⟨decode_td_shape, decode_td_only_shape, rfl, rfl⟩

/-- Witness for C6 at a concrete matching string and a concrete accepted
input. -/
theorem claim_C6_witness :
    _decode_timedelta
      ⟨tdShape (some ['3']) ['0', '2'] ['1', '0'] ['0', '5']
        (some ['1', '2', '5', '0', '0', '0', '0'])⟩ = .ok 267005125000 ∧
    ∃ day hh mm ss fr, tdWF day hh mm ss fr = true ∧
      (("12:00:00" : String).data = tdShape day hh mm ss fr ∨
       ("12:00:00" : String).data = tdShape day hh mm ss fr ++ ['\n']) :=
  ⟨(claim_C6_duration_decode.1 (some ['3']) ['0', '2'] ['1', '0'] ['0', '5']
      (some ['1', '2', '5', '0', '0', '0', '0']) (by decide)).trans (by rfl),
   claim_C6_duration_decode.2.1 "12:00:00" (by
     intro hcon
     exact Except.noConfusion
       (show (Except.ok (43200000000 : Int) : Except PyErr Int) = .error .exn from hcon))⟩

/-- Counterexample to C6 as stated: `"1000000000.00:00:00"` matches the
pattern, yet the decoder raises `OverflowError` rather than yielding the
parsed value. -/
theorem claim_C6_counterexample :
    tdWF (some ['1', '0', '0', '0', '0', '0', '0', '0', '0', '0'])
      ['0', '0'] ['0', '0'] ['0', '0'] none = true ∧
    ("1000000000.00:00:00" : String).data =
      tdShape (some ['1', '0', '0', '0', '0', '0', '0', '0', '0', '0'])
        ['0', '0'] ['0', '0'] ['0', '0'] none ∧
    _decode_timedelta "1000000000.00:00:00" = .error .overflowError :=
  ⟨by decide, rfl, rfl⟩

/-- C7: the naming-policy round trip holds on the client's entire working
vocabulary, including the reserved-word spelling `class_`, and the
`last_modified`/`lastModified` instances behave as claimed. -/
theorem claim_C7_naming_roundtrip :
    (workingVocab.all (fun nm =>
      property_name_decoder (property_name_encoder nm) == nm)) = true ∧
    to_camel_case "last_modified" = "lastModified" ∧
    to_snake_case "lastModified" = "last_modified" :=
  ⟨by decide, by decide, by decide⟩

/-- C8: the encoder maps a record to a dict with exactly one entry per
declared field, keyed by the wire rename of the field name, in declaration
order, and a null field value is emitted as an explicit null entry, never
omitted. -/
theorem claim_C8_encoder_presence :
    (∀ (nm : String) (fvs : List (String × Val)),
      _try_encode (.record nm fvs) =
        .dict (fvs.map (fun p => (property_name_encoder p.1, _try_encode p.2)))) ∧
    _try_encode Val.none = Val.none ∧
    _try_encode (.record "R" [("title", .str "t"), ("owner", .none)]) =
      .dict [("title", .str "t"), ("owner", .none)] :=
  ⟨fun _nm fvs => congrArg Val.dict (encFields_eq_map fvs), rfl, rfl⟩

/-- C9: primitive passthrough without validation — a plain target with no
registered decoder returns any non-null input unchanged, including the
string `"abc"` decoded against target `int`. -/
theorem claim_C9_passthrough :
    (∀ (t : Ty) (d : Val), plainTarget t = true → d ≠ .none → decode t d = .ok d) ∧
    decode .int (.str "abc") = .ok (.str "abc") :=
  ⟨decode_passthrough, rfl⟩

/-- Witness for C9 at a concrete target and value. -/
theorem claim_C9_witness : decode .bool (.str "yes") = .ok (.str "yes") :=
  claim_C9_passthrough.1 .bool (.str "yes") rfl (by simp)

/-- C10: a union without `NoneType` among its arguments always raises on
non-null input (the `TypeError` from `issubclass(typing.Union, list)` at
line 107), while a union naming `NoneType` is decoded by recursing on its
first type argument. -/
theorem claim_C10_union :
    (∀ (args : List Ty) (d : Val), args.any isNoneTy = false → d ≠ .none →
      decode (.union args) d = .error .typeError) ∧
    (∀ (a : Ty) (rest : List Ty) (d : Val), (a :: rest).any isNoneTy = true →
      decode (.union (a :: rest)) d = decode a d) ∧
    decode (.union [.str, .int]) (.str "x") = .error .typeError ∧
    decode (.union [.int, .noneT]) (.str "abc") = .ok (.str "abc") :=
  ⟨decode_union_raises, decode_union_first, rfl, rfl⟩

/-- Witness for C10 at concrete unions. -/
theorem claim_C10_witness :
    decode (.union [.float, .int]) (.int 2) = .error .typeError ∧
    decode (.union [.str, .noneT]) (.int 9) = decode .str (.int 9) :=
  ⟨claim_C10_union.1 [.float, .int] (.int 2) rfl (by simp),
   claim_C10_union.2.1 .str [.noneT] (.int 9) rfl⟩

end Hsds
